import Mathlib

set_option maxHeartbeats 1000000
set_option maxRecDepth 8000

/-!
Shallow embedding of the `datastruct` Rust library (files `src/lib.rs` and
`src/binary_util.rs`): a dynamically typed recursive value model `DValue`
with a textual grammar parser, a canonical renderer, weight and size
queries, a JSON bridge and a base64 binary payload wrapper.

Modelling conventions:
* Rust `&str` / `String` values are modelled as `List Char` (`Chars`).
* Rust `f64` is modelled by `F64`: exact rationals for finite values plus
  NaN and the two infinities.  Finite arithmetic is exact; f64 rounding and
  overflow are not modelled (no claim depends on them).
* `u8` bytes are modelled as `Nat`, with explicit `< 256` hypotheses where
  byte range matters.
* Functions that can panic in Rust return `Option`, with `Option.none`
  modelling the panic.
* `HashMap` is modelled as an association list; its unspecified iteration
  order is modelled as insertion order (the "accepted instability" of the
  specification).
-/

abbrev Chars := List Char

/-- Rationals in lowest terms, used to model finite `f64` values exactly.
All values produced by the embedding go through the normalizing constructor
`mkQ`, so syntactic equality coincides with value equality on them.  (A
self-contained type is used instead of Mathlib's `ℚ` so that every
operation is kernel-reducible and claims stay decidable.) -/
structure Q where
  num : Int
  den : Nat
deriving DecidableEq, Repr

/-- Normalizing constructor: divide out the gcd; a zero denominator
(never produced by the embedding) collapses to 0. -/
def mkQ (n : Int) (d : Nat) : Q :=
  if d = 0 then ⟨0, 1⟩
  else
    let g : Nat := n.natAbs.gcd d
    ⟨n / (g : Int), d / g⟩

/-- Exact rational addition (numerator cross product, then normalize). -/
def Q.add (a b : Q) : Q :=
  mkQ (a.num * (b.den : Int) + b.num * (a.den : Int)) (a.den * b.den)

/-- Whether the rational is negative. -/
def Q.isNeg (a : Q) : Bool := a.num < 0

/-- Model of Rust `f64`: finite values as exact rationals plus NaN and the
two infinities.  Finite addition is exact rational addition; f64 rounding
and overflow are not modelled. -/
inductive F64 where
  | finite (q : Q)
  | nan
  | inf
  | neginf
deriving DecidableEq, Repr

/-- The exact value of `f64::MAX`, namely `2 ^ 1024 - 2 ^ 971`. -/
def f64MAX : Q := ⟨((2 ^ 1024 - 2 ^ 971 : Nat) : Int), 1⟩

/-- f64 addition on the model: NaN propagates, opposite infinities give NaN,
finite addition is exact. -/
def F64.add : F64 → F64 → F64
  | .nan, _ => .nan
  | _, .nan => .nan
  | .inf, .neginf => .nan
  | .neginf, .inf => .nan
  | .inf, _ => .inf
  | _, .inf => .inf
  | .neginf, _ => .neginf
  | _, .neginf => .neginf
  | .finite a, .finite b => .finite (a.add b)

/-- Auxiliary digit accumulator for `natChars` (fuel-based so that the
kernel can evaluate it). -/
def natDigitsAux : Nat → Nat → Chars → Chars
  | 0, _, acc => acc
  | fuel + 1, n, acc =>
    if n = 0 then acc else natDigitsAux fuel (n / 10) (Nat.digitChar (n % 10) :: acc)

/-- Decimal digit characters of a natural number, most significant first
(Rust's `Display` for unsigned integers). -/
def natChars (n : Nat) : Chars :=
  if n = 0 then ['0'] else natDigitsAux (n + 1) n []

/-- Search for the smallest exponent `t ≤ fuel` with `d ∣ 10 ^ t`. -/
def decExpAux : Nat → Nat → Nat → Option Nat
  | 0, _, _ => Option.none
  | fuel + 1, d, t => if 10 ^ t % d = 0 then some t else decExpAux fuel d (t + 1)

/-- Smallest exponent `t` with `d ∣ 10 ^ t`, when one exists, i.e. when a
fraction with (reduced) denominator `d` has a terminating decimal
expansion.  The search cap 1100 covers every `f64`: an `f64` denominator is
`2 ^ k` with `k ≤ 1074`. -/
def decExp (d : Nat) : Option Nat := decExpAux 1100 d 0

/-- Left-pad a digit string with zeros to length `t`. -/
def padZeros (t : Nat) (ds : Chars) : Chars :=
  List.replicate (t - ds.length) '0' ++ ds

/-- Decimal rendering of the nonnegative rational `n / d` (in lowest terms):
exact positional decimal when the expansion terminates, matching Rust's
shortest-round-trip `Display` on the exactly-representable values.  For a
non-terminating expansion (never the value of an actual `f64`) a marker form
`n/d` is produced. -/
def fmtPosRat (n d : Nat) : Chars :=
  match decExp d with
  | some t =>
    let m := n * 10 ^ t / d
    if t = 0 then natChars m
    else natChars (m / 10 ^ t) ++ '.' :: padZeros t (natChars (m % 10 ^ t))
  | none => natChars n ++ '/' :: natChars d

/-- Rust `f64` `Display` formatting (`num.to_string()` in `DValue::to_string`):
plain positional decimal, `NaN`, `inf`, `-inf`. -/
def fmtF64 : F64 → Chars
  | .nan => "NaN".toList
  | .inf => "inf".toList
  | .neginf => "-inf".toList
  | .finite q => (if q.isNeg then ['-'] else []) ++ fmtPosRat q.num.natAbs q.den

/-- The standard base64 alphabet (RFC 4648), as used by
`base64::engine::general_purpose::STANDARD`. -/
def b64Alphabet : Chars :=
  "ABCDEFGHIJKLMNOPQRSTUVWXYZabcdefghijklmnopqrstuvwxyz0123456789+/".toList

/-- Character for a sextet value below 64. -/
def sextetChar (n : Nat) : Char := b64Alphabet.getD n '?'

/-- Sextet value of an alphabet character; `Option.none` for characters
outside the alphabet (including `=`). -/
def b64CharVal (c : Char) : Option Nat :=
  let i := b64Alphabet.indexOf c
  if i < 64 then some i else none

/-- Base64 encoding with padding, as produced by the STANDARD engine's
`encode` (used by `Binary::to_string`).  Bytes are `Nat`s below 256. -/
def b64encode : List Nat → Chars
  | [] => []
  | [a] => [sextetChar (a / 4), sextetChar (a % 4 * 16), '=', '=']
  | [a, b] => [sextetChar (a / 4), sextetChar (a % 4 * 16 + b / 16), sextetChar (b % 16 * 4), '=']
  | a :: b :: c :: rest =>
    sextetChar (a / 4) :: sextetChar (a % 4 * 16 + b / 16) ::
      sextetChar (b % 16 * 4 + c / 64) :: sextetChar (c % 64) :: b64encode rest

/-- Base64 decoding as performed by `general_purpose::STANDARD.decode`:
canonical padding is required, non-alphabet symbols, bad lengths and
non-zero trailing bits are rejected (the STANDARD config decodes exactly
the canonical encodings). -/
def b64decode : Chars → Option (List Nat)
  | [] => some []
  | c1 :: c2 :: c3 :: c4 :: rest =>
    match b64CharVal c1, b64CharVal c2 with
    | some v1, some v2 =>
      if c3 = '=' then
        if c4 = '=' ∧ rest = [] then
          if v2 % 16 = 0 then some [v1 * 4 + v2 / 16] else Option.none
        else Option.none
      else
        match b64CharVal c3 with
        | some v3 =>
          if c4 = '=' then
            if rest = [] then
              if v3 % 4 = 0 then some [v1 * 4 + v2 / 16, v2 % 16 * 16 + v3 / 4]
              else Option.none
            else Option.none
          else
            match b64CharVal c4 with
            | some v4 =>
              (b64decode rest).map
                (fun bs => (v1 * 4 + v2 / 16) :: (v2 % 16 * 16 + v3 / 4) :: (v3 % 4 * 64 + v4) :: bs)
            | Option.none => Option.none
        | Option.none => Option.none
    | _, _ => Option.none
  | _ => Option.none

/-- The `Binary` payload of `src/binary_util.rs`: an owned byte buffer. -/
structure Binary where
  data : List Nat
deriving DecidableEq, Repr

/-- `Binary::new`. -/
def Binary.new (data : List Nat) : Binary := ⟨data⟩

/-- `Binary::size`: byte length of the buffer. -/
def Binary.size (b : Binary) : Nat := b.data.length

/-- `Binary::read`: a copy of the bytes. -/
def Binary.read (b : Binary) : List Nat := b.data

/-- `Binary::from_b64`: decode a base64 string, failing with the anyhow
context message on invalid input (`.context("Failed to decode base64
string")`). -/
def Binary.from_b64 (value : Chars) : Except Chars Binary :=
  match b64decode value with
  | some bytes => Except.ok (Binary.new bytes)
  | Option.none => Except.error ("Failed to decode base64 string".toList)

/-- `impl ToString for Binary`: note the source writes the literal text
`binary util!(...)`, not `binary!(...)`. -/
def Binary.to_string (b : Binary) : Chars :=
  "binary util!(".toList ++ b64encode b.data ++ [')']

/-- The `DValue` enum of `src/lib.rs`.  `Tuple`'s boxed pair becomes two
fields; `Dict`'s `HashMap<String, DValue>` becomes an association list in
iteration order. -/
inductive DValue where
  | none
  | string (s : Chars)
  | number (x : F64)
  | boolean (b : Bool)
  | list (items : List DValue)
  | dict (entries : List (Chars × DValue))
  | tuple (fst snd : DValue)
  | binaryUtil (bin : Binary)
deriving Repr

mutual

/-- Boolean structural equality on `DValue` (used only to obtain decidable
equality of the model type; the library's own `PartialEq` is the separate,
rendering-based `DValue.beq` below). -/
def dvalueBeq : DValue → DValue → Bool
  | .none, .none => true
  | .string s, .string t => s == t
  | .number x, .number y => x == y
  | .boolean a, .boolean b => a == b
  | .list l, .list m => dvalueListBeq l m
  | .dict d, .dict e => dvalueDictBeq d e
  | .tuple a b, .tuple c d => dvalueBeq a c && dvalueBeq b d
  | .binaryUtil a, .binaryUtil b => a == b
  | _, _ => false
termination_by structural v => v

/-- Elementwise `dvalueBeq` on lists. -/
def dvalueListBeq : List DValue → List DValue → Bool
  | [], [] => true
  | v :: vs, w :: ws => dvalueBeq v w && dvalueListBeq vs ws
  | _, _ => false
termination_by structural l => l

/-- Entrywise `dvalueBeq` on dict entry lists. -/
def dvalueDictBeq : List (Chars × DValue) → List (Chars × DValue) → Bool
  | [], [] => true
  | (k, v) :: vs, (k', w) :: ws => k == k' && dvalueBeq v w && dvalueDictBeq vs ws
  | _, _ => false
termination_by structural l => l

end

mutual

theorem dvalueBeq_iff : ∀ a b : DValue, dvalueBeq a b = true ↔ a = b
  | a, b => by
    cases a <;> cases b <;> simp only [dvalueBeq, Bool.and_eq_true] <;> try simp
    case list.list l m => simpa using dvalueListBeq_iff l m
    case dict.dict d e => simpa using dvalueDictBeq_iff d e
    case tuple.tuple a b c d => rw [dvalueBeq_iff a c, dvalueBeq_iff b d]

theorem dvalueListBeq_iff : ∀ l m : List DValue, dvalueListBeq l m = true ↔ l = m
  | l, m => by
    cases l <;> cases m <;> simp only [dvalueListBeq, Bool.and_eq_true] <;> try simp
    case cons.cons v vs w ws => rw [dvalueBeq_iff v w, dvalueListBeq_iff vs ws]

theorem dvalueDictBeq_iff :
    ∀ d e : List (Chars × DValue), dvalueDictBeq d e = true ↔ d = e
  | d, e => by
    cases d <;> cases e <;> simp only [dvalueDictBeq, Bool.and_eq_true] <;> try simp
    case cons.cons p ps q qs =>
      cases p; cases q
      simp only [dvalueDictBeq, Bool.and_eq_true, and_assoc]
      rw [dvalueBeq_iff, dvalueDictBeq_iff ps qs]
      simp [and_assoc]

end

instance : DecidableEq DValue := fun a b =>
  decidable_of_iff (dvalueBeq a b = true) (dvalueBeq_iff a b)

/-- Join character lists with a separator character (`Vec::join(",")`). -/
def joinSep (sep : Char) : List Chars → Chars
  | [] => []
  | [x] => x
  | x :: xs => x ++ sep :: joinSep sep xs

mutual

/-- `impl ToString for DValue`: the canonical renderer. -/
def DValue.to_string : DValue → Chars
  | .none => "none".toList
  | .string s => '"' :: s ++ ['"']
  | .number num => fmtF64 num
  | .boolean b => if b then "true".toList else "false".toList
  | .list l => '[' :: joinSep ',' (renderItems l) ++ [']']
  | .dict d => '\x7b' :: joinSep ',' (renderEntries d) ++ ['\x7d']
  | .tuple a b => '(' :: a.to_string ++ ',' :: ' ' :: b.to_string ++ [')']
  | .binaryUtil bin => bin.to_string
termination_by structural v => v

/-- Renderings of the elements of a list (`list.iter().map(to_string)`). -/
def renderItems : List DValue → List Chars
  | [] => []
  | v :: rest => v.to_string :: renderItems rest
termination_by structural l => l

/-- Renderings of the entries of a dict, each as `"k":v`. -/
def renderEntries : List (Chars × DValue) → List Chars
  | [] => []
  | (k, v) :: rest => ('"' :: k ++ '"' :: ':' :: v.to_string) :: renderEntries rest
termination_by structural l => l

end

/-- Numerals denote integer-valued rationals. -/
instance (n : Nat) : OfNat Q n := ⟨⟨n, 1⟩⟩

example : (DValue.list [DValue.number (F64.finite 1), DValue.number (F64.finite 2)]).to_string
    = "[1,2]".toList := by decide

example : (DValue.tuple (DValue.boolean true) (DValue.number (F64.finite 1))).to_string
    = "(true, 1)".toList := by decide

example : (DValue.number (F64.finite (mkQ 3 2))).to_string = "1.5".toList := by decide

example : (DValue.binaryUtil (Binary.new [109, 101, 109])).to_string
    = "binary util!(bWVt)".toList := by decide

/-!
The `ValueParser` of `src/lib.rs`, a recursive-descent parser built from nom
combinators.  Parsers are modelled as functions `Chars → Option (α × Chars)`
returning the parsed value and the unconsumed remainder; nom's
`Err::Error`/`Err::Failure` distinction collapses to `Option.none` (the only
`cut` in reach, inside `recognize_float`'s exponent, is observationally
equivalent under this collapse: no later alternative of `parse` can accept
an input on which it fires).  Recursion through nested values is driven by
an explicit fuel parameter decremented at each nested `parse` call; the
entry point supplies `length + 1` fuel, which is sufficient because every
nested call follows at least one consumed character.  Repetition loops
(`separated_list0`, `escaped`) carry their own iteration fuel, initialized
to `length + 1`, sufficient because every continuing iteration consumes at
least one character (nom's own no-progress guard is translated as well).
-/

/-- `multispace0`: drop leading ASCII whitespace. -/
def ms0 (i : Chars) : Chars :=
  i.dropWhile (fun c => c = ' ' ∨ c = '\t' ∨ c = '\r' ∨ c = '\n')

/-- nom `tag`: match a literal, returning the matched portion. -/
def tagP (t : Chars) (i : Chars) : Option (Chars × Chars) :=
  if t.isPrefixOf i then some (t, i.drop t.length) else Option.none

/-- nom `tag_no_case` (ASCII case-insensitive): the returned portion is the
input's own spelling. -/
def tagNoCase (t : Chars) (i : Chars) : Option (Chars × Chars) :=
  let p := i.take t.length
  if p.length = t.length ∧ (p.zip t).all (fun pr => pr.1.toLower = pr.2.toLower)
  then some (p, i.drop t.length)
  else Option.none

/-- nom `take_till1 p`: longest nonempty prefix of characters not
satisfying `p`. -/
def takeTill1 (p : Char → Bool) (i : Chars) : Option (Chars × Chars) :=
  let taken := i.takeWhile (fun c => ¬ p c)
  if taken.isEmpty then Option.none else some (taken, i.drop taken.length)

/-- nom `take_while_m_n m n p`: between `m` and `n` characters satisfying
`p`, as many as possible. -/
def takeWhileMN (m n : Nat) (p : Char → Bool) (i : Chars) : Option (Chars × Chars) :=
  let taken := (i.take n).takeWhile p
  if m ≤ taken.length then some (taken, i.drop taken.length) else Option.none

/-- `char::is_ascii_control`. -/
def isAsciiControl (c : Char) : Bool := c.toNat < 32 ∨ c.toNat = 127

/-- ASCII hexadecimal digit test (`char::is_ascii_hexdigit`). -/
def isHexDigitA (c : Char) : Bool :=
  c.isDigit ∨ ('a' ≤ c ∧ c ≤ 'f') ∨ ('A' ≤ c ∧ c ≤ 'F')

/-- The characters that stop a normal string run: backslash, quote, ASCII
control. -/
def isStrSpecial (c : Char) : Bool := c = '\\' ∨ c = '"' ∨ isAsciiControl c

/-- `ValueParser::normal`: a nonempty run free of backslash, quote and
ASCII control characters. -/
def normalP (i : Chars) : Option (Chars × Chars) :=
  takeTill1 isStrSpecial i

/-- `ValueParser::parse_hex`: peek a `u`, then exactly five characters each
a hex digit or `u`. -/
def parseHexP (i : Chars) : Option (Chars × Chars) :=
  match tagP ['u'] i with
  | some _ => takeWhileMN 5 5 (fun c => isHexDigitA c ∨ c = 'u') i
  | Option.none => Option.none

/-- `ValueParser::escapable`: one legal escape body. -/
def escapableP (i : Chars) : Option (Chars × Chars) :=
  match tagP ['"'] i with
  | some r => some r
  | Option.none =>
  match tagP ['\\'] i with
  | some r => some r
  | Option.none =>
  match tagP ['/'] i with
  | some r => some r
  | Option.none =>
  match tagP ['b'] i with
  | some r => some r
  | Option.none =>
  match tagP ['f'] i with
  | some r => some r
  | Option.none =>
  match tagP ['n'] i with
  | some r => some r
  | Option.none =>
  match tagP ['r'] i with
  | some r => some r
  | Option.none =>
  match tagP ['t'] i with
  | some r => some r
  | Option.none => parseHexP i

/-- nom's `escaped(normal, backslash, escapable)` loop: alternates normal
runs and escape sequences, stops (successfully, possibly empty) at the
first character that is neither, errors on a bad escape. -/
def escapedRun : Nat → Chars → Option (Chars × Chars)
  | 0, _ => Option.none
  | _, [] => some ([], [])
  | g + 1, c :: rest =>
    match normalP (c :: rest) with
    | some (taken, r) =>
      (escapedRun g r).map (fun p => (taken ++ p.1, p.2))
    | Option.none =>
      if c = '\\' then
        match escapableP rest with
        | some (esc, r2) => (escapedRun g r2).map (fun p => ('\\' :: esc ++ p.1, p.2))
        | Option.none => Option.none
      else some ([], c :: rest)

/-- `ValueParser::string_format`. -/
def string_format (i : Chars) : Option (Chars × Chars) :=
  escapedRun (i.length + 1) i

/-- `ValueParser::parse_str`: either the literal two-character tag `""`
(whose matched text, two quote characters, becomes the content) or a
quoted `string_format` body. -/
def parse_str (i : Chars) : Option (Chars × Chars) :=
  match tagP ['"', '"'] i with
  | some r => some r
  | Option.none =>
    match tagP ['"'] i with
    | some (_, r1) =>
      match string_format r1 with
      | some (content, r2) =>
        match tagP ['"'] r2 with
        | some (_, r3) => some (content, r3)
        | Option.none => Option.none
      | Option.none => Option.none
    | Option.none => Option.none

/-- `ValueParser::parse_bin`: `binary!()` (whose matched text is fed to the
base64 decoder and fails, yielding the empty payload) or a delimited
nonempty base64 body; a failed decode falls back to an empty `Binary`
(`unwrap_or`). -/
def parse_bin (i : Chars) : Option (Binary × Chars) :=
  let lit : Option (Chars × Chars) :=
    match tagP ("binary!()".toList) i with
    | some r => some r
    | Option.none =>
      match tagP ("binary!(".toList) i with
      | some (_, r1) =>
        match takeTill1 (fun c => c = '\\' ∨ c = ')' ∨ isAsciiControl c) r1 with
        | some (content, r2) =>
          match tagP [')'] r2 with
          | some (_, r3) => some (content, r3)
          | Option.none => Option.none
        | Option.none => Option.none
      | Option.none => Option.none
  match lit with
  | some (content, rest) =>
    some ((Binary.from_b64 content).toOption.getD (Binary.new []), rest)
  | Option.none => Option.none

/-- Longest digit run with its value (`digit1` plus decimal evaluation). -/
def digitRun (i : Chars) : Option (Nat × Nat × Chars) :=
  let ds := i.takeWhile Char.isDigit
  if ds.isEmpty then Option.none
  else some (ds.foldl (fun a c => a * 10 + (c.toNat - 48)) 0, ds.length, i.drop ds.length)

/-- Exact value assembled from the parts of a float literal. -/
def mkF64 (neg : Bool) (ip fv fl e : Nat) (eneg : Bool) : F64 :=
  if eneg then
    let n : Int := (ip * 10 ^ fl + fv : Nat)
    F64.finite (mkQ (if neg then -n else n) (10 ^ fl * 10 ^ e))
  else
    let n : Int := ((ip * 10 ^ fl + fv) * 10 ^ e : Nat)
    F64.finite (mkQ (if neg then -n else n) (10 ^ fl))

/-- Exponent part of `recognize_float` (`e`/`E`, optional sign, then
digits; missing digits fail the whole float parse, nom's `cut`). -/
def expPart (neg : Bool) (ip fv fl : Nat) (r : Chars) : Option (F64 × Chars) :=
  let (eneg, r2) : Bool × Chars :=
    match r with
    | c :: t => if c = '+' then (false, t) else if c = '-' then (true, t) else (false, r)
    | [] => (false, r)
  match digitRun r2 with
  | some (e, _, r3) => some (mkF64 neg ip fv fl e eneg, r3)
  | Option.none => Option.none

/-- Continuation after the mantissa: optional exponent. -/
def afterExp (neg : Bool) (ip fv fl : Nat) (r : Chars) : Option (F64 × Chars) :=
  match r with
  | c :: r1 =>
    if c = 'e' ∨ c = 'E' then expPart neg ip fv fl r1
    else some (mkF64 neg ip fv fl 0 false, r)
  | [] => some (mkF64 neg ip fv fl 0 false, r)

/-- The mantissa of `recognize_float` after the optional sign: either
digits with an optional `.`-fraction, or `.` with digits, then an optional
exponent. -/
def floatBody (neg : Bool) (i1 : Chars) : Option (F64 × Chars) :=
  match digitRun i1 with
  | some (ip, _, r1) =>
    match r1 with
    | c :: r =>
      if c = '.' then
        match digitRun r with
        | some (fv, fl, r2) => afterExp neg ip fv fl r2
        | Option.none => afterExp neg ip 0 0 r
      else afterExp neg ip 0 0 r1
    | [] => afterExp neg ip 0 0 r1
  | Option.none =>
    match i1 with
    | c :: r =>
      if c = '.' then
        match digitRun r with
        | some (fv, fl, r2) => afterExp neg 0 fv fl r2
        | Option.none => Option.none
      else Option.none
    | [] => Option.none

/-- nom `recognize_float` with exact value computation: optional sign, then
the mantissa and optional exponent. -/
def parseFloat (i : Chars) : Option (F64 × Chars) :=
  match i with
  | c :: t =>
    if c = '+' then floatBody false t
    else if c = '-' then floatBody true t
    else floatBody false (c :: t)
  | [] => floatBody false []

/-- nom `double` (`ValueParser::parse_num`): a float literal, else the
case-insensitive exceptions `nan`, `inf`, `infinity` (the last shadowed by
`inf`); no sign is accepted before the exceptions. -/
def double (i : Chars) : Option (F64 × Chars) :=
  match parseFloat i with
  | some r => some r
  | Option.none =>
    match tagNoCase ("nan".toList) i with
    | some (_, r) => some (F64.nan, r)
    | Option.none =>
      match tagNoCase ("inf".toList) i with
      | some (_, r) => some (F64.inf, r)
      | Option.none =>
        match tagNoCase ("infinity".toList) i with
        | some (_, r) => some (F64.inf, r)
        | Option.none => Option.none

/-- `ValueParser::parse_bool`: case-insensitive `true` / `false`. -/
def parse_bool (i : Chars) : Option (Bool × Chars) :=
  match tagNoCase ("true".toList) i with
  | some (_, r) => some (true, r)
  | Option.none =>
    match tagNoCase ("false".toList) i with
    | some (_, r) => some (false, r)
    | Option.none => Option.none

/-- `HashMap` insertion: an existing key is overwritten in place, a new key
appends (iteration order modeled as insertion order). -/
def hmInsert (m : List (Chars × DValue)) (k : Chars) (v : DValue) : List (Chars × DValue) :=
  if m.any (fun p => p.1 = k)
  then m.map (fun p => if p.1 = k then (k, v) else p)
  else m ++ [(k, v)]

/-- `Vec<(String, DValue)>::collect::<HashMap<_,_>>()`. -/
def collectHM (l : List (Chars × DValue)) : List (Chars × DValue) :=
  l.foldl (fun m p => hmInsert m p.1 p.2) []

/-- One element of a separated list: `delimited(multispace0, p, multispace0)`. -/
def elemOf {α : Type} (p : Chars → Option (α × Chars)) (i : Chars) : Option (α × Chars) :=
  (p (ms0 i)).map (fun q => (q.1, ms0 q.2))

/-- The loop of nom `separated_list0(tag(","), elem)`, including nom's
no-progress guard on the separator; the iteration fuel `g` is sufficient
whenever it exceeds the input length, since every continuing iteration
consumes the comma. -/
def sepLoop {α : Type} (elem : Chars → Option (α × Chars)) :
    Nat → List α → Chars → Option (List α × Chars)
  | 0, _, _ => Option.none
  | g + 1, acc, i =>
    match tagP [','] i with
    | Option.none => some (acc.reverse, i)
    | some (_, i1) =>
      if i1.length = i.length then Option.none
      else
        match elem i1 with
        | Option.none => some (acc.reverse, i)
        | some (v, i2) => sepLoop elem g (v :: acc) i2

/-- nom `separated_list0(tag(","), elem)`: empty on first element failure. -/
def sepList0 {α : Type} (elem : Chars → Option (α × Chars)) (g : Nat) (i : Chars) :
    Option (List α × Chars) :=
  match elem i with
  | Option.none => some ([], i)
  | some (v, i1) => sepLoop elem g [v] i1

/-- `ValueParser::parse_list` with the nested value parser passed in. -/
def parseListP (p : Chars → Option (DValue × Chars)) (i : Chars) :
    Option (List DValue × Chars) :=
  match tagP ['['] i with
  | some (_, r) =>
    match sepList0 (elemOf p) (r.length + 1) r with
    | some (l, r2) =>
      match tagP [']'] r2 with
      | some (_, r3) => some (l, r3)
      | Option.none => Option.none
    | Option.none => Option.none
  | Option.none => Option.none

/-- One dict pair: `separated_pair(ws string ws, ":", ws value ws)`. -/
def pairOf (p : Chars → Option (DValue × Chars)) (i : Chars) :
    Option ((Chars × DValue) × Chars) :=
  match parse_str (ms0 i) with
  | some (k, r) =>
    match tagP [':'] (ms0 r) with
    | some (_, r2) =>
      match p (ms0 r2) with
      | some (v, r4) => some ((k, v), ms0 r4)
      | Option.none => Option.none
    | Option.none => Option.none
  | Option.none => Option.none

/-- `ValueParser::parse_dict` with the nested value parser passed in:
braced pair list collected into a map. -/
def parseDictP (p : Chars → Option (DValue × Chars)) (i : Chars) :
    Option (List (Chars × DValue) × Chars) :=
  match tagP ['\x7b'] i with
  | some (_, r) =>
    match sepList0 (pairOf p) (r.length + 1) r with
    | some (l, r2) =>
      match tagP ['\x7d'] r2 with
      | some (_, r3) => some (collectHM l, r3)
      | Option.none => Option.none
    | Option.none => Option.none
  | Option.none => Option.none

/-- `ValueParser::parse_tuple` with the nested value parser passed in:
exactly two comma-separated values in parentheses. -/
def parseTupleP (p : Chars → Option (DValue × Chars)) (i : Chars) :
    Option ((DValue × DValue) × Chars) :=
  match tagP ['('] i with
  | some (_, r) =>
    match elemOf p r with
    | some (a, r1) =>
      match tagP [','] r1 with
      | some (_, r2) =>
        match elemOf p r2 with
        | some (b, r3) =>
          match tagP [')'] r3 with
          | some (_, r4) => some ((a, b), r4)
          | Option.none => Option.none
        | Option.none => Option.none
      | Option.none => Option.none
    | Option.none => Option.none
  | Option.none => Option.none

/-- `ValueParser::parse`: whitespace-delimited alternatives tried in order
number, boolean, string, list, dict, tuple, binary.  The fuel decreases at
each nesting level; since every nested `parse` call sits behind at least
one consumed character, fuel `length + 1` never runs out. -/
def parseVal : Nat → Chars → Option (DValue × Chars)
  | 0, _ => Option.none
  | f + 1, i =>
    let i1 := ms0 i
    let core : Option (DValue × Chars) :=
      match double i1 with
      | some (x, r) => some (DValue.number x, r)
      | Option.none =>
      match parse_bool i1 with
      | some (b, r) => some (DValue.boolean b, r)
      | Option.none =>
      match parse_str i1 with
      | some (s, r) => some (DValue.string s, r)
      | Option.none =>
      match parseListP (fun j => parseVal f j) i1 with
      | some (l, r) => some (DValue.list l, r)
      | Option.none =>
      match parseDictP (fun j => parseVal f j) i1 with
      | some (d, r) => some (DValue.dict d, r)
      | Option.none =>
      match parseTupleP (fun j => parseVal f j) i1 with
      | some (q, r) => some (DValue.tuple q.1 q.2, r)
      | Option.none =>
      match parse_bin i1 with
      | some (b, r) => some (DValue.binaryUtil b, r)
      | Option.none => Option.none
    core.map (fun q => (q.1, ms0 q.2))

/-- `ValueParser::parse` at the sufficient fuel `length + 1`. -/
def ValueParser.parse (i : Chars) : Option (DValue × Chars) :=
  parseVal (i.length + 1) i

/-- UTF-8 decoding of a byte sequence (`String::from_utf8`), rejecting
overlong forms, surrogates and out-of-range code points. -/
def utf8Decode : List Nat → Option Chars
  | [] => some []
  | b :: rest =>
    if b < 128 then (utf8Decode rest).map (fun cs => Char.ofNat b :: cs)
    else if 194 ≤ b ∧ b ≤ 223 then
      match rest with
      | b2 :: rest2 =>
        if 128 ≤ b2 ∧ b2 ≤ 191 then
          (utf8Decode rest2).map (fun cs => Char.ofNat ((b - 192) * 64 + (b2 - 128)) :: cs)
        else Option.none
      | [] => Option.none
    else if 224 ≤ b ∧ b ≤ 239 then
      match rest with
      | b2 :: b3 :: rest3 =>
        let lo2 := if b = 224 then 160 else 128
        let hi2 := if b = 237 then 159 else 191
        if (lo2 ≤ b2 ∧ b2 ≤ hi2) ∧ (128 ≤ b3 ∧ b3 ≤ 191) then
          (utf8Decode rest3).map
            (fun cs => Char.ofNat ((b - 224) * 4096 + (b2 - 128) * 64 + (b3 - 128)) :: cs)
        else Option.none
      | _ => Option.none
    else if 240 ≤ b ∧ b ≤ 244 then
      match rest with
      | b2 :: b3 :: b4 :: rest4 =>
        let lo2 := if b = 240 then 144 else 128
        let hi2 := if b = 244 then 143 else 191
        if (lo2 ≤ b2 ∧ b2 ≤ hi2) ∧ (128 ≤ b3 ∧ b3 ≤ 191) ∧ (128 ≤ b4 ∧ b4 ≤ 191) then
          (utf8Decode rest4).map
            (fun cs =>
              Char.ofNat ((b - 240) * 262144 + (b2 - 128) * 4096 + (b3 - 128) * 64 + (b4 - 128)) :: cs)
        else Option.none
      | _ => Option.none
    else Option.none

/-- The envelope test of `DValue::from`: starts with `b:` and ends with
`:`. -/
def envForm (data : Chars) : Prop :=
  ['b', ':'].isPrefixOf data ∧ data.getLast? = some ':'

instance (data : Chars) : Decidable (envForm data) := by
  unfold envForm; infer_instance

/-- Top-level collapse of `DValue::from`: a successful parse keeps the
value and discards the remainder, a failed parse yields `None`. -/
def topParse (s : Chars) : DValue :=
  match ValueParser.parse s with
  | some (v, _) => v
  | Option.none => DValue.none

/-- `DValue::from`.  The result is an `Option`: `Option.none` models a Rust
panic, which happens exactly on the input `b:` where the byte slice
`data[2..data.len() - 1]` has its start past its end.  On every other input
a value is produced: the envelope form decodes base64 then UTF-8 (failures
yield `None`), and the (possibly decoded) text is parsed, any failure
collapsing to `None`. -/
def DValue.from (data : Chars) : Option DValue :=
  if envForm data then
    if data.length = 2 then Option.none
    else
      match b64decode ((data.drop 2).dropLast) with
      | some bytes =>
        match utf8Decode bytes with
        | some s => some (topParse s)
        | Option.none => some DValue.none
      | Option.none => some DValue.none
  else some (topParse data)

example : ValueParser.parse ("[1,2,3,4,5]".toList) =
    some (DValue.list [DValue.number (F64.finite 1), DValue.number (F64.finite 2),
      DValue.number (F64.finite 3), DValue.number (F64.finite 4),
      DValue.number (F64.finite 5)], []) := by decide

example : ValueParser.parse ("(true,1)".toList) =
    some (DValue.tuple (DValue.boolean true) (DValue.number (F64.finite 1)), []) := by decide

example : ValueParser.parse ("binary!(bWVtZW50byBtb3Jp)".toList) =
    some (DValue.binaryUtil (Binary.new
      [109, 101, 109, 101, 110, 116, 111, 32, 109, 111, 114, 105]), []) := by decide

example : DValue.from ("[1,2".toList) = some DValue.none := by decide

example : DValue.from ("b:".toList) = Option.none := by decide

example : DValue.from ("\"\"".toList) = some (DValue.string ['"', '"']) := by decide

example : DValue.from ("1x".toList) = some (DValue.number (F64.finite 1)) := by decide

/-- The zero-replacement applied to child weights: `if w == f64::MAX then
0.0 else w` (a NaN weight is not equal to the sentinel and is kept). -/
def zeroIfMax : F64 → F64
  | .finite q => if q = f64MAX then F64.finite 0 else F64.finite q
  | w => w

/-- `Iterator::sum::<f64>()`: left fold of addition from 0.0. -/
def sumF64 (l : List F64) : F64 := l.foldl F64.add (F64.finite 0)

mutual

/-- `DValue::weight`: Number is its value; List/Dict sum their children's
weights after zero-replacing sentinel weights; Tuple adds its two
zero-replaced component weights; everything else (None, String, Boolean,
Binary) is the sentinel `f64::MAX`. -/
def DValue.weight : DValue → F64
  | .number num => num
  | .list items => sumF64 ((weightsOfItems items).map zeroIfMax)
  | .dict entries => sumF64 ((weightsOfValues entries).map zeroIfMax)
  | .tuple a b => F64.add (zeroIfMax a.weight) (zeroIfMax b.weight)
  | _ => F64.finite f64MAX
termination_by structural v => v

/-- Weights of list items (`items.iter().map(weight)`). -/
def weightsOfItems : List DValue → List F64
  | [] => []
  | v :: rest => v.weight :: weightsOfItems rest
termination_by structural l => l

/-- Weights of dict values (`entries.values().map(weight)`). -/
def weightsOfValues : List (Chars × DValue) → List F64
  | [] => []
  | (_, v) :: rest => v.weight :: weightsOfValues rest
termination_by structural l => l

end

/-- UTF-8 byte length of a string (Rust `String::len`). -/
def utf8Len (s : Chars) : Nat := (s.map Char.utf8Size).sum

mutual

/-- `DValue::size`: the recursive byte-size estimate. -/
def DValue.size : DValue → Nat
  | .none => 0
  | .string s => utf8Len s
  | .number _ => 8
  | .boolean _ => 1
  | .list l => sizeOfItems l
  | .dict d => sizeOfValues d
  | .tuple a b => a.size + b.size
  | .binaryUtil bin => bin.size
termination_by structural v => v

/-- Accumulated sizes of list items. -/
def sizeOfItems : List DValue → Nat
  | [] => 0
  | v :: rest => v.size + sizeOfItems rest
termination_by structural l => l

/-- Accumulated sizes of dict values (keys contribute nothing). -/
def sizeOfValues : List (Chars × DValue) → Nat
  | [] => 0
  | (_, v) :: rest => v.size + sizeOfValues rest
termination_by structural l => l

end

/-- `impl PartialEq for DValue`: equality of canonical renderings. -/
def DValue.beq (a b : DValue) : Bool := a.to_string == b.to_string

/-!
Round-trippable fragment for the text grammar (claim C1).  A rendered value
re-parses to itself exactly when its leaves avoid the known lossy cases:
Binary anywhere (its rendering `binary util!(...)` is not grammar text),
`None` below the top level (there is no `none` literal), empty or
grammar-unreadable string contents, numbers whose rendering the numeric
grammar cannot re-read (such as `-inf` or non-f64 rationals), and Dicts
with duplicate keys.  The string and number conditions are stated
directly as decidable re-parse checks.
-/

/-- A string content the grammar can re-read: nonempty and consumed
verbatim and completely by `string_format`. -/
def strOk (s : Chars) : Bool :=
  !s.isEmpty &&
    match string_format s with
    | some (t, r) => t == s && r.isEmpty
    | Option.none => false

/-- A number whose rendering re-parses to exactly itself. -/
def numOk (x : F64) : Bool :=
  match double (fmtF64 x) with
  | some (y, r) => y == x && r.isEmpty
  | Option.none => false

mutual

/-- Membership in the round-trippable fragment. -/
def goodV : DValue → Bool
  | .none => false
  | .string s => strOk s
  | .number x => numOk x
  | .boolean _ => true
  | .list l => goodItems l
  | .dict d => goodEntries d
  | .tuple a b => goodV a && goodV b
  | .binaryUtil _ => false
termination_by structural v => v

/-- All list items round-trippable. -/
def goodItems : List DValue → Bool
  | [] => true
  | v :: rest => goodV v && goodItems rest
termination_by structural l => l

/-- All dict entries round-trippable: readable keys, no duplicate key
later in the list, round-trippable values. -/
def goodEntries : List (Chars × DValue) → Bool
  | [] => true
  | (k, v) :: rest =>
    strOk k && !(rest.any (fun p => p.1 == k)) && goodV v && goodEntries rest
termination_by structural l => l

end

/-- Round-trippable at top level: the good fragment, plus `None` itself
(whose rendering `none` re-parses to `None` because the parse fails and
collapses to the `None` value). -/
def goodTop (v : DValue) : Bool := goodV v || v == DValue.none

/-- The remainder that follows a rendered subvalue inside a larger
rendering: empty, or starting with one of the four closing/separator
characters. -/
def termHead : Chars → Bool
  | [] => true
  | c :: _ => c = ',' ∨ c = ']' ∨ c = '\x7d' ∨ c = ')'

/-- The `,`-separated rendering of the elements after the first. -/
def seqTail : List DValue → Chars
  | [] => []
  | v :: rest => ',' :: v.to_string ++ seqTail rest

/-- One rendered dict entry, `"k":v`. -/
def entryRender (p : Chars × DValue) : Chars :=
  '"' :: p.1 ++ '"' :: ':' :: p.2.to_string

/-- The `,`-separated rendering of the dict entries after the first. -/
def seqTailE : List (Chars × DValue) → Chars
  | [] => []
  | p :: rest => ',' :: entryRender p ++ seqTailE rest

mutual

/-- Nesting depth of a value: a bound on the parser fuel consumed by nested
`parse` calls when re-reading its rendering. -/
def depthV : DValue → Nat
  | .list l => depthItems l + 1
  | .dict d => depthEntries d + 1
  | .tuple a b => max (depthV a) (depthV b) + 1
  | _ => 1
termination_by structural v => v

/-- Depth over list items. -/
def depthItems : List DValue → Nat
  | [] => 0
  | v :: rest => max (depthV v) (depthItems rest)
termination_by structural l => l

/-- Depth over dict values. -/
def depthEntries : List (Chars × DValue) → Nat
  | [] => 0
  | (_, v) :: rest => max (depthV v) (depthEntries rest)
termination_by structural l => l

end

/-- The closing character that follows the separated-element sequence
inside a composite rendering: `]`, the closing brace, or `)`. -/
def stopHead : Chars → Prop
  | [] => False
  | c :: _ => c = ']' ∨ c = '\x7d' ∨ c = ')'

/-!
The JSON bridge (`DValue::to_json` / `DValue::from_json`): `serde_json`
with the derived externally-tagged `Serialize`/`Deserialize` impls.  The
serializer writes the unit variant `None` as the bare string `"None"` and
every other variant as a one-entry object keyed by the variant name;
`serde_json::from_str` is modelled in two observationally equivalent
stages, a JSON document parse and the derived variant dispatch, any failure
collapsing to `None` through `unwrap_or`.
-/

/-- Lowercase hexadecimal digit. -/
def hexCharL (n : Nat) : Char :=
  if n < 10 then Char.ofNat (48 + n) else Char.ofNat (87 + n)

/-- serde_json's string escaping for one character: quote, backslash and
the named control escapes, other control characters as `\u00XX` (lowercase
hex), everything else raw. -/
def escJsonChar (c : Char) : Chars :=
  if c = '"' then ['\\', '"']
  else if c = '\\' then ['\\', '\\']
  else if c.toNat = 8 then ['\\', 'b']
  else if c.toNat = 12 then ['\\', 'f']
  else if c = '\n' then ['\\', 'n']
  else if c = '\r' then ['\\', 'r']
  else if c = '\t' then ['\\', 't']
  else if c.toNat < 32 then
    ['\\', 'u', '0', '0', hexCharL (c.toNat / 16), hexCharL (c.toNat % 16)]
  else [c]

/-- serde_json's string escaping. -/
def escJson : Chars → Chars
  | [] => []
  | c :: t => escJsonChar c ++ escJson t

/-- A JSON string literal: quoted escaped content. -/
def jstr (s : Chars) : Chars := '"' :: escJson s ++ ['"']

/-- serde_json's `f64` rendering (shortest-round-trip): integral values
with a trailing `.0`, otherwise the exact terminating decimal.  A
non-terminating rational (never an actual `f64` value) again gets a `n/d`
marker, which is not JSON-readable. -/
def jfmtQ (q : Q) : Chars :=
  (if q.isNeg then ['-'] else []) ++
    match decExp q.den with
    | some t =>
      if t = 0 then natChars q.num.natAbs ++ ['.', '0']
      else
        let m := q.num.natAbs * 10 ^ t / q.den
        natChars (m / 10 ^ t) ++ '.' :: padZeros t (natChars (m % 10 ^ t))
    | Option.none => natChars q.num.natAbs ++ '/' :: natChars q.den

/-- serde_json's rendering of an `f64` number value: NaN and the
infinities serialize as `null`. -/
def jnumF : F64 → Chars
  | F64.finite q => jfmtQ q
  | _ => "null".toList

/-- An externally-tagged one-entry object. -/
def jfield (name : Chars) (payload : Chars) : Chars :=
  '\x7b' :: jstr name ++ ':' :: payload ++ ['\x7d']

mutual

/-- `DValue::to_json` (`serde_json::to_string` with the derived
externally-tagged `Serialize`; on these values serialization never fails,
so the `unwrap_or("None")` branch is dead): the unit variant as a bare
string, every other variant as a one-entry object; `Tuple` as a
two-element array, `BinaryUtil` through its `data` byte array. -/
def DValue.to_json : DValue → Chars
  | .none => jstr ("None".toList)
  | .string s => jfield ("String".toList) (jstr s)
  | .number x => jfield ("Number".toList) (jnumF x)
  | .boolean b => jfield ("Boolean".toList) (if b then "true".toList else "false".toList)
  | .list l => jfield ("List".toList) ('[' :: joinSep ',' (jsonItems l) ++ [']'])
  | .dict d => jfield ("Dict".toList) ('\x7b' :: joinSep ',' (jsonEntries d) ++ ['\x7d'])
  | .tuple a b => jfield ("Tuple".toList) ('[' :: a.to_json ++ ',' :: b.to_json ++ [']'])
  | .binaryUtil bin => jfield ("BinaryUtil".toList)
      ('\x7b' :: jstr ("data".toList) ++ ':' :: '[' ::
        joinSep ',' (bin.data.map natChars) ++ [']', '\x7d'])
termination_by structural v => v

/-- JSON renderings of list items. -/
def jsonItems : List DValue → List Chars
  | [] => []
  | v :: rest => v.to_json :: jsonItems rest
termination_by structural l => l

/-- JSON renderings of dict entries, each as `"k":v`. -/
def jsonEntries : List (Chars × DValue) → List Chars
  | [] => []
  | (k, v) :: rest => (jstr k ++ ':' :: v.to_json) :: jsonEntries rest
termination_by structural l => l

end

/-- A parsed JSON document.  Numbers carry their exact rational value and
whether the token was an integer literal (no fraction, no exponent), which
is what integer deserialization such as `u8` for the binary payload
requires. -/
inductive Json where
  | null : Json
  | bool (b : Bool) : Json
  | num (q : Q) (isInt : Bool) : Json
  | str (s : Chars) : Json
  | arr (items : List Json) : Json
  | obj (entries : List (Chars × Json)) : Json

/-- Hexadecimal digit value. -/
def hexVal (c : Char) : Option Nat :=
  if '0' ≤ c ∧ c ≤ '9' then some (c.toNat - 48)
  else if 'a' ≤ c ∧ c ≤ 'f' then some (c.toNat - 87)
  else if 'A' ≤ c ∧ c ≤ 'F' then some (c.toNat - 55)
  else Option.none

/-- The `\\uXXXX` escape (after the `\\u`): four hex digits, a high
surrogate requiring an immediately following low surrogate escape. -/
def juEscape (i : Chars) : Option (Char × Chars) :=
  match i with
  | h1 :: h2 :: h3 :: h4 :: t3 =>
    match hexVal h1, hexVal h2, hexVal h3, hexVal h4 with
    | some v1, some v2, some v3, some v4 =>
      let cp := ((v1 * 16 + v2) * 16 + v3) * 16 + v4
      if 55296 ≤ cp ∧ cp < 56320 then
        match t3 with
        | e1 :: e2 :: h5 :: h6 :: h7 :: h8 :: t4 =>
          if e1 = '\\' ∧ e2 = 'u' then
            match hexVal h5, hexVal h6, hexVal h7, hexVal h8 with
            | some w1, some w2, some w3, some w4 =>
              let cp2 := ((w1 * 16 + w2) * 16 + w3) * 16 + w4
              if 56320 ≤ cp2 ∧ cp2 < 57344 then
                some (Char.ofNat (65536 + (cp - 55296) * 1024 + (cp2 - 56320)), t4)
              else Option.none
            | _, _, _, _ => Option.none
          else Option.none
        | _ => Option.none
      else if 56320 ≤ cp ∧ cp < 57344 then Option.none
      else some (Char.ofNat cp, t3)
    | _, _, _, _ => Option.none
  | _ => Option.none

/-- One escape sequence (after the backslash). -/
def jescChar (i : Chars) : Option (Char × Chars) :=
  match i with
  | [] => Option.none
  | e :: t2 =>
    if e = '"' then some ('"', t2)
    else if e = '\\' then some ('\\', t2)
    else if e = '/' then some ('/', t2)
    else if e = 'b' then some (Char.ofNat 8, t2)
    else if e = 'f' then some (Char.ofNat 12, t2)
    else if e = 'n' then some ('\n', t2)
    else if e = 'r' then some ('\r', t2)
    else if e = 't' then some ('\t', t2)
    else if e = 'u' then juEscape t2
    else Option.none

/-- JSON string body parser (after the opening quote): raw characters,
escape sequences, unescaped control characters rejected.  Iteration fuel;
each step consumes at least one character. -/
def jstrLoop : Nat → Chars → Option (Chars × Chars)
  | 0, _ => Option.none
  | _, [] => Option.none
  | g + 1, c :: t =>
    if c = '"' then some ([], t)
    else if c = '\\' then
      match jescChar t with
      | some (ch, r) => (jstrLoop g r).map (fun p => (ch :: p.1, p.2))
      | Option.none => Option.none
    else if c.toNat < 32 then Option.none
    else (jstrLoop g t).map (fun p => (c :: p.1, p.2))

/-- JSON integer part: a digit run without leading zeros. -/
def jdigits (i : Chars) : Option (Nat × Nat × Chars) :=
  match digitRun i with
  | some (v, n, r) =>
    if 2 ≤ n ∧ i.head? = some '0' then Option.none else some (v, n, r)
  | Option.none => Option.none

/-- Exact rational value of a JSON number literal from its parts. -/
def mkJQ (neg : Bool) (ip fv fl e : Nat) (eneg : Bool) : Q :=
  if eneg then
    let n : Int := (ip * 10 ^ fl + fv : Nat)
    mkQ (if neg then -n else n) (10 ^ fl * 10 ^ e)
  else
    let n : Int := ((ip * 10 ^ fl + fv) * 10 ^ e : Nat)
    mkQ (if neg then -n else n) (10 ^ fl)

/-- JSON exponent part: `e`/`E`, optional sign, mandatory digits. -/
def jexpPart (neg : Bool) (ip fv fl : Nat) (r : Chars) : Option ((Q × Bool) × Chars) :=
  let (eneg, r2) : Bool × Chars :=
    match r with
    | c :: t => if c = '+' then (false, t) else if c = '-' then (true, t) else (false, r)
    | [] => (false, r)
  match digitRun r2 with
  | some (e, _, r3) => some ((mkJQ neg ip fv fl e eneg, false), r3)
  | Option.none => Option.none

/-- Continuation after a JSON mantissa: optional exponent; the Boolean
records whether the literal was a plain integer. -/
def jafterExp (neg : Bool) (ip fv fl : Nat) (isInt : Bool) (r : Chars) :
    Option ((Q × Bool) × Chars) :=
  match r with
  | c :: r1 =>
    if c = 'e' ∨ c = 'E' then jexpPart neg ip fv fl r1
    else some ((mkJQ neg ip fv fl 0 false, isInt), r)
  | [] => some ((mkJQ neg ip fv fl 0 false, isInt), [])

/-- JSON number after the optional sign: integer part, optional nonempty
fraction, optional exponent. -/
def jnumBody (neg : Bool) (i : Chars) : Option ((Q × Bool) × Chars) :=
  match jdigits i with
  | some (ip, _, r1) =>
    match r1 with
    | c :: r =>
      if c = '.' then
        match digitRun r with
        | some (fv, fl, r2) => jafterExp neg ip fv fl false r2
        | Option.none => Option.none
      else jafterExp neg ip 0 0 true r1
    | [] => jafterExp neg ip 0 0 true r1
  | Option.none => Option.none

/-- JSON number literal. -/
def jnumber (i : Chars) : Option ((Q × Bool) × Chars) :=
  match i with
  | c :: t => if c = '-' then jnumBody true t else jnumBody false (c :: t)
  | [] => Option.none

/-- JSON array tail loop: element, then comma or closing bracket. -/
def jarrLoop (p : Chars → Option (Json × Chars)) :
    Nat → List Json → Chars → Option (List Json × Chars)
  | 0, _, _ => Option.none
  | g + 1, acc, i =>
    match p i with
    | Option.none => Option.none
    | some (j, r) =>
      match ms0 r with
      | c :: r2 =>
        if c = ',' then jarrLoop p g (j :: acc) r2
        else if c = ']' then some ((j :: acc).reverse, r2)
        else Option.none
      | [] => Option.none

/-- JSON object tail loop: string key, colon, value, then comma or closing
brace. -/
def jobjLoop (p : Chars → Option (Json × Chars)) :
    Nat → List (Chars × Json) → Chars → Option (List (Chars × Json) × Chars)
  | 0, _, _ => Option.none
  | g + 1, acc, i =>
    match ms0 i with
    | c :: t =>
      if c = '"' then
        match jstrLoop (t.length + 1) t with
        | Option.none => Option.none
        | some (k, r) =>
          match ms0 r with
          | c2 :: r2 =>
            if c2 = ':' then
              match p r2 with
              | Option.none => Option.none
              | some (j, r3) =>
                match ms0 r3 with
                | c3 :: r4 =>
                  if c3 = ',' then jobjLoop p g ((k, j) :: acc) r4
                  else if c3 = '\x7d' then some (((k, j) :: acc).reverse, r4)
                  else Option.none
                | [] => Option.none
            else Option.none
          | [] => Option.none
      else Option.none
    | [] => Option.none

/-- JSON value parser (the `serde_json` grammar): leading whitespace, then
null, booleans, strings, numbers, arrays or objects.  Fuel decreases at
each nesting level.  `depth` models serde_json's `remaining_depth`
recursion budget: entering any array or object decrements it, and a
decrement that reaches zero is the `RecursionLimitExceeded` error (the
`d + 2` pattern: the remaining budget must stay positive after the
decrement, and the body runs at `d + 1`). -/
def jparse : Nat → Nat → Chars → Option (Json × Chars)
  | 0, _, _ => Option.none
  | f + 1, depth, i =>
    match ms0 i with
    | [] => Option.none
    | c :: t =>
      if c = 'n' then
        match tagP ("ull".toList) t with
        | some (_, r) => some (Json.null, r)
        | Option.none => Option.none
      else if c = 't' then
        match tagP ("rue".toList) t with
        | some (_, r) => some (Json.bool true, r)
        | Option.none => Option.none
      else if c = 'f' then
        match tagP ("alse".toList) t with
        | some (_, r) => some (Json.bool false, r)
        | Option.none => Option.none
      else if c = '"' then
        match jstrLoop (t.length + 1) t with
        | some (s, r) => some (Json.str s, r)
        | Option.none => Option.none
      else if c = '[' then
        if 2 ≤ depth then
          match ms0 t with
          | c2 :: t2 =>
            if c2 = ']' then some (Json.arr [], t2)
            else
              (jarrLoop (fun j2 => jparse f (depth - 1) j2)
                ((c2 :: t2).length + 1) [] (c2 :: t2)).map
                (fun p => (Json.arr p.1, p.2))
          | [] => Option.none
        else Option.none
      else if c = '\x7b' then
        if 2 ≤ depth then
          match ms0 t with
          | c2 :: t2 =>
            if c2 = '\x7d' then some (Json.obj [], t2)
            else
              (jobjLoop (fun j2 => jparse f (depth - 1) j2)
                ((c2 :: t2).length + 1) [] (c2 :: t2)).map
                (fun p => (Json.obj p.1, p.2))
          | [] => Option.none
        else Option.none
      else if c = '-' ∨ c.isDigit then
        (jnumber (c :: t)).map (fun p => (Json.num p.1.1 p.1.2, p.2))
      else Option.none

/-- A whole JSON document, as `serde_json::from_str` reads one: a value
parsed with the default recursion budget of 128, then only trailing
whitespace. -/
def jsonDoc (data : Chars) : Option Json :=
  match jparse (data.length + 1) 128 data with
  | some (j, r) => if ms0 r = [] then some j else Option.none
  | Option.none => Option.none

/-- `u8` deserialization of the binary byte array: each element must be a
plain integer literal in range. -/
def bytesOfJson : List Json → Option (List Nat)
  | [] => some []
  | Json.num q isInt :: rest =>
    if isInt ∧ q.den = 1 ∧ 0 ≤ q.num ∧ q.num < 256 then
      (bytesOfJson rest).map (fun bs => q.num.natAbs :: bs)
    else Option.none
  | _ => Option.none

/-- Unit-variant payload (`None` with an explicit `null` payload). -/
def devNone : Json → Option DValue
  | .null => some DValue.none
  | _ => Option.none

/-- `String` payload. -/
def devString : Json → Option DValue
  | .str s => some (DValue.string s)
  | _ => Option.none

/-- `Number` payload: an `f64` deserializes from any JSON number and from
nothing else; in particular `null` (how a serialized NaN or infinity reads
back) fails. -/
def devNumber : Json → Option DValue
  | .num q _ => some (DValue.number (F64.finite q))
  | _ => Option.none

/-- `Boolean` payload. -/
def devBool : Json → Option DValue
  | .bool b => some (DValue.boolean b)
  | _ => Option.none

/-- `BinaryUtil` payload: the one-field `data` struct holding a `u8`
array. -/
def devBinary : Json → Option DValue
  | .obj [(kd, Json.arr bytes)] =>
    if kd = "data".toList then
      (bytesOfJson bytes).map (fun bs => DValue.binaryUtil (Binary.new bs))
    else Option.none
  | _ => Option.none

mutual

/-- The derived externally-tagged `Deserialize` for `DValue`, applied to a
parsed document: the unit variant from the bare string `"None"` (or a
one-entry object with a `null` payload), every other variant from a
one-entry object keyed by the variant name; `f64` payloads reject `null`
(which is how serialized NaN and infinities are lost), `Dict` collects
through `HashMap`, `Tuple` requires exactly two array elements. -/
def devalOfJson : Json → Option DValue
  | .str s => if s = "None".toList then some DValue.none else Option.none
  | .obj [(k, payload)] =>
    if k = "None".toList then devNone payload
    else if k = "String".toList then devString payload
    else if k = "Number".toList then devNumber payload
    else if k = "Boolean".toList then devBool payload
    else if k = "List".toList then devList payload
    else if k = "Dict".toList then devDict payload
    else if k = "Tuple".toList then devTuple payload
    else if k = "BinaryUtil".toList then devBinary payload
    else Option.none
  | _ => Option.none
termination_by structural j => j

/-- `List` payload: an array of values. -/
def devList : Json → Option DValue
  | .arr items => (devalsOfJson items).map DValue.list
  | _ => Option.none
termination_by structural j => j

/-- `Dict` payload: an object collected into a `HashMap`. -/
def devDict : Json → Option DValue
  | .obj entries =>
    (dentriesOfJson entries).map (fun l => DValue.dict (collectHM l))
  | _ => Option.none
termination_by structural j => j

/-- `Tuple` payload: exactly two array elements. -/
def devTuple : Json → Option DValue
  | .arr [a, b] =>
    (devalOfJson a).bind (fun va => (devalOfJson b).map (fun vb => DValue.tuple va vb))
  | _ => Option.none
termination_by structural j => j

/-- Element-wise deserialization of a JSON array into list items. -/
def devalsOfJson : List Json → Option (List DValue)
  | [] => some []
  | j :: rest =>
    (devalOfJson j).bind (fun v => (devalsOfJson rest).map (fun l => v :: l))
termination_by structural l => l

/-- Entry-wise deserialization of a JSON object into dict entries. -/
def dentriesOfJson : List (Chars × Json) → Option (List (Chars × DValue))
  | [] => some []
  | (k, j) :: rest =>
    (devalOfJson j).bind (fun v => (dentriesOfJson rest).map (fun l => (k, v) :: l))
termination_by structural l => l

end

/-- `DValue::from_json`: `serde_json::from_str(data).unwrap_or(Self::None)`. -/
def DValue.from_json (data : Chars) : DValue :=
  match jsonDoc data with
  | some j =>
    match devalOfJson j with
    | some v => v
    | Option.none => DValue.none
  | Option.none => DValue.none

mutual

/-- The parsed document corresponding to a serialized value. -/
def jsonOf : DValue → Json
  | .none => Json.str ("None".toList)
  | .string s => Json.obj [("String".toList, Json.str s)]
  | .number x =>
    Json.obj [("Number".toList,
      match x with
      | F64.finite q => Json.num q false
      | _ => Json.null)]
  | .boolean b => Json.obj [("Boolean".toList, Json.bool b)]
  | .list l => Json.obj [("List".toList, Json.arr (jsonOfItems l))]
  | .dict d => Json.obj [("Dict".toList, Json.obj (jsonOfEntries d))]
  | .tuple a b => Json.obj [("Tuple".toList, Json.arr [jsonOf a, jsonOf b])]
  | .binaryUtil bin =>
    Json.obj [("BinaryUtil".toList,
      Json.obj [("data".toList,
        Json.arr (bin.data.map (fun byte : Nat => Json.num ⟨(byte : Int), 1⟩ true)))])]
termination_by structural v => v

/-- Parsed documents of list items. -/
def jsonOfItems : List DValue → List Json
  | [] => []
  | v :: rest => jsonOf v :: jsonOfItems rest
termination_by structural l => l

/-- Parsed documents of dict entries. -/
def jsonOfEntries : List (Chars × DValue) → List (Chars × Json)
  | [] => []
  | (k, v) :: rest => (k, jsonOf v) :: jsonOfEntries rest
termination_by structural l => l

end

/-- A finite number whose serde_json rendering the JSON number grammar
re-reads exactly. -/
def jnumOk : F64 → Bool
  | F64.finite q =>
    (match jnumber (jfmtQ q) with
     | some ((q2, b), r) => q2 == q && !b && r.isEmpty
     | Option.none => false)
  | _ => false

mutual

/-- Membership in the JSON-round-trippable fragment: all numbers finite
and exactly re-readable, no duplicate dict keys, binary bytes in `u8`
range.  Strings (including dict keys) need no condition: serde's escaping
is inverted exactly by the string parser. -/
def jgoodV : DValue → Bool
  | .none => true
  | .string _ => true
  | .number x => jnumOk x
  | .boolean _ => true
  | .list l => jgoodItems l
  | .dict d => jgoodEntries d
  | .tuple a b => jgoodV a && jgoodV b
  | .binaryUtil bin => bin.data.all (fun byte => byte < 256)
termination_by structural v => v

/-- All list items JSON-round-trippable. -/
def jgoodItems : List DValue → Bool
  | [] => true
  | v :: rest => jgoodV v && jgoodItems rest
termination_by structural l => l

/-- All dict entries JSON-round-trippable, keys pairwise distinct. -/
def jgoodEntries : List (Chars × DValue) → Bool
  | [] => true
  | (k, v) :: rest =>
    !(rest.any (fun p => p.1 == k)) && jgoodV v && jgoodEntries rest
termination_by structural l => l

end

mutual

/-- Parser fuel bound for re-reading a serialized value: the envelope
object costs one level and its payload another. -/
def jdepthV : DValue → Nat
  | .none => 1
  | .list l => jdepthItems l + 2
  | .dict d => jdepthEntries d + 2
  | .tuple a b => max (jdepthV a) (jdepthV b) + 2
  | .binaryUtil _ => 4
  | _ => 2
termination_by structural v => v

/-- Fuel bound over list items. -/
def jdepthItems : List DValue → Nat
  | [] => 0
  | v :: rest => max (jdepthV v) (jdepthItems rest)
termination_by structural l => l

/-- Fuel bound over dict values. -/
def jdepthEntries : List (Chars × DValue) → Nat
  | [] => 0
  | (_, v) :: rest => max (jdepthV v) (jdepthEntries rest)
termination_by structural l => l

end

mutual

/-- Composite nesting of the serialized document: how many levels of
arrays and objects `from_json` descends below a value's serialization,
each consuming one unit of serde_json's recursion budget (the
externally-tagged envelope object counts, the bare `"None"` string does
not). -/
def jnestV : DValue → Nat
  | .none => 0
  | .list l => jnestItems l + 2
  | .dict d => jnestEntries d + 2
  | .tuple a b => max (jnestV a) (jnestV b) + 2
  | .binaryUtil _ => 3
  | _ => 1
termination_by structural v => v

/-- Nesting over list items. -/
def jnestItems : List DValue → Nat
  | [] => 0
  | v :: rest => max (jnestV v) (jnestItems rest)
termination_by structural l => l

/-- Nesting over dict values. -/
def jnestEntries : List (Chars × DValue) → Nat
  | [] => 0
  | (_, v) :: rest => max (jnestV v) (jnestEntries rest)
termination_by structural l => l

end

/-- A `List` nested `k` levels deep around a bare `None`, to probe the
recursion budget. -/
def deepList : Nat → DValue
  | 0 => DValue.none
  | k + 1 => DValue.list [deepList k]

/-- The comma-separated JSON renderings of list elements after the first. -/
def jseqTail : List DValue → Chars
  | [] => []
  | v :: rest => ',' :: v.to_json ++ jseqTail rest

/-- One rendered JSON dict entry, `"k":v`. -/
def jentryRender (p : Chars × DValue) : Chars :=
  jstr p.1 ++ ':' :: p.2.to_json

/-- The comma-separated JSON renderings of dict entries after the first. -/
def jseqTailE : List (Chars × DValue) → Chars
  | [] => []
  | p :: rest => ',' :: jentryRender p ++ jseqTailE rest

/-- The comma-separated renderings of binary bytes after the first. -/
def jseqTailB : List Nat → Chars
  | [] => []
  | b :: rest => ',' :: natChars b ++ jseqTailB rest

example : (DValue.list [DValue.number (F64.finite 3), DValue.number (F64.finite 6),
    DValue.number (F64.finite 9)]).to_json
    = "\x7b\"List\":[\x7b\"Number\":3.0\x7d,\x7b\"Number\":6.0\x7d,\x7b\"Number\":9.0\x7d]\x7d".toList := by
  decide

example : DValue.from_json ((DValue.list [DValue.number (F64.finite 3),
    DValue.boolean true, DValue.string ['h', 'i']]).to_json)
    = DValue.list [DValue.number (F64.finite 3), DValue.boolean true,
      DValue.string ['h', 'i']] := by decide

example : DValue.from_json ((DValue.number F64.nan).to_json) = DValue.none := by decide

example : DValue.from_json ((DValue.tuple (DValue.binaryUtil (Binary.new [109, 101]))
    (DValue.dict [(['a'], DValue.none)])).to_json)
    = DValue.tuple (DValue.binaryUtil (Binary.new [109, 101]))
      (DValue.dict [(['a'], DValue.none)]) := by decide

/-!  Theorems.  -/

theorem b64Alphabet_length : b64Alphabet.length = 64 := by decide

theorem sextetChar_round : ∀ n : Nat, n < 64 → b64CharVal (sextetChar n) = some n := by decide

theorem sextetChar_ne_pad : ∀ n : Nat, n < 64 → sextetChar n ≠ '=' := by decide

theorem b64CharVal_lt {c : Char} {v : Nat} (h : b64CharVal c = some v) : v < 64 := by
  unfold b64CharVal at h
  by_cases hlt : b64Alphabet.indexOf c < 64
  · simp [hlt] at h
    omega
  · simp [hlt] at h

theorem b64CharVal_inv {c : Char} {v : Nat} (h : b64CharVal c = some v) :
    sextetChar v = c := by
  unfold b64CharVal at h
  by_cases hlt : b64Alphabet.indexOf c < 64
  · simp [hlt] at h
    subst h
    have hl : b64Alphabet.indexOf c < b64Alphabet.length := by
      rw [b64Alphabet_length]; exact hlt
    unfold sextetChar
    rw [List.getD_eq_getElem _ _ hl]
    exact List.getElem_indexOf hl
  · simp [hlt] at h

theorem b64_roundtrip : ∀ l : List Nat, (∀ x ∈ l, x < 256) →
    b64decode (b64encode l) = some l
  | [], _ => rfl
  | [a], h => by
    have ha : a < 256 := h a (by simp)
    have h1 : a / 4 < 64 := by omega
    have h2 : a % 4 * 16 < 64 := by omega
    simp only [b64encode, b64decode, sextetChar_round _ h1, sextetChar_round _ h2]
    have e2 : a % 4 * 16 % 16 = 0 := by omega
    simp [e2]
    omega
  | [a, b], h => by
    have ha : a < 256 := h a (by simp)
    have hb : b < 256 := h b (by simp)
    have h1 : a / 4 < 64 := by omega
    have h2 : a % 4 * 16 + b / 16 < 64 := by omega
    have h3 : b % 16 * 4 < 64 := by omega
    have hne : sextetChar (b % 16 * 4) ≠ '=' := sextetChar_ne_pad _ h3
    simp only [b64encode, b64decode, sextetChar_round _ h1, sextetChar_round _ h2,
      sextetChar_round _ h3]
    rw [if_neg hne]
    have e3 : b % 16 * 4 % 4 = 0 := by omega
    simp [e3]
    constructor <;> omega
  | a :: b :: c :: rest, h => by
    have ha : a < 256 := h a (by simp)
    have hb : b < 256 := h b (by simp)
    have hc : c < 256 := h c (by simp)
    have h1 : a / 4 < 64 := by omega
    have h2 : a % 4 * 16 + b / 16 < 64 := by omega
    have h3 : b % 16 * 4 + c / 64 < 64 := by omega
    have h4 : c % 64 < 64 := by omega
    have hne3 : sextetChar (b % 16 * 4 + c / 64) ≠ '=' := sextetChar_ne_pad _ h3
    have hne4 : sextetChar (c % 64) ≠ '=' := sextetChar_ne_pad _ h4
    have ih := b64_roundtrip rest (fun x hx => h x (by simp [hx]))
    simp only [b64encode, b64decode, sextetChar_round _ h1, sextetChar_round _ h2,
      sextetChar_round _ h3, sextetChar_round _ h4]
    rw [if_neg hne3, if_neg hne4, ih]
    simp only [Option.map_some', Option.some_inj, List.cons.injEq]
    refine ⟨by omega, by omega, by omega, trivial⟩

theorem b64_canonical : ∀ s : Chars, ∀ bytes : List Nat,
    b64decode s = some bytes → (∀ x ∈ bytes, x < 256) ∧ b64encode bytes = s
  | [], bytes, h => by
    simp only [b64decode, Option.some_inj] at h
    subst h
    exact ⟨by simp, rfl⟩
  | [_], _, h => by simp [b64decode] at h
  | [_, _], _, h => by simp [b64decode] at h
  | [_, _, _], _, h => by simp [b64decode] at h
  | c1 :: c2 :: c3 :: c4 :: rest, bytes, h => by
    unfold b64decode at h
    cases hv1 : b64CharVal c1 with
    | none => rw [hv1] at h; simp at h
    | some v1 =>
    cases hv2 : b64CharVal c2 with
    | none => rw [hv1, hv2] at h; simp at h
    | some v2 =>
    rw [hv1, hv2] at h
    simp only [] at h
    have hb1 : v1 < 64 := b64CharVal_lt hv1
    have hb2 : v2 < 64 := b64CharVal_lt hv2
    have hc1 : sextetChar v1 = c1 := b64CharVal_inv hv1
    have hc2 : sextetChar v2 = c2 := b64CharVal_inv hv2
    by_cases h3pad : c3 = '='
    · rw [if_pos h3pad] at h
      by_cases h4pad : c4 = '=' ∧ rest = []
      · rw [if_pos h4pad] at h
        by_cases htb : v2 % 16 = 0
        · rw [if_pos htb] at h
          simp only [Option.some_inj] at h
          subst h
          refine ⟨by intro x hx; simp at hx; omega, ?_⟩
          obtain ⟨h4e, hre⟩ := h4pad
          simp only [b64encode, h3pad, h4e, hre]
          have e1 : (v1 * 4 + v2 / 16) / 4 = v1 := by omega
          have e2 : (v1 * 4 + v2 / 16) % 4 * 16 = v2 := by omega
          rw [e1, e2, hc1, hc2]
        · rw [if_neg htb] at h; simp at h
      · rw [if_neg h4pad] at h; simp at h
    · rw [if_neg h3pad] at h
      cases hv3 : b64CharVal c3 with
      | none => rw [hv3] at h; simp at h
      | some v3 =>
      rw [hv3] at h
      simp only [] at h
      have hb3 : v3 < 64 := b64CharVal_lt hv3
      have hc3 : sextetChar v3 = c3 := b64CharVal_inv hv3
      by_cases h4pad : c4 = '='
      · rw [if_pos h4pad] at h
        by_cases hre : rest = []
        · rw [if_pos hre] at h
          by_cases htb : v3 % 4 = 0
          · rw [if_pos htb] at h
            simp only [Option.some_inj] at h
            subst h
            refine ⟨by intro x hx; simp at hx; rcases hx with hx | hx <;> omega, ?_⟩
            simp only [b64encode, h4pad, hre]
            have e1 : (v1 * 4 + v2 / 16) / 4 = v1 := by omega
            have e2 : (v1 * 4 + v2 / 16) % 4 * 16 + (v2 % 16 * 16 + v3 / 4) / 16 = v2 := by
              omega
            have e3 : (v2 % 16 * 16 + v3 / 4) % 16 * 4 = v3 := by omega
            rw [e1, e2, e3, hc1, hc2, hc3]
          · rw [if_neg htb] at h; simp at h
        · rw [if_neg hre] at h; simp at h
      · rw [if_neg h4pad] at h
        cases hv4 : b64CharVal c4 with
        | none => rw [hv4] at h; simp at h
        | some v4 =>
        rw [hv4] at h
        simp only [] at h
        have hb4 : v4 < 64 := b64CharVal_lt hv4
        have hc4 : sextetChar v4 = c4 := b64CharVal_inv hv4
        cases hdec : b64decode rest with
        | none => rw [hdec] at h; simp at h
        | some bs =>
        rw [hdec] at h
        simp only [Option.map_some', Option.some_inj] at h
        subst h
        obtain ⟨hlt, henc⟩ := b64_canonical rest bs hdec
        constructor
        · intro x hx
          simp at hx
          rcases hx with hx | hx | hx | hx
          · omega
          · omega
          · omega
          · exact hlt x hx
        · simp only [b64encode, henc]
          have e1 : (v1 * 4 + v2 / 16) / 4 = v1 := by omega
          have e2 : (v1 * 4 + v2 / 16) % 4 * 16 + (v2 % 16 * 16 + v3 / 4) / 16 = v2 := by
            omega
          have e3 : (v2 % 16 * 16 + v3 / 4) % 16 * 4 + (v3 % 4 * 64 + v4) / 64 = v3 := by
            omega
          have e4 : (v3 % 4 * 64 + v4) % 64 = v4 := by omega
          rw [e1, e2, e3, e4, hc1, hc2, hc3, hc4]

/-- C10: `Binary::from_b64` on any text that is not valid base64 (not the
canonical STANDARD-alphabet encoding of any byte sequence, which is exactly
what the STANDARD engine accepts) fails with the explicit decode error
`Failed to decode base64 string` rather than returning an empty payload,
and on valid base64 it returns the payload holding the decoded bytes. -/
theorem c10_from_b64_contract :
    (∀ bytes : List Nat, (∀ x ∈ bytes, x < 256) →
      Binary.from_b64 (b64encode bytes) = Except.ok (Binary.new bytes))
    ∧ (∀ s : Chars, (¬ ∃ bytes : List Nat, (∀ x ∈ bytes, x < 256) ∧ b64encode bytes = s) →
        Binary.from_b64 s = Except.error ("Failed to decode base64 string".toList)) := by
  constructor
  · intro bytes h
    unfold Binary.from_b64
    rw [b64_roundtrip bytes h]
  · intro s hno
    unfold Binary.from_b64
    cases hdec : b64decode s with
    | none => rfl
    | some bs =>
      obtain ⟨hlt, henc⟩ := b64_canonical s bs hdec
      exact absurd ⟨bs, hlt, henc⟩ hno

/-- C10 witness: the contract applied to the bytes of `Hi` (encoding
`SGk=`) and to the invalid input `!`, which no byte sequence encodes to
since every encoding has length a multiple of four. -/
theorem c10_from_b64_witness :
    Binary.from_b64 ("SGk=".toList) = Except.ok (Binary.new [72, 105])
    ∧ Binary.from_b64 ("!".toList) = Except.error ("Failed to decode base64 string".toList) := by
  constructor
  · have h := c10_from_b64_contract.1 [72, 105] (by decide)
    have henc : b64encode [72, 105] = "SGk=".toList := by decide
    rw [henc] at h
    exact h
  · refine c10_from_b64_contract.2 ("!".toList) ?_
    rintro ⟨bytes, -, henc⟩
    have : (b64encode bytes).length % 4 = 0 := by
      clear henc
      induction bytes using b64encode.induct <;> simp [b64encode]
      omega
    rw [henc] at this
    simp at this

theorem weightsOfItems_eq_map (l : List DValue) :
    weightsOfItems l = l.map DValue.weight := by
  induction l with
  | nil => rfl
  | cons v rest ih => simp [weightsOfItems, ih]

theorem weightsOfValues_eq_map (d : List (Chars × DValue)) :
    weightsOfValues d = d.map (fun p => p.2.weight) := by
  induction d with
  | nil => rfl
  | cons p rest ih => cases p; simp [weightsOfValues, ih]

theorem sizeOfItems_eq_sum (l : List DValue) :
    sizeOfItems l = (l.map DValue.size).sum := by
  induction l with
  | nil => rfl
  | cons v rest ih => simp [sizeOfItems, ih]

theorem sizeOfValues_eq_sum (d : List (Chars × DValue)) :
    sizeOfValues d = (d.map (fun p => p.2.size)).sum := by
  induction d with
  | nil => rfl
  | cons p rest ih => cases p; simp [sizeOfValues, ih]

/-- C2: the claim that `DValue::from` never panics is contradicted by the
input `b:`, where the slice `data[2..data.len() - 1]` has its start index
past its end and Rust panics (`Option.none` in the model); the claim's own
example is otherwise honoured: the malformed input `[1,2` parses to the
`None` value. -/
theorem c2_from_panics_on_b_colon :
    DValue.from ("b:".toList) = Option.none
    ∧ DValue.from ("[1,2".toList) = some DValue.none := by decide

/-- C3: the canonical textual form produced by `Binary::to_string` is
`binary util!(<base64>)`, not the `binary!(<base64>)` literal the parser
accepts (shown on the repository's own `memento mori` test bytes), so
rendering a Binary value and re-parsing it collapses to `None` instead of
round-tripping. -/
theorem c3_binary_render_diverges :
    (Binary.new [109, 101, 109, 101, 110, 116, 111, 32, 109, 111, 114, 105]).to_string
      = "binary util!(bWVtZW50byBtb3Jp)".toList
    ∧ ValueParser.parse ("binary!(bWVtZW50byBtb3Jp)".toList)
      = some (DValue.binaryUtil
          (Binary.new [109, 101, 109, 101, 110, 116, 111, 32, 109, 111, 114, 105]), [])
    ∧ DValue.from ((DValue.binaryUtil
        (Binary.new [109, 101, 109, 101, 110, 116, 111, 32, 109, 111, 114, 105])).to_string)
      = some DValue.none := by decide

/-- C4 counterexample: the input `1x` — a valid value followed by
unconsumable text — yields `Number 1.0`, not the `None` value, refuting the
claim that trailing garbage yields `None`. -/
theorem c4_trailing_garbage_counterexample :
    DValue.from ("1x".toList) = some (DValue.number (F64.finite 1))
    ∧ ¬ DValue.from ("1x".toList) = some DValue.none := by decide

/-- C4 amended: at the top level of `DValue::from`, malformed input and
envelope decode or UTF-8 failures yield the `None` value, while an input
consisting of a valid value followed by extra text yields that parsed value
with the remainder discarded (not `None`). -/
theorem c4_top_level_amended :
    (∀ s : Chars, ¬ envForm s →
      (ValueParser.parse s = Option.none → DValue.from s = some DValue.none)
      ∧ (∀ v r, ValueParser.parse s = some (v, r) → DValue.from s = some v))
    ∧ (∀ s : Chars, envForm s → 2 < s.length →
        b64decode ((s.drop 2).dropLast) = Option.none → DValue.from s = some DValue.none)
    ∧ (∀ s bytes, envForm s → 2 < s.length →
        b64decode ((s.drop 2).dropLast) = some bytes → utf8Decode bytes = Option.none →
        DValue.from s = some DValue.none) := by
  refine ⟨fun s henv => ⟨fun hp => ?_, fun v r hp => ?_⟩,
    fun s henv hlen hdec => ?_, fun s bytes henv hlen hdec hutf => ?_⟩
  · simp [DValue.from, henv, topParse, hp]
  · simp [DValue.from, henv, topParse, hp]
  · have : ¬ s.length = 2 := by omega
    simp [DValue.from, henv, this, hdec]
  · have : ¬ s.length = 2 := by omega
    simp [DValue.from, henv, this, hdec, hutf]

/-- C4 witness: the amended statement applied at concrete inputs — parse
failure `[1,2`, trailing garbage `1x`, envelope base64 failure `b:!:`, and
envelope UTF-8 failure `b:/w==:` (base64 of the stray byte 255). -/
theorem c4_top_level_witness :
    DValue.from ("[1,2".toList) = some DValue.none
    ∧ DValue.from ("1x".toList) = some (DValue.number (F64.finite 1))
    ∧ DValue.from ("b:!:".toList) = some DValue.none
    ∧ DValue.from ("b:/w==:".toList) = some DValue.none := by
  refine ⟨(c4_top_level_amended.1 ("[1,2".toList) (by decide)).1 (by decide),
    (c4_top_level_amended.1 ("1x".toList) (by decide)).2
      (DValue.number (F64.finite 1)) ("x".toList) (by decide),
    c4_top_level_amended.2.1 ("b:!:".toList) (by decide) (by decide) (by decide),
    c4_top_level_amended.2.2 ("b:/w==:".toList) [255] (by decide) (by decide)
      (by decide) (by decide)⟩

/-- C5: parsing the two-character input of two double quotes yields a
String whose content is itself the two-character text of two double
quotes (the matched `tag("\"\"")`), not the empty string, and its
canonical rendering is therefore four double quotes. -/
theorem c5_two_quote_input :
    DValue.from ("\"\"".toList) = some (DValue.string ['"', '"'])
    ∧ (DValue.string ['"', '"']).to_string = "\"\"\"\"".toList := by decide

/-- C7: `weight` returns the numeric value for Number; for List, Dict and
Tuple the sum of the immediate children's weights with any child weight
equal to the non-numeric sentinel `f64::MAX` replaced by zero before
summing; and the sentinel for None, String, Boolean and Binary; in
particular the weight of `List[String("x"), Number(5.0)]` is `5.0`. -/
theorem c7_weight_contract :
    (∀ x, (DValue.number x).weight = x)
    ∧ (∀ l : List DValue,
        (DValue.list l).weight = sumF64 ((l.map DValue.weight).map zeroIfMax))
    ∧ (∀ d : List (Chars × DValue),
        (DValue.dict d).weight = sumF64 ((d.map (fun p => p.2.weight)).map zeroIfMax))
    ∧ (∀ a b : DValue,
        (DValue.tuple a b).weight = F64.add (zeroIfMax a.weight) (zeroIfMax b.weight))
    ∧ DValue.none.weight = F64.finite f64MAX
    ∧ (∀ s, (DValue.string s).weight = F64.finite f64MAX)
    ∧ (∀ b, (DValue.boolean b).weight = F64.finite f64MAX)
    ∧ (∀ bin, (DValue.binaryUtil bin).weight = F64.finite f64MAX)
    ∧ (DValue.list [DValue.string ['x'], DValue.number (F64.finite 5)]).weight
        = F64.finite 5 := by
  refine ⟨fun x => rfl, fun l => ?_, fun d => ?_, fun a b => rfl, rfl,
    fun s => rfl, fun b => rfl, fun bin => rfl, by decide⟩
  · rw [DValue.weight, weightsOfItems_eq_map]
  · rw [DValue.weight, weightsOfValues_eq_map]

/-- C8: library equality (`PartialEq`) of two Values holds exactly when
their canonical renderings are equal strings; consequently the two Dicts
with the same entries in different iteration orders below, whose renderings
differ, compare unequal. -/
theorem c8_eq_iff_rendering :
    (∀ a b : DValue, DValue.beq a b = true ↔ a.to_string = b.to_string)
    ∧ DValue.beq
        (DValue.dict [(['a'], DValue.number (F64.finite 1)),
                      (['b'], DValue.number (F64.finite 2))])
        (DValue.dict [(['b'], DValue.number (F64.finite 2)),
                      (['a'], DValue.number (F64.finite 1))]) = false
    ∧ (∀ p : Chars × DValue,
        p ∈ [(['a'], DValue.number (F64.finite 1)), (['b'], DValue.number (F64.finite 2))]
        ↔ p ∈ [(['b'], DValue.number (F64.finite 2)), (['a'], DValue.number (F64.finite 1))]) := by
  refine ⟨fun a b => ?_, by decide, fun p => ?_⟩
  · simp [DValue.beq]
  · simp [List.mem_cons]
    tauto

/-- C9: `size` is 0 for None, the UTF-8 byte length for String, 8 for
Number, 1 for Boolean, the buffer length for Binary, and the sum of the
children's sizes for List, Dict and Tuple with Dict keys contributing
nothing; in particular `Tuple(String("ab"), Number(1.0))` has size 10. -/
theorem c9_size_contract :
    DValue.none.size = 0
    ∧ (∀ s, (DValue.string s).size = utf8Len s)
    ∧ (∀ x, (DValue.number x).size = 8)
    ∧ (∀ b, (DValue.boolean b).size = 1)
    ∧ (∀ bin, (DValue.binaryUtil bin).size = bin.data.length)
    ∧ (∀ l : List DValue, (DValue.list l).size = (l.map DValue.size).sum)
    ∧ (∀ d : List (Chars × DValue),
        (DValue.dict d).size = (d.map (fun p => p.2.size)).sum)
    ∧ (∀ a b : DValue, (DValue.tuple a b).size = a.size + b.size)
    ∧ (DValue.tuple (DValue.string ['a', 'b']) (DValue.number (F64.finite 1))).size = 10 := by
  refine ⟨rfl, fun s => rfl, fun x => rfl, fun b => rfl, fun bin => rfl,
    fun l => ?_, fun d => ?_, fun a b => rfl, by decide⟩
  · rw [DValue.size, sizeOfItems_eq_sum]
  · rw [DValue.size, sizeOfValues_eq_sum]

/-!  Parser lemmas for the round-trip theorem (claim C1).  -/

theorem ms0_nil : ms0 [] = [] := rfl

theorem isWS_def (c : Char) :
    (decide (c = ' ' ∨ c = '\t' ∨ c = '\r' ∨ c = '\n')) = false ↔
      ¬ (c = ' ' ∨ c = '\t' ∨ c = '\r' ∨ c = '\n') := by
  simp

theorem ms0_cons_of_not_ws {c : Char} (h : ¬ (c = ' ' ∨ c = '\t' ∨ c = '\r' ∨ c = '\n'))
    (r : Chars) : ms0 (c :: r) = c :: r := by
  unfold ms0
  rw [List.dropWhile_cons_of_neg]
  simpa using h

theorem ms0_idem (i : Chars) : ms0 (ms0 i) = ms0 i := by
  unfold ms0
  induction i with
  | nil => rfl
  | cons c r ih =>
    by_cases h : (c = ' ' ∨ c = '\t' ∨ c = '\r' ∨ c = '\n')
    · rw [List.dropWhile_cons_of_pos (by simpa using h)]
      exact ih
    · rw [List.dropWhile_cons_of_neg (by simpa using h),
        List.dropWhile_cons_of_neg (by simpa using h)]

theorem ms0_term {r : Chars} (h : termHead r = true) : ms0 r = r := by
  cases r with
  | nil => rfl
  | cons c t =>
    simp only [termHead, decide_eq_true_eq] at h
    refine ms0_cons_of_not_ws ?_ t
    rcases h with h | h | h | h <;> subst h <;> decide

theorem parseVal_ms0 (f : Nat) (i : Chars) : parseVal f (ms0 i) = parseVal f i := by
  cases f with
  | zero => rfl
  | succ f => rw [parseVal, parseVal, ms0_idem]

theorem elemOf_parseVal (f : Nat) (i : Chars) :
    elemOf (fun j => parseVal f j) i
      = (parseVal f i).map (fun p => (p.1, ms0 p.2)) := by
  unfold elemOf
  rw [show (fun j => parseVal f j) (ms0 i) = parseVal f (ms0 i) from rfl, parseVal_ms0]

theorem tagP_self (t r : Chars) : tagP t (t ++ r) = some (t, r) := by
  unfold tagP
  rw [if_pos, List.drop_left]
  simp [List.isPrefixOf_iff_prefix]

theorem tagP_cons_ne {a c : Char} (t r : Chars) (h : a ≠ c) :
    tagP (a :: t) (c :: r) = Option.none := by
  unfold tagP
  rw [if_neg]
  simp only [List.isPrefixOf_iff_prefix, List.cons_prefix_cons, not_and]
  intro hac
  exact absurd hac h

theorem tagP_cons_nil (a : Char) (t : Chars) : tagP (a :: t) [] = Option.none := rfl

theorem tagNoCase_self (t r : Chars) : tagNoCase t (t ++ r) = some (t, r) := by
  unfold tagNoCase
  rw [if_pos, List.take_left, List.drop_left]
  constructor
  · rw [List.take_left]
  · rw [List.take_left]
    induction t with
    | nil => simp
    | cons a t ih => simpa using ih

theorem tagNoCase_cons_ne {t0 c : Char} (t r : Chars) (h : c.toLower ≠ t0.toLower) :
    tagNoCase (t0 :: t) (c :: r) = Option.none := by
  unfold tagNoCase
  rw [if_neg]
  rintro ⟨-, hall⟩
  rw [List.length_cons, List.take_succ_cons, List.zip_cons_cons, List.all_cons,
    Bool.and_eq_true] at hall
  exact h (by simpa using hall.1)

theorem digitRun_none_of_head {c : Char} (r : Chars) (h : c.isDigit = false) :
    digitRun (c :: r) = Option.none := by
  unfold digitRun
  rw [List.takeWhile_cons_of_neg (by simp [h])]
  rfl

theorem parseFloat_none_of_head {c : Char} (r : Chars) (hd : c.isDigit = false)
    (h1 : c ≠ '+') (h2 : c ≠ '-') (h3 : c ≠ '.') : parseFloat (c :: r) = Option.none := by
  unfold parseFloat
  simp only []
  rw [if_neg h1, if_neg h2]
  unfold floatBody
  rw [digitRun_none_of_head r hd]
  simp only []
  rw [if_neg h3]

theorem double_none_of_head {c : Char} (r : Chars) (hd : c.isDigit = false)
    (h1 : c ≠ '+') (h2 : c ≠ '-') (h3 : c ≠ '.')
    (hn : c.toLower ≠ 'n') (hi : c.toLower ≠ 'i') : double (c :: r) = Option.none := by
  unfold double
  rw [parseFloat_none_of_head r hd h1 h2 h3]
  rw [show ("nan".toList) = ['n', 'a', 'n'] from rfl,
    show ("inf".toList) = ['i', 'n', 'f'] from rfl,
    show ("infinity".toList) = ['i', 'n', 'f', 'i', 'n', 'i', 't', 'y'] from rfl]
  rw [tagNoCase_cons_ne _ _ hn, tagNoCase_cons_ne _ _ hi, tagNoCase_cons_ne _ _ hi]

theorem parse_bool_none_of_head {c : Char} (r : Chars)
    (ht : c.toLower ≠ 't') (hf : c.toLower ≠ 'f') : parse_bool (c :: r) = Option.none := by
  unfold parse_bool
  rw [show ("true".toList) = ['t', 'r', 'u', 'e'] from rfl,
    show ("false".toList) = ['f', 'a', 'l', 's', 'e'] from rfl]
  rw [tagNoCase_cons_ne _ _ ht, tagNoCase_cons_ne _ _ hf]

theorem parse_str_none_of_head {c : Char} (r : Chars) (h : c ≠ '"') :
    parse_str (c :: r) = Option.none := by
  unfold parse_str
  rw [tagP_cons_ne _ _ (fun e => h e.symm), tagP_cons_ne _ _ (fun e => h e.symm)]

theorem parse_bin_none_of_head {c : Char} (r : Chars) (h : c ≠ 'b') :
    parse_bin (c :: r) = Option.none := by
  unfold parse_bin
  rw [show ("binary!()".toList) = 'b' :: "inary!()".toList from rfl,
    show ("binary!(".toList) = 'b' :: "inary!(".toList from rfl]
  rw [tagP_cons_ne _ _ (fun e => h e.symm), tagP_cons_ne _ _ (fun e => h e.symm)]

theorem parseVal_none_of_head (f : Nat) {c : Char} (r : Chars)
    (hws : ¬ (c = ' ' ∨ c = '\t' ∨ c = '\r' ∨ c = '\n'))
    (hd : c.isDigit = false) (h1 : c ≠ '+') (h2 : c ≠ '-') (h3 : c ≠ '.')
    (hn : c.toLower ≠ 'n') (hi : c.toLower ≠ 'i')
    (ht : c.toLower ≠ 't') (hf : c.toLower ≠ 'f')
    (hq : c ≠ '"') (hlb : c ≠ '[') (hdb : c ≠ '\x7b') (hp : c ≠ '(') (hb : c ≠ 'b') :
    parseVal f (c :: r) = Option.none := by
  cases f with
  | zero => rfl
  | succ f =>
    rw [parseVal]
    rw [show ms0 (c :: r) = c :: r from ms0_cons_of_not_ws hws r]
    rw [double_none_of_head r hd h1 h2 h3 hn hi]
    rw [parse_bool_none_of_head r ht hf]
    rw [parse_str_none_of_head r hq]
    unfold parseListP
    rw [tagP_cons_ne _ _ (fun e => hlb e.symm)]
    unfold parseDictP
    rw [tagP_cons_ne _ _ (fun e => hdb e.symm)]
    unfold parseTupleP
    rw [tagP_cons_ne _ _ (fun e => hp e.symm)]
    rw [parse_bin_none_of_head r hb]
    rfl

theorem parseVal_none_rbracket (f : Nat) (r : Chars) :
    parseVal f (']' :: r) = Option.none := by
  refine parseVal_none_of_head f r (by decide) (by decide) (by decide) (by decide)
    (by decide) (by decide) (by decide) (by decide) (by decide) (by decide) (by decide)
    (by decide) (by decide) (by decide)

theorem parseVal_none_rbrace (f : Nat) (r : Chars) :
    parseVal f ('\x7d' :: r) = Option.none := by
  refine parseVal_none_of_head f r (by decide) (by decide) (by decide) (by decide)
    (by decide) (by decide) (by decide) (by decide) (by decide) (by decide) (by decide)
    (by decide) (by decide) (by decide)


theorem tagP_split {t i tk r : Chars} (h : tagP t i = some (tk, r)) :
    tk = t ∧ i = t ++ r := by
  unfold tagP at h
  by_cases hp : t.isPrefixOf i
  · rw [if_pos hp] at h
    simp only [Option.some_inj, Prod.mk.injEq] at h
    obtain ⟨h1, h2⟩ := h
    rw [List.isPrefixOf_iff_prefix] at hp
    obtain ⟨u, hu⟩ := hp
    subst hu
    rw [List.drop_left] at h2
    exact ⟨h1.symm, by rw [h2]⟩
  · rw [if_neg hp] at h
    exact absurd h (by simp)

theorem tagP_extend {t i tk r : Chars} (ext : Chars) (h : tagP t i = some (tk, r)) :
    tagP t (i ++ ext) = some (tk, r ++ ext) := by
  obtain ⟨rfl, hi⟩ := tagP_split h
  subst hi
  rw [List.append_assoc, tagP_self]

theorem tagP_single_cons (a c : Char) (t : Chars) :
    tagP [a] (c :: t) = if a = c then some ([a], t) else Option.none := by
  by_cases h : a = c
  · subst h
    rw [if_pos rfl, show (a :: t) = [a] ++ t from rfl, tagP_self]
  · rw [if_neg h]
    exact tagP_cons_ne _ _ h

theorem takeTill1_eq_some {p : Char → Bool} {i tk r : Chars}
    (h : takeTill1 p i = some (tk, r)) :
    tk = i.takeWhile (fun c => ¬ p c) ∧ r = i.drop tk.length ∧ tk ≠ [] ∧ i = tk ++ r := by
  unfold takeTill1 at h
  by_cases he : (i.takeWhile fun c => ¬ p c).isEmpty
  · rw [if_pos he] at h
    exact absurd h (by simp)
  · rw [if_neg he] at h
    simp only [Option.some_inj, Prod.mk.injEq] at h
    obtain ⟨htk, hr⟩ := h
    have htk' := htk.symm
    have hr' := hr.symm
    refine ⟨htk', by rw [htk']; exact hr', ?_, ?_⟩
    · intro hc
      rw [htk'] at hc
      rw [hc] at he
      exact he rfl
    · rw [htk', hr']
      conv_lhs => rw [(List.take_append_drop
        ((i.takeWhile fun c => ¬ p c)).length i).symm]
      congr 1
      exact (List.prefix_iff_eq_take.mp (List.takeWhile_prefix _)).symm

theorem takeTill1_extend {p : Char → Bool} {i tk r ext : Chars}
    (hext : ∀ c t, ext = c :: t → p c = true)
    (h : takeTill1 p i = some (tk, r)) :
    takeTill1 p (i ++ ext) = some (tk, r ++ ext) := by
  obtain ⟨htk, hr, hne, hsplit⟩ := takeTill1_eq_some h
  have hextTW : ext.takeWhile (fun c => ¬ p c) = [] := by
    cases ext with
    | nil => rfl
    | cons c t => rw [List.takeWhile_cons_of_neg (by simp [hext c t rfl])]
  unfold takeTill1
  rw [List.takeWhile_append]
  by_cases hall : ((i.takeWhile fun c => ¬ p c)).length = i.length
  · rw [if_pos hall, hextTW, List.append_nil]
    have hieq : i.takeWhile (fun c => ¬ p c) = i :=
      List.IsPrefix.eq_of_length (List.takeWhile_prefix _) hall
    have htki : tk = i := by rw [htk, hieq]
    have hri : r = [] := by
      rw [hr, htki, List.drop_length]
    rw [if_neg (by simpa [List.isEmpty_iff] using (htki ▸ hne : i ≠ []))]
    rw [htki, hri, List.drop_left]
    simp
  · rw [if_neg hall, ← htk]
    rw [if_neg (by simpa [List.isEmpty_iff] using hne)]
    have hlen : tk.length ≤ i.length := by
      rw [htk]
      exact (List.takeWhile_prefix _).length_le
    rw [List.drop_append_eq_append_drop]
    rw [show tk.length - i.length = 0 from by omega]
    rw [← hr]
    simp

theorem normalP_extend {i tk r ext : Chars}
    (hext : ∀ c t, ext = c :: t → isStrSpecial c = true)
    (h : normalP i = some (tk, r)) : normalP (i ++ ext) = some (tk, r ++ ext) :=
  takeTill1_extend hext h

theorem normalP_split {i tk r : Chars} (h : normalP i = some (tk, r)) :
    i = tk ++ r ∧ tk ≠ [] := by
  obtain ⟨-, -, hne, hsplit⟩ := takeTill1_eq_some h
  exact ⟨hsplit, hne⟩

theorem takeWhileMN_extend {n : Nat} {p : Char → Bool} {i tk r : Chars} (ext : Chars)
    (h : takeWhileMN n n p i = some (tk, r)) :
    takeWhileMN n n p (i ++ ext) = some (tk, r ++ ext) := by
  unfold takeWhileMN at h ⊢
  by_cases hle : n ≤ ((i.take n).takeWhile p).length
  · rw [if_pos hle] at h
    simp only [Option.some_inj, Prod.mk.injEq] at h
    obtain ⟨htk, hr⟩ := h
    have hlen1 : ((i.take n).takeWhile p).length ≤ (i.take n).length :=
      (List.takeWhile_prefix p).length_le
    have hlen2 : (i.take n).length ≤ n := by
      simp [List.length_take]
    have hni : n ≤ i.length := by
      rw [List.length_take] at hlen2 hlen1
      omega
    have htake : (i ++ ext).take n = i.take n := by
      rw [List.take_append_eq_append_take]
      rw [show n - i.length = 0 from by omega]
      simp
    rw [htake, if_pos hle]
    subst htk
    subst hr
    rw [List.drop_append_eq_append_drop]
    rw [show ((i.take n).takeWhile p).length - i.length = 0 from by
      rw [List.length_take] at hlen1; omega]
    simp
  · rw [if_neg hle] at h
    exact absurd h (by simp)

theorem escapableP_nil : escapableP [] = Option.none := rfl

theorem escapableP_extend {c : Char} {t e r ext : Chars}
    (h : escapableP (c :: t) = some (e, r)) :
    escapableP ((c :: t) ++ ext) = some (e, r ++ ext) := by
  unfold escapableP at h ⊢
  rw [List.cons_append]
  by_cases h1 : ('"' : Char) = c
  · simp only [tagP_single_cons, if_pos h1] at h ⊢
    simp only [Option.some_inj, Prod.mk.injEq] at h
    simp [h.1, h.2]
  · simp only [tagP_single_cons, if_neg h1] at h ⊢
    by_cases h2 : ('\\' : Char) = c
    · simp only [if_pos h2] at h ⊢
      simp only [Option.some_inj, Prod.mk.injEq] at h
      simp [h.1, h.2]
    · simp only [if_neg h2] at h ⊢
      by_cases h3 : ('/' : Char) = c
      · simp only [if_pos h3] at h ⊢
        simp only [Option.some_inj, Prod.mk.injEq] at h
        simp [h.1, h.2]
      · simp only [if_neg h3] at h ⊢
        by_cases h4 : ('b' : Char) = c
        · simp only [if_pos h4] at h ⊢
          simp only [Option.some_inj, Prod.mk.injEq] at h
          simp [h.1, h.2]
        · simp only [if_neg h4] at h ⊢
          by_cases h5 : ('f' : Char) = c
          · simp only [if_pos h5] at h ⊢
            simp only [Option.some_inj, Prod.mk.injEq] at h
            simp [h.1, h.2]
          · simp only [if_neg h5] at h ⊢
            by_cases h6 : ('n' : Char) = c
            · simp only [if_pos h6] at h ⊢
              simp only [Option.some_inj, Prod.mk.injEq] at h
              simp [h.1, h.2]
            · simp only [if_neg h6] at h ⊢
              by_cases h7 : ('r' : Char) = c
              · simp only [if_pos h7] at h ⊢
                simp only [Option.some_inj, Prod.mk.injEq] at h
                simp [h.1, h.2]
              · simp only [if_neg h7] at h ⊢
                by_cases h8 : ('t' : Char) = c
                · simp only [if_pos h8] at h ⊢
                  simp only [Option.some_inj, Prod.mk.injEq] at h
                  simp [h.1, h.2]
                · simp only [if_neg h8] at h ⊢
                  unfold parseHexP at h ⊢
                  by_cases h9 : ('u' : Char) = c
                  · simp only [tagP_single_cons, if_pos h9] at h ⊢
                    exact takeWhileMN_extend ext h
                  · simp only [tagP_single_cons, if_neg h9] at h
                    exact absurd h (by simp)

theorem normalP_cons_special {c : Char} (t : Chars) (hc : isStrSpecial c = true) :
    normalP (c :: t) = Option.none := by
  unfold normalP takeTill1
  rw [List.takeWhile_cons_of_neg (by simp [hc])]
  rfl

theorem takeWhileMN_split {m n : Nat} {p : Char → Bool} {i tk r : Chars}
    (h : takeWhileMN m n p i = some (tk, r)) : i = tk ++ r := by
  unfold takeWhileMN at h
  by_cases hle : m ≤ ((i.take n).takeWhile p).length
  · rw [if_pos hle] at h
    simp only [Option.some_inj, Prod.mk.injEq] at h
    obtain ⟨htk, hr⟩ := h
    subst htk
    subst hr
    conv_lhs => rw [(List.take_append_drop (((i.take n).takeWhile p)).length i).symm]
    congr 1
    have h1 : (i.take n).takeWhile p <+: i.take n := List.takeWhile_prefix p
    have h2 : i.take n <+: i := List.take_prefix n i
    have h3 : (i.take n).takeWhile p <+: i := h1.trans h2
    rw [List.prefix_iff_eq_take] at h3
    exact h3.symm
  · rw [if_neg hle] at h
    exact absurd h (by simp)

theorem escapableP_split {i e r : Chars} (h : escapableP i = some (e, r)) : i = e ++ r := by
  unfold escapableP at h
  cases h1 : tagP ['"'] i with
  | some pr =>
    obtain ⟨tk, rr⟩ := pr
    rw [h1] at h
    simp only [Option.some_inj, Prod.mk.injEq] at h
    obtain ⟨rfl, rfl⟩ := h
    obtain ⟨rfl, hi⟩ := tagP_split h1
    exact hi
  | none =>
  rw [h1] at h
  cases h2 : tagP ['\\'] i with
  | some pr =>
    obtain ⟨tk, rr⟩ := pr
    rw [h2] at h
    simp only [Option.some_inj, Prod.mk.injEq] at h
    obtain ⟨rfl, rfl⟩ := h
    obtain ⟨rfl, hi⟩ := tagP_split h2
    exact hi
  | none =>
  rw [h2] at h
  cases h3 : tagP ['/'] i with
  | some pr =>
    obtain ⟨tk, rr⟩ := pr
    rw [h3] at h
    simp only [Option.some_inj, Prod.mk.injEq] at h
    obtain ⟨rfl, rfl⟩ := h
    obtain ⟨rfl, hi⟩ := tagP_split h3
    exact hi
  | none =>
  rw [h3] at h
  cases h4 : tagP ['b'] i with
  | some pr =>
    obtain ⟨tk, rr⟩ := pr
    rw [h4] at h
    simp only [Option.some_inj, Prod.mk.injEq] at h
    obtain ⟨rfl, rfl⟩ := h
    obtain ⟨rfl, hi⟩ := tagP_split h4
    exact hi
  | none =>
  rw [h4] at h
  cases h5 : tagP ['f'] i with
  | some pr =>
    obtain ⟨tk, rr⟩ := pr
    rw [h5] at h
    simp only [Option.some_inj, Prod.mk.injEq] at h
    obtain ⟨rfl, rfl⟩ := h
    obtain ⟨rfl, hi⟩ := tagP_split h5
    exact hi
  | none =>
  rw [h5] at h
  cases h6 : tagP ['n'] i with
  | some pr =>
    obtain ⟨tk, rr⟩ := pr
    rw [h6] at h
    simp only [Option.some_inj, Prod.mk.injEq] at h
    obtain ⟨rfl, rfl⟩ := h
    obtain ⟨rfl, hi⟩ := tagP_split h6
    exact hi
  | none =>
  rw [h6] at h
  cases h7 : tagP ['r'] i with
  | some pr =>
    obtain ⟨tk, rr⟩ := pr
    rw [h7] at h
    simp only [Option.some_inj, Prod.mk.injEq] at h
    obtain ⟨rfl, rfl⟩ := h
    obtain ⟨rfl, hi⟩ := tagP_split h7
    exact hi
  | none =>
  rw [h7] at h
  cases h8 : tagP ['t'] i with
  | some pr =>
    obtain ⟨tk, rr⟩ := pr
    rw [h8] at h
    simp only [Option.some_inj, Prod.mk.injEq] at h
    obtain ⟨rfl, rfl⟩ := h
    obtain ⟨rfl, hi⟩ := tagP_split h8
    exact hi
  | none =>
  rw [h8] at h
  unfold parseHexP at h
  cases h9 : tagP ['u'] i with
  | some pr =>
    rw [h9] at h
    exact takeWhileMN_split h
  | none =>
    rw [h9] at h
    exact absurd h (by simp)

theorem escapedRun_split : ∀ g i a b, escapedRun g i = some (a, b) → i = a ++ b
  | 0, i, a, b, h => by simp [escapedRun] at h
  | g + 1, [], a, b, h => by
    simp only [escapedRun, Option.some_inj, Prod.mk.injEq] at h
    rw [← h.1, ← h.2]
    rfl
  | g + 1, c :: rest, a, b, h => by
    rw [escapedRun] at h
    cases hn : normalP (c :: rest) with
    | some pr =>
      obtain ⟨taken, r1⟩ := pr
      rw [hn] at h
      simp only [] at h
      cases hrec : escapedRun g r1 with
      | none => rw [hrec] at h; simp at h
      | some q =>
        obtain ⟨q1, q2⟩ := q
        rw [hrec] at h
        simp only [Option.map_some', Option.some_inj, Prod.mk.injEq] at h
        obtain ⟨hcat, hb⟩ := h
        have hsub := escapedRun_split g r1 q1 q2 hrec
        have hsplit := (normalP_split hn).1
        rw [hsplit, hsub, ← hcat, ← hb]
        rw [List.append_assoc]
    | none =>
      rw [hn] at h
      simp only [] at h
      by_cases hc : c = '\\'
      · rw [if_pos hc] at h
        cases hesc : escapableP rest with
        | none => rw [hesc] at h; simp at h
        | some pe =>
          obtain ⟨esc, r2⟩ := pe
          rw [hesc] at h
          simp only [] at h
          cases hrec : escapedRun g r2 with
          | none => rw [hrec] at h; simp at h
          | some q =>
            obtain ⟨q1, q2⟩ := q
            rw [hrec] at h
            simp only [Option.map_some', Option.some_inj, Prod.mk.injEq] at h
            obtain ⟨hcat, hb⟩ := h
            have hsub := escapedRun_split g r2 q1 q2 hrec
            have hsplit : rest = esc ++ r2 := escapableP_split hesc
            rw [← hcat, ← hb, hc, hsplit, hsub]
            simp [List.append_assoc]
      · rw [if_neg hc] at h
        simp only [Option.some_inj, Prod.mk.injEq] at h
        rw [← h.1, ← h.2]
        rfl

theorem escapedRun_mono : ∀ g i out, escapedRun g i = some out →
    escapedRun (g + 1) i = some out
  | 0, i, out, h => by simp [escapedRun] at h
  | g + 1, [], out, h => h
  | g + 1, c :: rest, out, h => by
    rw [escapedRun] at h
    rw [escapedRun]
    cases hn : normalP (c :: rest) with
    | some pr =>
      obtain ⟨taken, r1⟩ := pr
      rw [hn] at h
      simp only [] at h ⊢
      cases hrec : escapedRun g r1 with
      | none => rw [hrec] at h; simp at h
      | some q => rw [hrec] at h; rw [escapedRun_mono g r1 q hrec]; exact h
    | none =>
      rw [hn] at h
      simp only [] at h ⊢
      by_cases hc : c = '\\'
      · rw [if_pos hc] at h ⊢
        cases hesc : escapableP rest with
        | none => rw [hesc] at h; exact absurd h (by simp)
        | some pe =>
          obtain ⟨esc, r2⟩ := pe
          rw [hesc] at h
          simp only [] at h ⊢
          cases hrec : escapedRun g r2 with
          | none => rw [hrec] at h; simp at h
          | some q => rw [hrec] at h; rw [escapedRun_mono g r2 q hrec]; exact h
      · rw [if_neg hc] at h ⊢
        exact h

theorem escapedRun_mono_le {g g' : Nat} {i : Chars} {out : Chars × Chars}
    (h : escapedRun g i = some out) (hle : g ≤ g') : escapedRun g' i = some out := by
  induction hle with
  | refl => exact h
  | step hle ih => exact escapedRun_mono _ _ _ ih

theorem escapedRun_extend : ∀ g s r, escapedRun g s = some (s, []) →
    escapedRun (g + 1) (s ++ '"' :: r) = some (s, '"' :: r)
  | 0, s, r, h => by simp [escapedRun] at h
  | g + 1, [], r, h => by
    rw [List.nil_append]
    rw [show g + 1 + 1 = (g + 1) + 1 from rfl]
    rw [escapedRun]
    rw [normalP_cons_special r (by decide)]
    simp only []
    rw [if_neg (by decide)]
  | g + 1, c :: t, r, h => by
    rw [escapedRun] at h
    rw [show (c :: t) ++ '"' :: r = c :: (t ++ '"' :: r) from rfl]
    rw [escapedRun]
    cases hn : normalP (c :: t) with
    | some pr =>
      obtain ⟨taken, r1⟩ := pr
      rw [hn] at h
      simp only [] at h
      cases hrec : escapedRun g r1 with
      | none => rw [hrec] at h; simp at h
      | some q =>
        obtain ⟨q1, q2⟩ := q
        rw [hrec] at h
        simp only [Option.map_some', Option.some_inj, Prod.mk.injEq] at h
        obtain ⟨hcat, hq2⟩ := h
        subst hq2
        have hq1 : q1 = r1 := by
          have hs := escapedRun_split g r1 q1 [] hrec
          simpa using hs.symm
        rw [hq1] at hrec hcat
        have hnext : normalP (c :: (t ++ '"' :: r)) = some (taken, r1 ++ '"' :: r) := by
          exact @normalP_extend _ _ _ ('"' :: r)
            (fun c2 t2 heq => by cases heq; decide) hn
        rw [hnext]
        simp only []
        rw [escapedRun_extend g r1 r hrec]
        simp only [Option.map_some', Option.some_inj, Prod.mk.injEq]
        exact ⟨hcat, trivial⟩
    | none =>
      rw [hn] at h
      simp only [] at h
      by_cases hc : c = '\\'
      · rw [if_pos hc] at h
        cases hesc : escapableP t with
        | none => rw [hesc] at h; simp at h
        | some pe =>
          obtain ⟨esc, r2⟩ := pe
          rw [hesc] at h
          simp only [] at h
          cases hrec : escapedRun g r2 with
          | none => rw [hrec] at h; simp at h
          | some q =>
            obtain ⟨q1, q2⟩ := q
            rw [hrec] at h
            simp only [Option.map_some', Option.some_inj, Prod.mk.injEq] at h
            obtain ⟨hcat, hq2⟩ := h
            subst hq2
            have hq1 : q1 = r2 := by
              have hs := escapedRun_split g r2 q1 [] hrec
              simpa using hs.symm
            rw [hq1] at hrec hcat
            have hnnone : normalP (c :: (t ++ '"' :: r)) = Option.none := by
              subst hc
              exact normalP_cons_special _ (by decide)
            rw [hnnone]
            simp only []
            rw [if_pos hc]
            cases t with
            | nil => rw [escapableP_nil] at hesc; exact absurd hesc (by simp)
            | cons c2 t2 =>
              have hext := @escapableP_extend _ _ _ _ ('"' :: r) hesc
              rw [List.cons_append]
              rw [show (c2 :: t2) ++ '"' :: r = c2 :: (t2 ++ '"' :: r) from rfl] at hext
              rw [hext]
              simp only []
              rw [escapedRun_extend g r2 r hrec]
              simp only [Option.map_some', Option.some_inj, Prod.mk.injEq]
              exact ⟨hcat, trivial⟩
      · rw [if_neg hc] at h
        simp only [Option.some_inj, Prod.mk.injEq] at h
        exact absurd h.1.symm (by simp)

theorem strOk_elim {s : Chars} (h : strOk s = true) :
    s ≠ [] ∧ string_format s = some (s, []) := by
  unfold strOk at h
  cases hsf : string_format s with
  | none => rw [hsf] at h; simp at h
  | some pr =>
    obtain ⟨t, r⟩ := pr
    rw [hsf] at h
    rw [Bool.and_eq_true, Bool.and_eq_true] at h
    obtain ⟨h1, h2, h3⟩ := h
    have ht : t = s := by simpa using h2
    have hr : r = [] := by simpa [List.isEmpty_iff] using h3
    have hne : s ≠ [] := by simpa [List.isEmpty_iff] using h1
    exact ⟨hne, by rw [ht, hr]⟩

theorem strOk_head_ne_quote {c : Char} {t : Chars} (h : strOk (c :: t) = true) : c ≠ '"' := by
  intro hc
  subst hc
  obtain ⟨-, hsf⟩ := strOk_elim h
  unfold string_format at hsf
  rw [escapedRun, normalP_cons_special t (by decide)] at hsf
  simp only [] at hsf
  rw [if_neg (show ('"' : Char) ≠ '\\' from by decide)] at hsf
  simp at hsf

theorem string_format_extend {k r : Chars} (hk : string_format k = some (k, [])) :
    string_format (k ++ '"' :: r) = some (k, '"' :: r) := by
  unfold string_format at hk ⊢
  have h1 := escapedRun_extend (k.length + 1) k r hk
  refine escapedRun_mono_le h1 ?_
  simp [List.length_append]

theorem parse_str_renders {k : Chars} (hk : strOk k = true) (r : Chars) :
    parse_str ('"' :: (k ++ '"' :: r)) = some (k, r) := by
  obtain ⟨hne, hsf⟩ := strOk_elim hk
  cases k with
  | nil => exact absurd rfl hne
  | cons c t =>
    have hcq : c ≠ '"' := strOk_head_ne_quote hk
    unfold parse_str
    have htag2 : tagP ['"', '"'] ('"' :: (c :: t ++ '"' :: r)) = Option.none := by
      unfold tagP
      rw [if_neg]
      simp only [List.cons_append, List.isPrefixOf_iff_prefix, List.cons_prefix_cons]
      rintro ⟨-, h2, -⟩
      exact hcq h2.symm
    rw [htag2]
    simp only []
    rw [tagP_single_cons, if_pos rfl]
    simp only []
    rw [string_format_extend hsf]
    simp only []
    rw [tagP_single_cons, if_pos rfl]

/-- Characters that cannot continue a float literal: the closing and
separator characters that follow a rendered number. -/
def floatStop (ext : Chars) : Prop :=
  ∀ c t, ext = c :: t →
    c.isDigit = false ∧ c ≠ '.' ∧ c ≠ 'e' ∧ c ≠ 'E' ∧ c ≠ '+' ∧ c ≠ '-'

theorem digitRun_extend {i ext : Chars} {v n : Nat} {r : Chars} (hstop : floatStop ext)
    (h : digitRun i = some (v, n, r)) : digitRun (i ++ ext) = some (v, n, r ++ ext) := by
  have hextTW : ext.takeWhile Char.isDigit = [] := by
    cases ext with
    | nil => rfl
    | cons c t => rw [List.takeWhile_cons_of_neg (by simp [(hstop c t rfl).1])]
  unfold digitRun at h ⊢
  by_cases he : (i.takeWhile Char.isDigit).isEmpty
  · rw [if_pos he] at h
    exact absurd h (by simp)
  · rw [if_neg he] at h
    simp only [Option.some_inj, Prod.mk.injEq] at h
    obtain ⟨hv, hn, hr⟩ := h
    rw [List.takeWhile_append]
    by_cases hall : ((i.takeWhile Char.isDigit)).length = i.length
    · have hieq : i.takeWhile Char.isDigit = i :=
        List.IsPrefix.eq_of_length (List.takeWhile_prefix _) hall
    
      rw [if_pos hall, hextTW, List.append_nil]
      rw [hieq] at he hv hn hr
      simp only []
      rw [if_neg he]
      rw [List.drop_length] at hr
      rw [List.drop_left]
      rw [← hv, ← hn, ← hr]
      simp
    · rw [if_neg hall]
      simp only []
      rw [if_neg he]
      have hlen : (i.takeWhile Char.isDigit).length ≤ i.length :=
        (List.takeWhile_prefix _).length_le
      rw [List.drop_append_eq_append_drop]
      rw [show (i.takeWhile Char.isDigit).length - i.length = 0 from by omega]
      rw [← hv, ← hn, ← hr]
      simp

theorem digitRun_none_extend {i ext : Chars} (hstop : floatStop ext)
    (h : digitRun i = Option.none) : digitRun (i ++ ext) = Option.none := by
  cases i with
  | nil =>
    rw [List.nil_append]
    cases ext with
    | nil => rfl
    | cons c t => exact digitRun_none_of_head t (hstop c t rfl).1
  | cons c t =>
    unfold digitRun at h
    by_cases he : ((c :: t).takeWhile Char.isDigit).isEmpty
    · have hcd : c.isDigit = false := by
        by_contra hc
        rw [List.takeWhile_cons_of_pos (by simpa using hc)] at he
        simp at he
      exact digitRun_none_of_head _ hcd
    · rw [if_neg he] at h
      exact absurd h (by simp)

theorem expPart_extend {neg : Bool} {ip fv fl : Nat} {r : Chars} {x : F64} {ext : Chars}
    (hstop : floatStop ext) (h : expPart neg ip fv fl r = some (x, [])) :
    expPart neg ip fv fl (r ++ ext) = some (x, ext) := by
  cases hx : ext with
  | nil => rw [List.append_nil]; rw [h]
  | cons ce te =>
  rw [← hx]
  unfold expPart at h ⊢
  cases r with
  | nil =>
    simp only [] at h
    rw [show digitRun [] = Option.none from rfl] at h
    exact absurd h (by simp)
  | cons c t =>
    rw [List.cons_append]
    simp only [] at h ⊢
    by_cases hcp : c = '+'
    · rw [if_pos hcp] at h ⊢
      cases hdr : digitRun t with
      | none => rw [hdr] at h; exact absurd h (by simp)
      | some q =>
        obtain ⟨e, len, r3⟩ := q
        rw [hdr] at h
        simp only [Option.some_inj, Prod.mk.injEq] at h
        obtain ⟨hx1, hr3⟩ := h
        subst hr3
        rw [digitRun_extend hstop hdr]
        simp only []
        rw [hx1]
        simp
    · rw [if_neg hcp] at h ⊢
      by_cases hcm : c = '-'
      · rw [if_pos hcm] at h ⊢
        cases hdr : digitRun t with
        | none => rw [hdr] at h; exact absurd h (by simp)
        | some q =>
          obtain ⟨e, len, r3⟩ := q
          rw [hdr] at h
          simp only [Option.some_inj, Prod.mk.injEq] at h
          obtain ⟨hx1, hr3⟩ := h
          subst hr3
          rw [digitRun_extend hstop hdr]
          simp only []
          rw [hx1]
          simp
      · rw [if_neg hcm] at h ⊢
        cases hdr : digitRun (c :: t) with
        | none => rw [hdr] at h; exact absurd h (by simp)
        | some q =>
          obtain ⟨e, len, r3⟩ := q
          rw [hdr] at h
          simp only [Option.some_inj, Prod.mk.injEq] at h
          obtain ⟨hx1, hr3⟩ := h
          subst hr3
          have hde := digitRun_extend hstop hdr
          rw [List.cons_append] at hde
          rw [hde]
          simp only []
          rw [hx1]
          simp

theorem afterExp_extend {neg : Bool} {ip fv fl : Nat} {r : Chars} {x : F64} {ext : Chars}
    (hstop : floatStop ext) (h : afterExp neg ip fv fl r = some (x, [])) :
    afterExp neg ip fv fl (r ++ ext) = some (x, ext) := by
  cases hx : ext with
  | nil => rw [List.append_nil]; rw [h]
  | cons ce te =>
  rw [← hx]
  unfold afterExp at h ⊢
  cases r with
  | nil =>
    simp only [Option.some_inj, Prod.mk.injEq] at h
    obtain ⟨hx1, -⟩ := h
    rw [List.nil_append, hx]
    simp only []
    rw [if_neg (by
      obtain ⟨-, -, he1, he2, -, -⟩ := hstop ce te hx
      simp [he1, he2])]
    rw [hx1, ← hx]
  | cons c t =>
    rw [List.cons_append]
    simp only [] at h ⊢
    by_cases hce : c = 'e' ∨ c = 'E'
    · rw [if_pos hce] at h ⊢
      exact expPart_extend hstop h
    · rw [if_neg hce] at h ⊢
      simp only [Option.some_inj, Prod.mk.injEq] at h
      exact absurd h.2 (by simp)

theorem floatBody_extend {neg : Bool} {i1 : Chars} {x : F64} {ext : Chars}
    (hstop : floatStop ext) (h : floatBody neg i1 = some (x, [])) :
    floatBody neg (i1 ++ ext) = some (x, ext) := by
  cases hx : ext with
  | nil => rw [List.append_nil]; rw [h]
  | cons ce te =>
  rw [← hx]
  unfold floatBody at h ⊢
  cases hdr : digitRun i1 with
  | some q =>
    obtain ⟨ip, len, r1⟩ := q
    rw [hdr] at h
    simp only [] at h
    rw [digitRun_extend hstop hdr]
    simp only []
    cases r1 with
    | nil =>
      rw [List.nil_append, hx]
      simp only []
      rw [if_neg (by simpa using (hstop ce te hx).2.1)]
      rw [← hx]
      exact @afterExp_extend neg ip 0 0 [] x ext hstop h
    | cons c rr =>
      rw [List.cons_append]
      simp only [] at h ⊢
      by_cases hc : c = '.'
      · rw [if_pos hc] at h ⊢
        cases hdr2 : digitRun rr with
        | some q2 =>
          obtain ⟨fv, fl, r2⟩ := q2
          rw [hdr2] at h
          rw [digitRun_extend hstop hdr2]
          simp only [] at h ⊢
          exact afterExp_extend hstop h
        | none =>
          rw [hdr2] at h
          rw [digitRun_none_extend hstop hdr2]
          simp only [] at h ⊢
          exact afterExp_extend hstop h
      · rw [if_neg hc] at h ⊢
        have := afterExp_extend hstop h
        rw [List.cons_append] at this
        exact this
  | none =>
    rw [hdr] at h
    simp only [] at h
    rw [digitRun_none_extend hstop hdr]
    simp only []
    cases i1 with
    | nil => simp only [] at h; exact absurd h (by simp)
    | cons c rr =>
      rw [List.cons_append]
      simp only [] at h ⊢
      by_cases hc : c = '.'
      · rw [if_pos hc] at h ⊢
        cases hdr2 : digitRun rr with
        | some q2 =>
          obtain ⟨fv, fl, r2⟩ := q2
          rw [hdr2] at h
          rw [digitRun_extend hstop hdr2]
          simp only [] at h ⊢
          exact afterExp_extend hstop h
        | none =>
          rw [hdr2] at h
          exact absurd h (by simp)
      · rw [if_neg hc] at h
        exact absurd h (by simp)

theorem parseFloat_extend {i : Chars} {x : F64} {ext : Chars}
    (hstop : floatStop ext) (h : parseFloat i = some (x, [])) :
    parseFloat (i ++ ext) = some (x, ext) := by
  unfold parseFloat at h ⊢
  cases i with
  | nil =>
    simp only [] at h
    unfold floatBody at h
    rw [show digitRun [] = Option.none from rfl] at h
    simp only [] at h
    exact absurd h (by simp)
  | cons c t =>
    rw [List.cons_append]
    simp only [] at h ⊢
    by_cases hcp : c = '+'
    · rw [if_pos hcp] at h ⊢
      exact floatBody_extend hstop h
    · rw [if_neg hcp] at h ⊢
      by_cases hcm : c = '-'
      · rw [if_pos hcm] at h ⊢
        exact floatBody_extend hstop h
      · rw [if_neg hcm] at h ⊢
        have := floatBody_extend hstop h
        rw [List.cons_append] at this
        exact this

theorem numOk_finite_parseFloat {q : Q} (h : numOk (F64.finite q) = true) :
    parseFloat (fmtF64 (F64.finite q)) = some (F64.finite q, []) := by
  unfold numOk at h
  cases hd : double (fmtF64 (F64.finite q)) with
  | none => rw [hd] at h; simp at h
  | some pr =>
    obtain ⟨y, r⟩ := pr
    rw [hd] at h
    rw [Bool.and_eq_true] at h
    have hy : y = F64.finite q := by simpa using h.1
    have hr : r = [] := by simpa [List.isEmpty_iff] using h.2
    subst hy
    subst hr
    unfold double at hd
    cases hpf : parseFloat (fmtF64 (F64.finite q)) with
    | some pr2 =>
      rw [hpf] at hd
      simp only [Option.some_inj] at hd
      rw [hd]
    | none =>
      rw [hpf] at hd
      simp only [] at hd
      cases h1 : tagNoCase ("nan".toList) (fmtF64 (F64.finite q)) with
      | some pr2 =>
        obtain ⟨a, b⟩ := pr2
        rw [h1] at hd
        simp at hd
      | none =>
        rw [h1] at hd
        cases h2 : tagNoCase ("inf".toList) (fmtF64 (F64.finite q)) with
        | some pr2 =>
          obtain ⟨a, b⟩ := pr2
          rw [h2] at hd
          simp at hd
        | none =>
          rw [h2] at hd
          cases h3 : tagNoCase ("infinity".toList) (fmtF64 (F64.finite q)) with
          | some pr2 =>
            obtain ⟨a, b⟩ := pr2
            rw [h3] at hd
            simp at hd
          | none =>
            rw [h3] at hd
            simp at hd

theorem digitChar_isDigit : ∀ d : Nat, d < 10 → (Nat.digitChar d).isDigit = true := by decide

theorem natDigitsAux_all : ∀ fuel n : Nat, ∀ acc : Chars,
    (∀ c ∈ acc, c.isDigit = true) → ∀ c ∈ natDigitsAux fuel n acc, c.isDigit = true := by
  intro fuel
  induction fuel with
  | zero => intro n acc hacc c hc; exact hacc c hc
  | succ fuel ih =>
    intro n acc hacc c hc
    rw [natDigitsAux] at hc
    by_cases hn : n = 0
    · rw [if_pos hn] at hc
      exact hacc c hc
    · rw [if_neg hn] at hc
      refine ih (n / 10) _ ?_ c hc
      intro c2 hc2
      rcases List.mem_cons.mp hc2 with h | h
      · subst h
        exact digitChar_isDigit _ (Nat.mod_lt n (by omega))
      · exact hacc c2 h

theorem natDigitsAux_ne_nil : ∀ fuel n : Nat, ∀ acc : Chars,
    acc ≠ [] → natDigitsAux fuel n acc ≠ [] := by
  intro fuel
  induction fuel with
  | zero => intro n acc hacc; exact hacc
  | succ fuel ih =>
    intro n acc hacc
    rw [natDigitsAux]
    by_cases hn : n = 0
    · rw [if_pos hn]; exact hacc
    · rw [if_neg hn]
      exact ih (n / 10) _ (by simp)

theorem natChars_ne_nil (n : Nat) : natChars n ≠ [] := by
  unfold natChars
  by_cases hn : n = 0
  · rw [if_pos hn]; simp
  · rw [if_neg hn]
    rw [natDigitsAux]
    rw [if_neg hn]
    exact natDigitsAux_ne_nil _ _ _ (by simp)

theorem natChars_all_digits (n : Nat) : ∀ c ∈ natChars n, c.isDigit = true := by
  unfold natChars
  by_cases hn : n = 0
  · rw [if_pos hn]; decide
  · rw [if_neg hn]
    exact natDigitsAux_all _ _ _ (by simp)

theorem natChars_head : ∀ n : Nat, ∃ c t, natChars n = c :: t ∧ c.isDigit = true := by
  intro n
  cases hnc : natChars n with
  | nil => exact absurd hnc (natChars_ne_nil n)
  | cons c t =>
    exact ⟨c, t, rfl, natChars_all_digits n c (by rw [hnc]; simp)⟩

theorem fmtPosRat_head (n d : Nat) :
    ∃ c t, fmtPosRat n d = c :: t ∧ c.isDigit = true := by
  unfold fmtPosRat
  cases decExp d with
  | some t =>
    simp only []
    by_cases ht : t = 0
    · rw [if_pos ht]
      exact natChars_head _
    · rw [if_neg ht]
      obtain ⟨c, t2, heq, hd2⟩ := natChars_head (n * 10 ^ t / d / 10 ^ t)
      exact ⟨c, t2 ++ '.' :: padZeros t (natChars (n * 10 ^ t / d % 10 ^ t)),
        by rw [heq]; rfl, hd2⟩
  | none =>
    simp only []
    obtain ⟨c, t2, heq, hd2⟩ := natChars_head n
    exact ⟨c, t2 ++ '/' :: natChars d, by rw [heq]; rfl, hd2⟩

theorem isDigit_not_ws {c : Char} (h : c.isDigit = true) :
    ¬ (c = ' ' ∨ c = '\t' ∨ c = '\r' ∨ c = '\n') := by
  intro hcon
  rcases hcon with rfl | rfl | rfl | rfl <;> exact absurd h (by decide)

theorem ms0_fmt_finite (q : Q) (rest : Chars) :
    ms0 (fmtF64 (F64.finite q) ++ rest) = fmtF64 (F64.finite q) ++ rest := by
  unfold fmtF64
  simp only []
  by_cases hn : q.isNeg
  · rw [if_pos hn]
    exact ms0_cons_of_not_ws (by decide) _
  · rw [if_neg hn]
    rw [List.nil_append]
    obtain ⟨c, t, heq, hd⟩ := fmtPosRat_head q.num.natAbs q.den
    rw [heq]
    exact ms0_cons_of_not_ws (isDigit_not_ws hd) _

theorem parseVal_double {f : Nat} {i : Chars} {x : F64} {r : Chars}
    (hws : ms0 i = i) (h : double i = some (x, r)) :
    parseVal (f + 1) i = some (DValue.number x, ms0 r) := by
  rw [parseVal, hws, h]
  rfl

theorem stopHead_termHead {s : Chars} (h : stopHead s) : termHead s = true := by
  cases s with
  | nil => exact absurd h (by simp [stopHead])
  | cons c t =>
    simp only [stopHead] at h
    simp only [termHead, decide_eq_true_eq]
    rcases h with h | h | h
    · exact Or.inr (Or.inl h)
    · exact Or.inr (Or.inr (Or.inl h))
    · exact Or.inr (Or.inr (Or.inr h))

theorem termHead_floatStop {r : Chars} (h : termHead r = true) : floatStop r := by
  intro c t heq
  subst heq
  simp only [termHead, decide_eq_true_eq] at h
  rcases h with h | h | h | h <;> subst h <;>
    exact ⟨by decide, by decide, by decide, by decide, by decide, by decide⟩

theorem termHead_seqTail {stop : Chars} (hs : stopHead stop) (l : List DValue) :
    termHead (seqTail l ++ stop) = true := by
  cases l with
  | nil => rw [seqTail, List.nil_append]; exact stopHead_termHead hs
  | cons v rest =>
    rw [seqTail]
    simp only [List.cons_append, termHead]
    decide

theorem termHead_seqTailE {stop : Chars} (hs : stopHead stop) (d : List (Chars × DValue)) :
    termHead (seqTailE d ++ stop) = true := by
  cases d with
  | nil => rw [seqTailE, List.nil_append]; exact stopHead_termHead hs
  | cons p rest =>
    rw [seqTailE]
    simp only [List.cons_append, termHead]
    decide

theorem tagP_comma_stop {s : Chars} (h : stopHead s) : tagP [','] s = Option.none := by
  cases s with
  | nil => rfl
  | cons c t =>
    simp only [stopHead] at h
    rcases h with h | h | h <;> subst h <;> exact tagP_cons_ne _ _ (by decide)

theorem parseVal_none_rparen (f : Nat) (r : Chars) :
    parseVal f (')' :: r) = Option.none := by
  refine parseVal_none_of_head f r (by decide) (by decide) (by decide) (by decide)
    (by decide) (by decide) (by decide) (by decide) (by decide) (by decide) (by decide)
    (by decide) (by decide) (by decide)

theorem parseVal_stop_none (f : Nat) {s : Chars} (h : stopHead s) :
    parseVal f s = Option.none := by
  cases s with
  | nil => exact absurd h (by simp [stopHead])
  | cons c t =>
    simp only [stopHead] at h
    rcases h with h | h | h <;> subst h
    · exact parseVal_none_rbracket f t
    · exact parseVal_none_rbrace f t
    · exact parseVal_none_rparen f t

theorem ms0_stop {s : Chars} (h : stopHead s) : ms0 s = s :=
  ms0_term (stopHead_termHead h)

theorem parse_str_stop_none {s : Chars} (h : stopHead s) :
    parse_str (ms0 s) = Option.none := by
  rw [ms0_stop h]
  cases s with
  | nil => exact absurd h (by simp [stopHead])
  | cons c t =>
    simp only [stopHead] at h
    rcases h with h | h | h <;> subst h <;> exact parse_str_none_of_head t (by decide)

theorem ms0_space (X : Chars) : ms0 (' ' :: X) = ms0 X := by
  unfold ms0
  rw [List.dropWhile_cons_of_pos (by decide)]

theorem joinSep_renderItems : ∀ (rest : List DValue) (v : DValue),
    joinSep ',' (renderItems (v :: rest)) = v.to_string ++ seqTail rest
  | [], v => by rw [renderItems, renderItems, joinSep, seqTail, List.append_nil]
  | w :: ws, v => by
    rw [renderItems, renderItems, joinSep, seqTail]
    rw [show renderItems ws = renderItems ws from rfl]
    have ih := joinSep_renderItems ws w
    rw [renderItems] at ih
    rw [ih]
    all_goals simp

theorem joinSep_renderEntries : ∀ (rest : List (Chars × DValue)) (p : Chars × DValue),
    joinSep ',' (renderEntries (p :: rest)) = entryRender p ++ seqTailE rest
  | [], p => by
    obtain ⟨k, v⟩ := p
    rw [renderEntries, renderEntries, joinSep, seqTailE, List.append_nil, entryRender]
  | q :: qs, p => by
    obtain ⟨k, v⟩ := p
    rw [renderEntries, renderEntries, joinSep, seqTailE]
    have ih := joinSep_renderEntries qs q
    rw [renderEntries] at ih
    rw [ih]
    all_goals simp [entryRender]

theorem seqTail_len (l : List DValue) : l.length ≤ (seqTail l).length := by
  induction l with
  | nil => simp [seqTail]
  | cons v rest ih =>
    rw [seqTail]
    simp only [List.length_cons, List.cons_append, List.length_append]
    omega

theorem seqTailE_len (d : List (Chars × DValue)) : d.length ≤ (seqTailE d).length := by
  induction d with
  | nil => simp [seqTailE]
  | cons p rest ih =>
    rw [seqTailE]
    simp only [List.length_cons, List.cons_append, List.length_append]
    omega

theorem hmInsert_new {m : List (Chars × DValue)} {k : Chars} {v : DValue}
    (h : m.any (fun p => p.1 = k) = false) : hmInsert m k v = m ++ [(k, v)] := by
  unfold hmInsert
  rw [if_neg]
  simp [h]

theorem collectHM_aux : ∀ (l m : List (Chars × DValue)), goodEntries l = true →
    (∀ p ∈ l, m.any (fun q => q.1 = p.1) = false) →
    l.foldl (fun m p => hmInsert m p.1 p.2) m = m ++ l := by
  intro l
  induction l with
  | nil => intro m _ _; simp
  | cons p rest ih =>
    intro m hg hm
    obtain ⟨k, v⟩ := p
    rw [goodEntries] at hg
    simp only [Bool.and_eq_true, Bool.not_eq_true'] at hg
    obtain ⟨⟨⟨-, hnot⟩, -⟩, hrest⟩ := hg
    rw [List.foldl_cons]
    rw [hmInsert_new (hm (k, v) (by simp))]
    rw [ih (m ++ [(k, v)]) hrest ?_]
    · simp
    · intro q hq
      rw [List.any_append]
      rw [hm q (by simp [hq])]
      simp only [Bool.false_or, List.any_cons, List.any_nil, Bool.or_false]
      have : (q.1 == k) = false := by
        rw [List.any_eq_false] at hnot
        simpa using hnot q hq
      simp only [decide_eq_false_iff_not]
      intro hkq
      rw [beq_eq_false_iff_ne] at this
      exact this hkq.symm

theorem collectHM_id {d : List (Chars × DValue)} (h : goodEntries d = true) :
    collectHM d = d := by
  unfold collectHM
  rw [collectHM_aux d [] h (by intro p _; rfl)]
  simp

theorem parse_bool_true (rest : Chars) :
    parse_bool ("true".toList ++ rest) = some (true, rest) := by
  unfold parse_bool
  rw [tagNoCase_self]

theorem parse_bool_false (rest : Chars) :
    parse_bool ("false".toList ++ rest) = some (false, rest) := by
  unfold parse_bool
  rw [show ("true".toList) = ['t', 'r', 'u', 'e'] from rfl,
    show ("false".toList ++ rest) = 'f' :: ("alse".toList ++ rest) from rfl]
  rw [tagNoCase_cons_ne _ _ (by decide)]
  simp only []
  rw [show ('f' :: ("alse".toList ++ rest)) = "false".toList ++ rest from rfl]
  rw [tagNoCase_self]

theorem tagNoCase_nan (rest : Chars) :
    tagNoCase ("nan".toList) ('N' :: 'a' :: 'N' :: rest) = some (['N', 'a', 'N'], rest) := by
  unfold tagNoCase
  simp only []
  rw [show ('N' :: 'a' :: 'N' :: rest).take ("nan".toList).length = ['N', 'a', 'N'] from rfl]
  rw [if_pos (by decide)]
  rw [show ('N' :: 'a' :: 'N' :: rest).drop ("nan".toList).length = rest from rfl]

theorem double_nan (rest : Chars) :
    double ('N' :: 'a' :: 'N' :: rest) = some (F64.nan, rest) := by
  unfold double
  rw [parseFloat_none_of_head _ (by decide) (by decide) (by decide) (by decide)]
  simp only []
  rw [tagNoCase_nan]

theorem double_inf (rest : Chars) :
    double ('i' :: 'n' :: 'f' :: rest) = some (F64.inf, rest) := by
  unfold double
  rw [parseFloat_none_of_head _ (by decide) (by decide) (by decide) (by decide)]
  simp only []
  rw [show ("nan".toList) = ['n', 'a', 'n'] from rfl]
  rw [tagNoCase_cons_ne _ _ (by decide)]
  simp only []
  rw [show ('i' :: 'n' :: 'f' :: rest) = "inf".toList ++ rest from rfl]
  rw [tagNoCase_self]

theorem double_finite {q : Q} {rest : Chars} (hq : numOk (F64.finite q) = true)
    (hstop : floatStop rest) :
    double (fmtF64 (F64.finite q) ++ rest) = some (F64.finite q, rest) := by
  unfold double
  rw [parseFloat_extend hstop (numOk_finite_parseFloat hq)]

theorem parseVal_string_render (f : Nat) {s : Chars} (hs : strOk s = true) {rest : Chars}
    (hr : termHead rest = true) :
    parseVal (f + 1) ((DValue.string s).to_string ++ rest) = some (DValue.string s, rest) := by
  rw [show (DValue.string s).to_string = '"' :: s ++ ['"'] from rfl]
  rw [show ('"' :: s ++ ['"']) ++ rest = '"' :: (s ++ '"' :: rest) by simp]
  rw [parseVal]
  rw [ms0_cons_of_not_ws (by decide)]
  rw [double_none_of_head _ (by decide) (by decide) (by decide) (by decide) (by decide)
    (by decide)]
  simp only []
  rw [parse_bool_none_of_head _ (by decide) (by decide)]
  simp only []
  rw [parse_str_renders hs rest]
  simp only [Option.map_some']
  rw [ms0_term hr]

theorem parseVal_number_render (f : Nat) {x : F64} (hx : numOk x = true) {rest : Chars}
    (hr : termHead rest = true) :
    parseVal (f + 1) ((DValue.number x).to_string ++ rest) = some (DValue.number x, rest) := by
  rw [show (DValue.number x).to_string = fmtF64 x from rfl]
  cases x with
  | finite q =>
    rw [parseVal]
    rw [ms0_fmt_finite]
    rw [double_finite hx (termHead_floatStop hr)]
    simp only [Option.map_some']
    rw [ms0_term hr]
  | nan =>
    rw [show fmtF64 F64.nan = ['N', 'a', 'N'] from rfl]
    rw [show (['N', 'a', 'N'] : Chars) ++ rest = 'N' :: 'a' :: 'N' :: rest from rfl]
    rw [parseVal]
    rw [ms0_cons_of_not_ws (by decide)]
    rw [double_nan]
    simp only [Option.map_some']
    rw [ms0_term hr]
  | inf =>
    rw [show fmtF64 F64.inf = ['i', 'n', 'f'] from rfl]
    rw [show (['i', 'n', 'f'] : Chars) ++ rest = 'i' :: 'n' :: 'f' :: rest from rfl]
    rw [parseVal]
    rw [ms0_cons_of_not_ws (by decide)]
    rw [double_inf]
    simp only [Option.map_some']
    rw [ms0_term hr]
  | neginf => exact absurd hx (by decide)

theorem parseVal_boolean_render (f : Nat) (b : Bool) {rest : Chars}
    (hr : termHead rest = true) :
    parseVal (f + 1) ((DValue.boolean b).to_string ++ rest) = some (DValue.boolean b, rest) := by
  cases b with
  | true =>
    rw [show (DValue.boolean true).to_string = "true".toList from rfl]
    rw [show ("true".toList) ++ rest = 't' :: ("rue".toList ++ rest) from rfl]
    rw [parseVal, ms0_cons_of_not_ws (by decide)]
    rw [double_none_of_head _ (by decide) (by decide) (by decide) (by decide) (by decide)
      (by decide)]
    simp only []
    rw [show ('t' :: ("rue".toList ++ rest)) = "true".toList ++ rest from rfl]
    rw [parse_bool_true]
    simp only [Option.map_some']
    rw [ms0_term hr]
  | false =>
    rw [show (DValue.boolean false).to_string = "false".toList from rfl]
    rw [show ("false".toList) ++ rest = 'f' :: ("alse".toList ++ rest) from rfl]
    rw [parseVal, ms0_cons_of_not_ws (by decide)]
    rw [double_none_of_head _ (by decide) (by decide) (by decide) (by decide) (by decide)
      (by decide)]
    simp only []
    rw [show ('f' :: ("alse".toList ++ rest)) = "false".toList ++ rest from rfl]
    rw [parse_bool_false]
    simp only [Option.map_some']
    rw [ms0_term hr]

theorem fmtF64_ne_nil (x : F64) : fmtF64 x ≠ [] := by
  cases x with
  | finite q =>
    rw [show fmtF64 (F64.finite q)
      = (if q.isNeg then ['-'] else []) ++ fmtPosRat q.num.natAbs q.den from rfl]
    obtain ⟨c, t, heq, -⟩ := fmtPosRat_head q.num.natAbs q.den
    rw [heq]
    by_cases hn : q.isNeg
    · rw [if_pos hn]; simp
    · rw [if_neg hn]; simp
  | nan => decide
  | inf => decide
  | neginf => decide

theorem seqTail_joinSep_len (rest : List DValue) :
    (seqTail rest).length ≤ (joinSep ',' (renderItems rest)).length + 1 := by
  cases rest with
  | nil => simp [seqTail]
  | cons w ws =>
    rw [seqTail, joinSep_renderItems]
    simp

theorem joinSep_le_seqTail (rest : List DValue) :
    (joinSep ',' (renderItems rest)).length ≤ (seqTail rest).length := by
  cases rest with
  | nil => simp [seqTail, renderItems, joinSep]
  | cons w ws =>
    rw [seqTail, joinSep_renderItems]
    simp

theorem seqTailE_joinSep_len (rest : List (Chars × DValue)) :
    (seqTailE rest).length ≤ (joinSep ',' (renderEntries rest)).length + 1 := by
  cases rest with
  | nil => simp [seqTailE]
  | cons q qs =>
    rw [seqTailE, joinSep_renderEntries]
    simp

theorem joinSepE_le_seqTailE (rest : List (Chars × DValue)) :
    (joinSep ',' (renderEntries rest)).length ≤ (seqTailE rest).length := by
  cases rest with
  | nil => simp [seqTailE, renderEntries, joinSep]
  | cons q qs =>
    rw [seqTailE, joinSep_renderEntries]
    simp

mutual

theorem depthV_le_len : ∀ v : DValue, depthV v ≤ v.to_string.length
  | .none => by decide
  | .string s => by
    rw [show (DValue.string s).to_string = '"' :: s ++ ['"'] from rfl]
    rw [show depthV (DValue.string s) = 1 from rfl]
    simp
  | .number x => by
    rw [show (DValue.number x).to_string = fmtF64 x from rfl]
    rw [show depthV (DValue.number x) = 1 from rfl]
    have := fmtF64_ne_nil x
    cases h : fmtF64 x with
    | nil => exact absurd h this
    | cons c t => simp
  | .boolean b => by cases b <;> decide
  | .list l => by
    rw [show (DValue.list l).to_string = '[' :: joinSep ',' (renderItems l) ++ [']'] from rfl]
    rw [show depthV (DValue.list l) = depthItems l + 1 from rfl]
    have := depthItems_le l
    simp only [List.cons_append, List.length_cons, List.length_append, List.length_singleton]
    omega
  | .dict d => by
    rw [show (DValue.dict d).to_string
      = '\x7b' :: joinSep ',' (renderEntries d) ++ ['\x7d'] from rfl]
    rw [show depthV (DValue.dict d) = depthEntries d + 1 from rfl]
    have := depthEntries_le d
    simp only [List.cons_append, List.length_cons, List.length_append, List.length_singleton]
    omega
  | .tuple a b => by
    rw [show (DValue.tuple a b).to_string
      = '(' :: a.to_string ++ ',' :: ' ' :: b.to_string ++ [')'] from rfl]
    rw [show depthV (DValue.tuple a b) = max (depthV a) (depthV b) + 1 from rfl]
    have ha := depthV_le_len a
    have hb := depthV_le_len b
    simp only [List.cons_append, List.length_cons, List.length_append, List.length_singleton]
    omega
  | .binaryUtil bin => by
    rw [show (DValue.binaryUtil bin).to_string = bin.to_string from rfl]
    rw [show depthV (DValue.binaryUtil bin) = 1 from rfl]
    rw [Binary.to_string]
    simp

theorem depthItems_le : ∀ l : List DValue,
    depthItems l ≤ (joinSep ',' (renderItems l)).length + 1
  | [] => by simp [depthItems]
  | v :: rest => by
    rw [depthItems, joinSep_renderItems]
    have h1 := depthV_le_len v
    have h2 := depthItems_le rest
    have h3 := joinSep_le_seqTail rest
    simp only [List.length_append]
    omega

theorem depthEntries_le : ∀ d : List (Chars × DValue),
    depthEntries d ≤ (joinSep ',' (renderEntries d)).length + 1
  | [] => by simp [depthEntries]
  | (k, v) :: rest => by
    rw [depthEntries, joinSep_renderEntries]
    have h1 := depthV_le_len v
    have h2 := depthEntries_le rest
    have h3 := joinSepE_le_seqTailE rest
    rw [entryRender]
    simp only [List.length_append, List.cons_append, List.length_cons]
    omega

end

theorem pairOf_step {f : Nat} {k : Chars} (hk : strOk k = true) {v : DValue} {tail : Chars}
    (ht : termHead tail = true)
    (hv : parseVal f (v.to_string ++ tail) = some (v, tail)) :
    pairOf (fun j => parseVal f j) (entryRender (k, v) ++ tail) = some ((k, v), tail) := by
  rw [show entryRender (k, v) ++ tail
    = '"' :: (k ++ '"' :: (':' :: (v.to_string ++ tail))) by simp [entryRender]]
  unfold pairOf
  rw [ms0_cons_of_not_ws (by decide)]
  rw [parse_str_renders hk]
  simp only []
  rw [ms0_cons_of_not_ws (by decide)]
  rw [tagP_single_cons, if_pos rfl]
  simp only []
  rw [parseVal_ms0]
  rw [hv]
  simp only []
  rw [ms0_term ht]

theorem depthV_pos (v : DValue) : 1 ≤ depthV v := by
  cases v <;> simp [depthV]

mutual

theorem parse_render_val : ∀ v : DValue, goodV v = true →
    ∀ (f : Nat) (rest : Chars), depthV v ≤ f → termHead rest = true →
    parseVal f (v.to_string ++ rest) = some (v, rest)
  | .none, h, _, _, _, _ => absurd h (by decide)
  | .string s, h, f, rest, hdf, hrt => by
    cases f with
    | zero => exact absurd hdf (by have := depthV_pos (DValue.string s); omega)
    | succ f => exact parseVal_string_render f (by simpa [goodV] using h) hrt
  | .number x, h, f, rest, hdf, hrt => by
    cases f with
    | zero => exact absurd hdf (by have := depthV_pos (DValue.number x); omega)
    | succ f => exact parseVal_number_render f (by simpa [goodV] using h) hrt
  | .boolean b, _, f, rest, hdf, hrt => by
    cases f with
    | zero => exact absurd hdf (by have := depthV_pos (DValue.boolean b); omega)
    | succ f => exact parseVal_boolean_render f b hrt
  | .list l, h, f, rest, hdf, hrt => by
    cases f with
    | zero => exact absurd hdf (by have := depthV_pos (DValue.list l); omega)
    | succ f =>
      have hdl : depthItems l ≤ f := by
        rw [show depthV (DValue.list l) = depthItems l + 1 from rfl] at hdf
        omega
      have hg : goodItems l = true := by simpa [goodV] using h
      rw [show (DValue.list l).to_string ++ rest
        = '[' :: (joinSep ',' (renderItems l) ++ ']' :: rest) by
          rw [show (DValue.list l).to_string
            = '[' :: joinSep ',' (renderItems l) ++ [']'] from rfl]
          simp]
      rw [parseVal]
      rw [ms0_cons_of_not_ws (by decide)]
      rw [double_none_of_head _ (by decide) (by decide) (by decide) (by decide) (by decide)
        (by decide)]
      simp only []
      rw [parse_bool_none_of_head _ (by decide) (by decide)]
      simp only []
      rw [parse_str_none_of_head _ (by decide)]
      simp only []
      unfold parseListP
      rw [tagP_single_cons, if_pos rfl]
      simp only []
      rw [parse_render_list l hg f _ (']' :: rest) hdl
        (by
          have h1 := seqTail_len l
          have h2 := seqTail_joinSep_len l
          simp only [List.length_append, List.length_cons]
          omega)
        (by simp [stopHead])]
      simp only []
      rw [tagP_single_cons, if_pos rfl]
      simp only [Option.map_some']
      rw [ms0_term hrt]
  | .dict d, h, f, rest, hdf, hrt => by
    cases f with
    | zero => exact absurd hdf (by have := depthV_pos (DValue.dict d); omega)
    | succ f =>
      have hdl : depthEntries d ≤ f := by
        rw [show depthV (DValue.dict d) = depthEntries d + 1 from rfl] at hdf
        omega
      have hg : goodEntries d = true := by simpa [goodV] using h
      rw [show (DValue.dict d).to_string ++ rest
        = '\x7b' :: (joinSep ',' (renderEntries d) ++ '\x7d' :: rest) by
          rw [show (DValue.dict d).to_string
            = '\x7b' :: joinSep ',' (renderEntries d) ++ ['\x7d'] from rfl]
          simp]
      rw [parseVal]
      rw [ms0_cons_of_not_ws (by decide)]
      rw [double_none_of_head _ (by decide) (by decide) (by decide) (by decide) (by decide)
        (by decide)]
      simp only []
      rw [parse_bool_none_of_head _ (by decide) (by decide)]
      simp only []
      rw [parse_str_none_of_head _ (by decide)]
      simp only []
      unfold parseListP
      rw [tagP_single_cons, if_neg (by decide)]
      simp only []
      unfold parseDictP
      rw [tagP_single_cons, if_pos rfl]
      simp only []
      rw [parse_render_dict d hg f _ ('\x7d' :: rest) hdl
        (by
          have h1 := seqTailE_len d
          have h2 := seqTailE_joinSep_len d
          simp only [List.length_append, List.length_cons]
          omega)
        (by simp [stopHead])]
      simp only []
      rw [tagP_single_cons, if_pos rfl]
      simp only []
      rw [collectHM_id hg]
      simp only [Option.map_some']
      rw [ms0_term hrt]
  | .tuple a b, h, f, rest, hdf, hrt => by
    cases f with
    | zero => exact absurd hdf (by have := depthV_pos (DValue.tuple a b); omega)
    | succ f =>
      have hab : goodV a = true ∧ goodV b = true := by
        simpa [goodV, Bool.and_eq_true] using h
      have hda : depthV a ≤ f ∧ depthV b ≤ f := by
        rw [show depthV (DValue.tuple a b) = max (depthV a) (depthV b) + 1 from rfl] at hdf
        rw [Nat.succ_le_succ_iff, Nat.max_le] at hdf
        exact hdf
      rw [show (DValue.tuple a b).to_string ++ rest
        = '(' :: (a.to_string ++ (',' :: ' ' :: (b.to_string ++ ')' :: rest))) by
          rw [show (DValue.tuple a b).to_string
            = '(' :: a.to_string ++ ',' :: ' ' :: b.to_string ++ [')'] from rfl]
          simp]
      rw [parseVal]
      rw [ms0_cons_of_not_ws (by decide)]
      rw [double_none_of_head _ (by decide) (by decide) (by decide) (by decide) (by decide)
        (by decide)]
      simp only []
      rw [parse_bool_none_of_head _ (by decide) (by decide)]
      simp only []
      rw [parse_str_none_of_head _ (by decide)]
      simp only []
      unfold parseListP
      rw [tagP_single_cons, if_neg (by decide)]
      simp only []
      unfold parseDictP
      rw [tagP_single_cons, if_neg (by decide)]
      simp only []
      unfold parseTupleP
      rw [tagP_single_cons, if_pos rfl]
      simp only []
      rw [elemOf_parseVal]
      rw [parse_render_val a hab.1 f _ hda.1 (by simp [termHead])]
      simp only [Option.map_some']
      rw [ms0_term (by simp [termHead])]
      try simp only []
      rw [tagP_single_cons, if_pos rfl]
      simp only []
      rw [elemOf_parseVal]
      rw [← parseVal_ms0 f (' ' :: (b.to_string ++ ')' :: rest))]
      rw [ms0_space]
      rw [parseVal_ms0]
      rw [parse_render_val b hab.2 f _ hda.2 (by simp [termHead])]
      simp only [Option.map_some']
      rw [ms0_term (by simp [termHead])]
      try simp only []
      rw [tagP_single_cons, if_pos rfl]
      simp only [Option.map_some']
      rw [ms0_term hrt]
  | .binaryUtil bin, h, _, _, _, _ => absurd h (by simp [goodV])

theorem parse_render_seq : ∀ l : List DValue, goodItems l = true →
    ∀ (f g : Nat) (acc : List DValue) (stop : Chars), depthItems l ≤ f →
    l.length < g → stopHead stop →
    sepLoop (elemOf (fun j => parseVal f j)) g acc (seqTail l ++ stop)
      = some (acc.reverse ++ l, stop)
  | [], _, f, g, acc, stop, _, hg, hs => by
    rw [seqTail, List.nil_append]
    cases g with
    | zero => exact absurd hg (by simp)
    | succ g =>
      rw [sepLoop]
      rw [tagP_comma_stop hs]
      simp
  | v :: ls, h, f, g, acc, stop, hdf, hg, hs => by
    cases g with
    | zero => exact absurd hg (by simp)
    | succ g =>
      simp only [goodItems, Bool.and_eq_true] at h
      obtain ⟨hv, hls⟩ := h
      rw [depthItems, Nat.max_le] at hdf
      obtain ⟨hfa, hfl⟩ := hdf
      rw [seqTail]
      rw [show ((',' :: v.to_string ++ seqTail ls) ++ stop)
        = ',' :: (v.to_string ++ (seqTail ls ++ stop)) by simp]
      rw [sepLoop]
      rw [tagP_single_cons, if_pos rfl]
      simp only []
      rw [if_neg (by simp)]
      rw [elemOf_parseVal]
      rw [parse_render_val v hv f _ hfa (termHead_seqTail hs ls)]
      simp only [Option.map_some']
      rw [ms0_term (termHead_seqTail hs ls)]
      try simp only []
      rw [parse_render_seq ls hls f g (v :: acc) stop hfl
        (by rw [List.length_cons] at hg; omega) hs]
      simp

theorem parse_render_list : ∀ l : List DValue, goodItems l = true →
    ∀ (f g : Nat) (stop : Chars), depthItems l ≤ f → l.length < g → stopHead stop →
    sepList0 (elemOf (fun j => parseVal f j)) g (joinSep ',' (renderItems l) ++ stop)
      = some (l, stop)
  | [], _, f, g, stop, _, _, hs => by
    rw [show joinSep ',' (renderItems ([] : List DValue)) = [] from rfl, List.nil_append]
    unfold sepList0
    rw [elemOf_parseVal]
    rw [parseVal_stop_none f hs]
    rfl
  | v :: ls, h, f, g, stop, hdf, hg, hs => by
    simp only [goodItems, Bool.and_eq_true] at h
    obtain ⟨hv, hls⟩ := h
    rw [depthItems, Nat.max_le] at hdf
    obtain ⟨hfa, hfl⟩ := hdf
    rw [joinSep_renderItems, List.append_assoc]
    unfold sepList0
    rw [elemOf_parseVal]
    rw [parse_render_val v hv f _ hfa (termHead_seqTail hs ls)]
    simp only [Option.map_some']
    rw [ms0_term (termHead_seqTail hs ls)]
    try simp only []
    rw [parse_render_seq ls hls f g [v] stop hfl
      (by rw [List.length_cons] at hg; omega) hs]
    simp

theorem parse_render_seqE : ∀ d : List (Chars × DValue), goodEntries d = true →
    ∀ (f g : Nat) (acc : List (Chars × DValue)) (stop : Chars), depthEntries d ≤ f →
    d.length < g → stopHead stop →
    sepLoop (pairOf (fun j => parseVal f j)) g acc (seqTailE d ++ stop)
      = some (acc.reverse ++ d, stop)
  | [], _, f, g, acc, stop, _, hg, hs => by
    rw [seqTailE, List.nil_append]
    cases g with
    | zero => exact absurd hg (by simp)
    | succ g =>
      rw [sepLoop]
      rw [tagP_comma_stop hs]
      simp
  | (k, v) :: ds, h, f, g, acc, stop, hdf, hg, hs => by
    cases g with
    | zero => exact absurd hg (by simp)
    | succ g =>
      rw [goodEntries] at h
      simp only [Bool.and_eq_true] at h
      obtain ⟨⟨⟨hk, -⟩, hv⟩, hds⟩ := h
      rw [depthEntries, Nat.max_le] at hdf
      obtain ⟨hfa, hfl⟩ := hdf
      rw [seqTailE]
      rw [show ((',' :: entryRender (k, v) ++ seqTailE ds) ++ stop)
        = ',' :: (entryRender (k, v) ++ (seqTailE ds ++ stop)) by simp]
      rw [sepLoop]
      rw [tagP_single_cons, if_pos rfl]
      simp only []
      rw [if_neg (by simp)]
      rw [pairOf_step hk (termHead_seqTailE hs ds)
        (parse_render_val v hv f _ hfa (termHead_seqTailE hs ds))]
      simp only []
      rw [parse_render_seqE ds hds f g ((k, v) :: acc) stop hfl
        (by rw [List.length_cons] at hg; omega) hs]
      simp

theorem parse_render_dict : ∀ d : List (Chars × DValue), goodEntries d = true →
    ∀ (f g : Nat) (stop : Chars), depthEntries d ≤ f → d.length < g → stopHead stop →
    sepList0 (pairOf (fun j => parseVal f j)) g (joinSep ',' (renderEntries d) ++ stop)
      = some (d, stop)
  | [], _, f, g, stop, _, _, hs => by
    rw [show joinSep ',' (renderEntries ([] : List (Chars × DValue))) = [] from rfl,
      List.nil_append]
    unfold sepList0
    unfold pairOf
    rw [parse_str_stop_none hs]
  | (k, v) :: ds, h, f, g, stop, hdf, hg, hs => by
    rw [goodEntries] at h
    simp only [Bool.and_eq_true] at h
    obtain ⟨⟨⟨hk, -⟩, hv⟩, hds⟩ := h
    rw [depthEntries, Nat.max_le] at hdf
    obtain ⟨hfa, hfl⟩ := hdf
    rw [joinSep_renderEntries, List.append_assoc]
    unfold sepList0
    rw [pairOf_step hk (termHead_seqTailE hs ds)
      (parse_render_val v hv f _ hfa (termHead_seqTailE hs ds))]
    simp only []
    rw [parse_render_seqE ds hds f g [(k, v)] stop hfl
      (by rw [List.length_cons] at hg; omega) hs]
    simp

end

theorem goodV_head_ne_b : ∀ v : DValue, goodV v = true →
    ∀ c t, v.to_string = c :: t → c ≠ 'b'
  | .none, h, _, _, _ => absurd h (by decide)
  | .string s, _, c, t, he => by
    rw [show (DValue.string s).to_string = '"' :: s ++ ['"'] from rfl] at he
    obtain ⟨h1, -⟩ := List.cons.inj he
    rw [← h1]
    decide
  | .number x, h, c, t, he => by
    rw [show (DValue.number x).to_string = fmtF64 x from rfl] at he
    cases x with
    | nan =>
      rw [show fmtF64 F64.nan = ['N', 'a', 'N'] from rfl] at he
      obtain ⟨h1, -⟩ := List.cons.inj he
      rw [← h1]
      decide
    | inf =>
      rw [show fmtF64 F64.inf = ['i', 'n', 'f'] from rfl] at he
      obtain ⟨h1, -⟩ := List.cons.inj he
      rw [← h1]
      decide
    | neginf => exact absurd h (by decide)
    | finite q =>
      rw [show fmtF64 (F64.finite q)
        = (if q.isNeg then ['-'] else []) ++ fmtPosRat q.num.natAbs q.den from rfl] at he
      by_cases hn : q.isNeg
      · rw [if_pos hn, List.singleton_append] at he
        obtain ⟨h1, -⟩ := List.cons.inj he
        rw [← h1]
        decide
      · rw [if_neg hn, List.nil_append] at he
        obtain ⟨c2, t2, heq, hd⟩ := fmtPosRat_head q.num.natAbs q.den
        rw [heq] at he
        obtain ⟨h1, -⟩ := List.cons.inj he
        rw [← h1]
        intro hb
        rw [hb] at hd
        exact absurd hd (by decide)
  | .boolean b, _, c, t, he => by
    cases b with
    | true =>
      rw [show (DValue.boolean true).to_string = 't' :: "rue".toList from rfl] at he
      obtain ⟨h1, -⟩ := List.cons.inj he
      rw [← h1]
      decide
    | false =>
      rw [show (DValue.boolean false).to_string = 'f' :: "alse".toList from rfl] at he
      obtain ⟨h1, -⟩ := List.cons.inj he
      rw [← h1]
      decide
  | .list l, _, c, t, he => by
    rw [show (DValue.list l).to_string
      = '[' :: joinSep ',' (renderItems l) ++ [']'] from rfl] at he
    obtain ⟨h1, -⟩ := List.cons.inj he
    rw [← h1]
    decide
  | .dict d, _, c, t, he => by
    rw [show (DValue.dict d).to_string
      = '\x7b' :: joinSep ',' (renderEntries d) ++ ['\x7d'] from rfl] at he
    obtain ⟨h1, -⟩ := List.cons.inj he
    rw [← h1]
    decide
  | .tuple a b, _, c, t, he => by
    rw [show (DValue.tuple a b).to_string
      = '(' :: a.to_string ++ ',' :: ' ' :: b.to_string ++ [')'] from rfl] at he
    obtain ⟨h1, -⟩ := List.cons.inj he
    rw [← h1]
    decide
  | .binaryUtil bin, h, _, _, _ => absurd h (by simp [goodV])

theorem goodV_not_envForm {v : DValue} (h : goodV v = true) : ¬ envForm v.to_string := by
  intro he
  obtain ⟨hpre, -⟩ := he
  cases hts : v.to_string with
  | nil =>
    rw [hts] at hpre
    exact absurd hpre (by decide)
  | cons c t =>
    rw [hts] at hpre
    simp only [List.isPrefixOf_iff_prefix, List.cons_prefix_cons] at hpre
    exact goodV_head_ne_b v h c t hts hpre.1.symm

/-- C1: the universal text round-trip fails: the empty string renders as two
quote characters, which re-parse (via the `""` tag) to a String containing
the two quote characters themselves, rendering as four quote characters —
not a Dict-ordering exception. -/
theorem c1_text_roundtrip_counterexample :
    (DValue.from (DValue.string []).to_string).map DValue.to_string
      ≠ some (DValue.string []).to_string := by decide

/-- C1 (amended): on the round-trippable fragment — values avoiding Binary,
nested None, empty or grammar-unreadable string contents, numbers whose
rendering the numeric grammar cannot re-read, and duplicate Dict keys —
`DValue::from` on the canonical rendering returns the value itself, so the
re-parsed rendering equals the original rendering exactly (Dicts modeled in
iteration order, so no ordering exception is even needed). -/
theorem c1_text_roundtrip_amended (v : DValue) (h : goodTop v = true) :
    DValue.from v.to_string = some v ∧
    (DValue.from v.to_string).map DValue.to_string = some v.to_string := by
  have hmain : DValue.from v.to_string = some v := by
    rw [goodTop, Bool.or_eq_true] at h
    rcases h with hg | hn
    · have hne : ¬ envForm v.to_string := goodV_not_envForm hg
      rw [DValue.from, if_neg hne]
      have hp : ValueParser.parse v.to_string = some (v, []) := by
        rw [ValueParser.parse]
        have hd := depthV_le_len v
        have := parse_render_val v hg (v.to_string.length + 1) [] (by omega) (by rfl)
        rw [List.append_nil] at this
        exact this
      unfold topParse
      rw [hp]
    · have hvn : v = DValue.none := by simpa using hn
      subst hvn
      decide
  exact ⟨hmain, by rw [hmain, Option.map_some']⟩

/-- C1 witness: a nested concrete value — a Tuple of a List and a Dict —
whose rendering round-trips to the value itself. -/
theorem c1_text_roundtrip_witness :
    goodTop (DValue.tuple
      (DValue.list [DValue.number (F64.finite 1), DValue.boolean true])
      (DValue.dict [(['a'], DValue.string ['x'])])) = true ∧
    DValue.from (DValue.tuple
      (DValue.list [DValue.number (F64.finite 1), DValue.boolean true])
      (DValue.dict [(['a'], DValue.string ['x'])])).to_string
      = some (DValue.tuple
        (DValue.list [DValue.number (F64.finite 1), DValue.boolean true])
        (DValue.dict [(['a'], DValue.string ['x'])])) :=
  ⟨by decide, (c1_text_roundtrip_amended _ (by decide)).1⟩

theorem hexVal_hexCharL : ∀ m : Nat, m < 16 → hexVal (hexCharL m) = some m := by decide

theorem escJsonChar_len (c : Char) : 1 ≤ (escJsonChar c).length := by
  unfold escJsonChar
  split_ifs <;> simp

theorem jstrLoop_escChar (c : Char) (g : Nat) (rest : Chars) :
    jstrLoop (g + 1) (escJsonChar c ++ rest)
      = (jstrLoop g rest).map (fun p => (c :: p.1, p.2)) := by
  unfold escJsonChar
  by_cases h1 : c = '"'
  · subst h1
    rw [if_pos rfl]
    rfl
  · rw [if_neg h1]
    by_cases h2 : c = '\\'
    · subst h2
      rw [if_pos rfl]
      rfl
    · rw [if_neg h2]
      by_cases h3 : c.toNat = 8
      · rw [if_pos h3]
        have hc : c = Char.ofNat 8 := by rw [← h3, Char.ofNat_toNat]
        rw [hc]
        rfl
      · rw [if_neg h3]
        by_cases h4 : c.toNat = 12
        · rw [if_pos h4]
          have hc : c = Char.ofNat 12 := by rw [← h4, Char.ofNat_toNat]
          rw [hc]
          rfl
        · rw [if_neg h4]
          by_cases h5 : c = '\n'
          · subst h5
            rw [if_pos rfl]
            rfl
          · rw [if_neg h5]
            by_cases h6 : c = '\r'
            · subst h6
              rw [if_pos rfl]
              rfl
            · rw [if_neg h6]
              by_cases h7 : c = '\t'
              · subst h7
                rw [if_pos rfl]
                rfl
              · rw [if_neg h7]
                by_cases h8 : c.toNat < 32
                · rw [if_pos h8]
                  rw [show (['\\', 'u', '0', '0', hexCharL (c.toNat / 16),
                    hexCharL (c.toNat % 16)] : Chars) ++ rest
                    = '\\' :: 'u' :: '0' :: '0' :: hexCharL (c.toNat / 16)
                      :: hexCharL (c.toNat % 16) :: rest from rfl]
                  rw [jstrLoop]
                  rw [if_neg (by decide), if_pos rfl]
                  rw [jescChar]
                  rw [if_neg (by decide), if_neg (by decide), if_neg (by decide),
                    if_neg (by decide), if_neg (by decide), if_neg (by decide),
                    if_neg (by decide), if_neg (by decide), if_pos rfl]
                  rw [juEscape]
                  rw [show hexVal '0' = some 0 from rfl]
                  rw [hexVal_hexCharL _ (by omega), hexVal_hexCharL _ (by omega)]
                  simp only []
                  rw [if_neg (by omega), if_neg (by omega)]
                  rw [show ((0 * 16 + 0) * 16 + c.toNat / 16) * 16 + c.toNat % 16
                    = c.toNat from by omega]
                  rw [Char.ofNat_toNat]
                · rw [if_neg h8]
                  rw [List.singleton_append]
                  rw [jstrLoop]
                  rw [if_neg h1, if_neg h2, if_neg (by simpa using h8)]

theorem jstrLoop_esc : ∀ (s : Chars) (g : Nat) (rest : Chars),
    (escJson s).length < g →
    jstrLoop g (escJson s ++ '"' :: rest) = some (s, rest)
  | [], g, rest, hg => by
    rw [show escJson [] = [] from rfl, List.nil_append]
    cases g with
    | zero => exact absurd hg (by simp)
    | succ g =>
      rw [jstrLoop]
      rw [if_pos rfl]
  | c :: t, g, rest, hg => by
    rw [show escJson (c :: t) = escJsonChar c ++ escJson t from rfl] at hg ⊢
    cases g with
    | zero => exact absurd hg (by simp)
    | succ g =>
      rw [List.append_assoc]
      rw [jstrLoop_escChar]
      rw [jstrLoop_esc t g rest
        (by
          have := escJsonChar_len c
          rw [List.length_append] at hg
          omega)]
      rfl

theorem jstr_parse {f depth : Nat} (s : Chars) (rest : Chars) :
    jparse (f + 1) depth (jstr s ++ rest) = some (Json.str s, rest) := by
  rw [show jstr s ++ rest = '"' :: (escJson s ++ '"' :: rest) by simp [jstr]]
  rw [jparse]
  rw [ms0_cons_of_not_ws (by decide)]
  simp only []
  rw [if_neg (by decide), if_neg (by decide), if_neg (by decide), if_pos (by trivial)]
  rw [jstrLoop_esc s _ rest (by simp only [List.length_append, List.length_cons]; omega)]

theorem jdigits_extend {i ext : Chars} {v n : Nat} {r : Chars} (hstop : floatStop ext)
    (h : jdigits i = some (v, n, r)) : jdigits (i ++ ext) = some (v, n, r ++ ext) := by
  unfold jdigits at h ⊢
  cases hdr : digitRun i with
  | none => rw [hdr] at h; exact absurd h (by simp)
  | some q =>
    obtain ⟨v2, n2, r2⟩ := q
    rw [hdr] at h
    simp only [] at h
    by_cases hz : 2 ≤ n2 ∧ i.head? = some '0'
    · rw [if_pos hz] at h
      exact absurd h (by simp)
    · rw [if_neg hz] at h
      simp only [Option.some_inj, Prod.mk.injEq] at h
      obtain ⟨hv, hn, hr⟩ := h
      rw [digitRun_extend hstop hdr]
      simp only []
      rw [if_neg (by
        cases i with
        | nil =>
          unfold digitRun at hdr
          exact absurd hdr (by simp)
        | cons c t => simpa using hz)]
      rw [hv, hn, hr]
  
theorem jexpPart_extend {neg : Bool} {ip fv fl : Nat} {r : Chars} {x : Q × Bool}
    {ext : Chars} (hstop : floatStop ext) (h : jexpPart neg ip fv fl r = some (x, [])) :
    jexpPart neg ip fv fl (r ++ ext) = some (x, ext) := by
  cases hx : ext with
  | nil => rw [List.append_nil]; rw [h]
  | cons ce te =>
  rw [← hx]
  unfold jexpPart at h ⊢
  cases r with
  | nil =>
    simp only [] at h
    rw [show digitRun [] = Option.none from rfl] at h
    exact absurd h (by simp)
  | cons c t =>
    rw [List.cons_append]
    simp only [] at h ⊢
    by_cases hcp : c = '+'
    · rw [if_pos hcp] at h ⊢
      cases hdr : digitRun t with
      | none => rw [hdr] at h; exact absurd h (by simp)
      | some q =>
        obtain ⟨e, len, r3⟩ := q
        rw [hdr] at h
        simp only [Option.some_inj, Prod.mk.injEq] at h
        obtain ⟨hx1, hr3⟩ := h
        subst hr3
        rw [digitRun_extend hstop hdr]
        simp only []
        rw [hx1]
        simp
    · rw [if_neg hcp] at h ⊢
      by_cases hcm : c = '-'
      · rw [if_pos hcm] at h ⊢
        cases hdr : digitRun t with
        | none => rw [hdr] at h; exact absurd h (by simp)
        | some q =>
          obtain ⟨e, len, r3⟩ := q
          rw [hdr] at h
          simp only [Option.some_inj, Prod.mk.injEq] at h
          obtain ⟨hx1, hr3⟩ := h
          subst hr3
          rw [digitRun_extend hstop hdr]
          simp only []
          rw [hx1]
          simp
      · rw [if_neg hcm] at h ⊢
        cases hdr : digitRun (c :: t) with
        | none => rw [hdr] at h; exact absurd h (by simp)
        | some q =>
          obtain ⟨e, len, r3⟩ := q
          rw [hdr] at h
          simp only [Option.some_inj, Prod.mk.injEq] at h
          obtain ⟨hx1, hr3⟩ := h
          subst hr3
          have hde := digitRun_extend hstop hdr
          rw [List.cons_append] at hde
          rw [hde]
          simp only []
          rw [hx1]
          simp

theorem jafterExp_extend {neg : Bool} {ip fv fl : Nat} {isInt : Bool} {r : Chars}
    {x : Q × Bool} {ext : Chars} (hstop : floatStop ext)
    (h : jafterExp neg ip fv fl isInt r = some (x, [])) :
    jafterExp neg ip fv fl isInt (r ++ ext) = some (x, ext) := by
  cases hx : ext with
  | nil => rw [List.append_nil]; rw [h]
  | cons ce te =>
  rw [← hx]
  unfold jafterExp at h ⊢
  cases r with
  | nil =>
    simp only [Option.some_inj, Prod.mk.injEq] at h
    obtain ⟨hx1, -⟩ := h
    rw [List.nil_append, hx]
    simp only []
    rw [if_neg (by
      obtain ⟨-, -, he1, he2, -, -⟩ := hstop ce te hx
      simp [he1, he2])]
    rw [hx1, ← hx]
  | cons c t =>
    rw [List.cons_append]
    simp only [] at h ⊢
    by_cases hce : c = 'e' ∨ c = 'E'
    · rw [if_pos hce] at h ⊢
      exact jexpPart_extend hstop h
    · rw [if_neg hce] at h ⊢
      simp only [Option.some_inj, Prod.mk.injEq] at h
      exact absurd h.2 (by simp)

theorem jnumBody_extend {neg : Bool} {i1 : Chars} {x : Q × Bool} {ext : Chars}
    (hstop : floatStop ext) (h : jnumBody neg i1 = some (x, [])) :
    jnumBody neg (i1 ++ ext) = some (x, ext) := by
  cases hx : ext with
  | nil => rw [List.append_nil]; rw [h]
  | cons ce te =>
  rw [← hx]
  unfold jnumBody at h ⊢
  cases hdr : jdigits i1 with
  | some q =>
    obtain ⟨ip, len, r1⟩ := q
    rw [hdr] at h
    simp only [] at h
    rw [jdigits_extend hstop hdr]
    simp only []
    cases r1 with
    | nil =>
      rw [List.nil_append, hx]
      simp only []
      rw [if_neg (by simpa using (hstop ce te hx).2.1)]
      rw [← hx]
      exact @jafterExp_extend neg ip 0 0 true [] x ext hstop h
    | cons c rr =>
      rw [List.cons_append]
      simp only [] at h ⊢
      by_cases hc : c = '.'
      · rw [if_pos hc] at h ⊢
        cases hdr2 : digitRun rr with
        | some q2 =>
          obtain ⟨fv, fl, r2⟩ := q2
          rw [hdr2] at h
          rw [digitRun_extend hstop hdr2]
          simp only [] at h ⊢
          exact jafterExp_extend hstop h
        | none =>
          rw [hdr2] at h
          exact absurd h (by simp)
      · rw [if_neg hc] at h ⊢
        have := jafterExp_extend hstop h
        rw [List.cons_append] at this
        exact this
  | none =>
    rw [hdr] at h
    exact absurd h (by simp)

theorem jnumber_extend {i : Chars} {x : Q × Bool} {ext : Chars}
    (hstop : floatStop ext) (h : jnumber i = some (x, [])) :
    jnumber (i ++ ext) = some (x, ext) := by
  unfold jnumber at h ⊢
  cases i with
  | nil =>
    simp only [] at h
    exact absurd h (by simp)
  | cons c t =>
    rw [List.cons_append]
    simp only [] at h ⊢
    by_cases hcm : c = '-'
    · rw [if_pos hcm] at h ⊢
      exact jnumBody_extend hstop h
    · rw [if_neg hcm] at h ⊢
      have := jnumBody_extend hstop h
      rw [List.cons_append] at this
      exact this

theorem jnumOk_parse {q : Q} (h : jnumOk (F64.finite q) = true) :
    jnumber (jfmtQ q) = some ((q, false), []) := by
  rw [show jnumOk (F64.finite q)
    = (match jnumber (jfmtQ q) with
       | some ((q2, b), r) => q2 == q && !b && r.isEmpty
       | Option.none => false) from rfl] at h
  cases hj : jnumber (jfmtQ q) with
  | none => rw [hj] at h; simp at h
  | some pr =>
    obtain ⟨⟨q2, b⟩, r⟩ := pr
    rw [hj] at h
    simp only [Bool.and_eq_true, Bool.not_eq_true', beq_iff_eq, List.isEmpty_iff] at h
    obtain ⟨⟨hq, hb⟩, hr⟩ := h
    rw [hq, hb, hr]

theorem jnumber_render {q : Q} (h : jnumOk (F64.finite q) = true) {ext : Chars}
    (hstop : floatStop ext) :
    jnumber (jfmtQ q ++ ext) = some ((q, false), ext) :=
  jnumber_extend hstop (jnumOk_parse h)

theorem jfmtQ_head (q : Q) : ∃ c t, jfmtQ q = c :: t ∧ (c = '-' ∨ c.isDigit = true) := by
  unfold jfmtQ
  by_cases hn : q.isNeg
  · rw [if_pos hn]
    exact ⟨'-', _, rfl, Or.inl rfl⟩
  · rw [if_neg hn, List.nil_append]
    cases hde : decExp q.den with
    | some t =>
      simp only []
      by_cases ht : t = 0
      · rw [if_pos ht]
        obtain ⟨c, t2, heq, hd⟩ := natChars_head q.num.natAbs
        refine ⟨c, t2 ++ ['.', '0'], ?_, Or.inr hd⟩
        rw [heq]
        rfl
      · rw [if_neg ht]
        obtain ⟨c, t2, heq, hd⟩ := natChars_head (q.num.natAbs * 10 ^ t / q.den / 10 ^ t)
        refine ⟨c, t2 ++ '.' :: padZeros t (natChars (q.num.natAbs * 10 ^ t / q.den % 10 ^ t)),
          ?_, Or.inr hd⟩
        rw [heq]
        rfl
    | none =>
      simp only []
      obtain ⟨c, t2, heq, hd⟩ := natChars_head q.num.natAbs
      refine ⟨c, t2 ++ '/' :: natChars q.den, ?_, Or.inr hd⟩
      rw [heq]
      rfl

theorem isDigit_elim {c : Char} (h : c.isDigit = true) :
    c ≠ 'n' ∧ c ≠ 't' ∧ c ≠ 'f' ∧ c ≠ '"' ∧ c ≠ '[' ∧ c ≠ '\x7b' ∧
      ¬ (c = ' ' ∨ c = '\t' ∨ c = '\r' ∨ c = '\n') := by
  refine ⟨?_, ?_, ?_, ?_, ?_, ?_, isDigit_not_ws h⟩ <;>
    (intro he; rw [he] at h; exact absurd h (by decide))

theorem jparse_num {f depth : Nat} {i : Chars} {q : Q} {b : Bool} {r : Chars}
    (hne : i ≠ []) (hhead : ∀ c t, i = c :: t → (c = '-' ∨ c.isDigit = true))
    (h : jnumber i = some ((q, b), r)) :
    jparse (f + 1) depth i = some (Json.num q b, r) := by
  cases i with
  | nil => exact absurd rfl hne
  | cons c t =>
    have hc := hhead c t rfl
    have hws : ¬ (c = ' ' ∨ c = '\t' ∨ c = '\r' ∨ c = '\n') := by
      rcases hc with hc | hc
      · rw [hc]; decide
      · exact (isDigit_elim hc).2.2.2.2.2.2
    have h1 : c ≠ 'n' := by
      rcases hc with hc | hc
      · rw [hc]; decide
      · exact (isDigit_elim hc).1
    have h2 : c ≠ 't' := by
      rcases hc with hc | hc
      · rw [hc]; decide
      · exact (isDigit_elim hc).2.1
    have h3 : c ≠ 'f' := by
      rcases hc with hc | hc
      · rw [hc]; decide
      · exact (isDigit_elim hc).2.2.1
    have h4 : c ≠ '"' := by
      rcases hc with hc | hc
      · rw [hc]; decide
      · exact (isDigit_elim hc).2.2.2.1
    have h5 : c ≠ '[' := by
      rcases hc with hc | hc
      · rw [hc]; decide
      · exact (isDigit_elim hc).2.2.2.2.1
    have h6 : c ≠ '\x7b' := by
      rcases hc with hc | hc
      · rw [hc]; decide
      · exact (isDigit_elim hc).2.2.2.2.2.1
    rw [jparse, ms0_cons_of_not_ws hws]
    simp only []
    rw [if_neg h1, if_neg h2, if_neg h3, if_neg h4, if_neg h5, if_neg h6, if_pos hc]
    rw [h]
    rfl

theorem takeWhile_all {p : Char → Bool} : ∀ {l : Chars}, (∀ c ∈ l, p c = true) →
    l.takeWhile p = l := by
  intro l
  induction l with
  | nil => intro _; rfl
  | cons c t ih =>
    intro hall
    rw [List.takeWhile_cons_of_pos (hall c (by simp))]
    rw [ih (fun c2 hc2 => hall c2 (by simp [hc2]))]

theorem natDigitsAux_zero (fuel : Nat) (acc : Chars) : natDigitsAux fuel 0 acc = acc := by
  cases fuel with
  | zero => rfl
  | succ fuel => rw [natDigitsAux, if_pos rfl]

theorem digitChar_facts : ∀ m : Nat, m < 10 →
    (Nat.digitChar m).toNat = m + 48 ∧ (0 < m → Nat.digitChar m ≠ '0') := by decide

theorem natDigitsAux_spec : ∀ (fuel n : Nat) (acc : Chars), 0 < n → n ≤ fuel →
    ∃ c cs, natDigitsAux fuel n acc = (c :: cs) ++ acc ∧ c ≠ '0' ∧
      (∀ a : Nat, (c :: cs).foldl (fun a ch => a * 10 + (ch.toNat - 48)) a
        = a * 10 ^ (c :: cs).length + n) := by
  intro fuel
  induction fuel with
  | zero => intro n acc hn hf; omega
  | succ fuel ih =>
    intro n acc hn hf
    rw [natDigitsAux, if_neg (by omega)]
    by_cases hten : n < 10
    · rw [show n / 10 = 0 from by omega, natDigitsAux_zero]
      refine ⟨Nat.digitChar (n % 10), [], rfl, ?_, ?_⟩
      · rw [show n % 10 = n from by omega]
        exact (digitChar_facts n hten).2 hn
      · intro a
        rw [show n % 10 = n from by omega]
        simp only [List.foldl_cons, List.foldl_nil, List.length_cons, List.length_nil]
        rw [(digitChar_facts n hten).1]
        have hp : (10 : Nat) ^ (0 + 1) = 10 := by norm_num
        rw [hp]
        omega
    · obtain ⟨c, cs, heq, hc0, hfold⟩ := ih (n / 10) (Nat.digitChar (n % 10) :: acc)
        (by omega) (by omega)
      refine ⟨c, cs ++ [Nat.digitChar (n % 10)], ?_, hc0, ?_⟩
      · rw [heq]
        simp
      · intro a
        have hsplit : (c :: (cs ++ [Nat.digitChar (n % 10)]))
            = (c :: cs) ++ [Nat.digitChar (n % 10)] := by simp
        rw [hsplit, List.foldl_append, hfold a]
        simp only [List.foldl_cons, List.foldl_nil, List.length_append,
          List.length_cons, List.length_nil]
        rw [(digitChar_facts (n % 10) (by omega)).1]
        have hpow : 10 ^ (cs.length + 1 + 1) = 10 ^ (cs.length + 1) * 10 := by ring
        have hmod : n % 10 + 48 - 48 = n % 10 := by omega
        rw [hmod]
        have := Nat.div_add_mod n 10
        calc (a * 10 ^ (cs.length + 1) + n / 10) * 10 + n % 10
            = a * (10 ^ (cs.length + 1) * 10) + (n / 10 * 10 + n % 10) := by ring
          _ = a * 10 ^ (cs.length + 1 + 1) + n := by rw [← hpow]; omega

theorem natChars_spec (n : Nat) :
    ((natChars n).foldl (fun a ch => a * 10 + (ch.toNat - 48)) 0 = n) ∧
    ((natChars n).head? ≠ some '0' ∨ natChars n = ['0']) := by
  unfold natChars
  by_cases hn : n = 0
  · rw [if_pos hn]
    exact ⟨by rw [hn]; decide, Or.inr rfl⟩
  · rw [if_neg hn]
    obtain ⟨c, cs, heq, hc0, hfold⟩ := natDigitsAux_spec (n + 1) n [] (by omega) (by omega)
    rw [List.append_nil] at heq
    rw [heq]
    refine ⟨?_, Or.inl ?_⟩
    · rw [hfold 0]
      omega
    · simp only [List.head?_cons, ne_eq, Option.some_inj]
      exact fun he => hc0 he

theorem digitRun_natChars (n : Nat) {ext : Chars} (hstop : floatStop ext) :
    digitRun (natChars n ++ ext) = some (n, (natChars n).length, ext) := by
  have hall : ∀ c ∈ natChars n, Char.isDigit c = true := natChars_all_digits n
  have hextTW : ext.takeWhile Char.isDigit = [] := by
    cases ext with
    | nil => rfl
    | cons c t => rw [List.takeWhile_cons_of_neg (by simp [(hstop c t rfl).1])]
  have htw : List.takeWhile Char.isDigit (natChars n) = natChars n := takeWhile_all hall
  unfold digitRun
  rw [List.takeWhile_append, htw, if_pos rfl, hextTW, List.append_nil]
  rw [if_neg (by simpa using natChars_ne_nil n)]
  rw [List.drop_left, (natChars_spec n).1]

theorem jdigits_natChars (n : Nat) {ext : Chars} (hstop : floatStop ext) :
    jdigits (natChars n ++ ext) = some (n, (natChars n).length, ext) := by
  unfold jdigits
  rw [digitRun_natChars n hstop]
  simp only []
  rw [if_neg ?_]
  rcases (natChars_spec n).2 with hh | hone
  · intro hcon
    obtain ⟨-, hcon2⟩ := hcon
    cases hnc : natChars n with
    | nil => exact absurd hnc (natChars_ne_nil n)
    | cons c t =>
      rw [hnc] at hcon2 hh
      rw [List.cons_append] at hcon2
      simp only [List.head?_cons] at hcon2 hh
      exact hh hcon2
  · rw [hone]
    intro hcon
    obtain ⟨hlen, -⟩ := hcon
    simp at hlen

theorem mkQ_nat_one (n : Nat) : mkQ (n : Int) 1 = ⟨(n : Int), 1⟩ := by
  unfold mkQ
  rw [if_neg (by omega)]
  simp [Int.natAbs_ofNat, Nat.gcd_one_right]

theorem mkJQ_int (n : Nat) : mkJQ false n 0 0 0 false = ⟨(n : Int), 1⟩ := by
  unfold mkJQ
  rw [if_neg (by simp)]
  norm_num
  exact mkQ_nat_one n

theorem jnumber_natChars (n : Nat) {ext : Chars} (hstop : floatStop ext) :
    jnumber (natChars n ++ ext) = some ((⟨(n : Int), 1⟩, true), ext) := by
  obtain ⟨c, t2, heq, hd⟩ := natChars_head n
  unfold jnumber
  rw [heq, List.cons_append]
  simp only []
  rw [if_neg (by intro he; rw [he] at hd; exact absurd hd (by decide))]
  rw [← List.cons_append, ← heq]
  unfold jnumBody
  rw [jdigits_natChars n hstop]
  simp only []
  cases hx : ext with
  | nil =>
    simp only []
    unfold jafterExp
    simp only []
    rw [mkJQ_int]
  | cons ce te =>
    simp only []
    rw [if_neg (by simpa using (hstop ce te hx).2.1)]
    unfold jafterExp
    simp only []
    rw [if_neg (by
      obtain ⟨-, -, he1, he2, -, -⟩ := hstop ce te hx
      simp [he1, he2])]
    rw [mkJQ_int]

theorem jparse_null {f depth : Nat} (rest : Chars) :
    jparse (f + 1) depth ("null".toList ++ rest) = some (Json.null, rest) := by
  rw [show ("null".toList ++ rest) = 'n' :: ("ull".toList ++ rest) from rfl]
  rw [jparse, ms0_cons_of_not_ws (by decide)]
  simp only []
  rw [if_pos (by trivial), tagP_self]

theorem jparse_true {f depth : Nat} (rest : Chars) :
    jparse (f + 1) depth ("true".toList ++ rest) = some (Json.bool true, rest) := by
  rw [show ("true".toList ++ rest) = 't' :: ("rue".toList ++ rest) from rfl]
  rw [jparse, ms0_cons_of_not_ws (by decide)]
  simp only []
  rw [if_neg (by decide), if_pos (by trivial), tagP_self]

theorem jparse_false {f depth : Nat} (rest : Chars) :
    jparse (f + 1) depth ("false".toList ++ rest) = some (Json.bool false, rest) := by
  rw [show ("false".toList ++ rest) = 'f' :: ("alse".toList ++ rest) from rfl]
  rw [jparse, ms0_cons_of_not_ws (by decide)]
  simp only []
  rw [if_neg (by decide), if_neg (by decide), if_pos (by trivial), tagP_self]

theorem jfield_parse {f d : Nat} {name payload : Chars} {pj : Json} {rest : Chars}
    (hplain : escJson name = name)
    (hp : jparse f (d + 1) (payload ++ '\x7d' :: rest) = some (pj, '\x7d' :: rest)) :
    jparse (f + 1) (d + 2) (jfield name payload ++ rest)
      = some (Json.obj [(name, pj)], rest) := by
  rw [show jfield name payload ++ rest
    = '\x7b' :: ('"' :: (name ++ '"' :: (':' :: (payload ++ '\x7d' :: rest)))) by
      rw [jfield, jstr, hplain]
      simp]
  rw [jparse, ms0_cons_of_not_ws (by decide)]
  simp only []
  rw [if_neg (by decide), if_neg (by decide), if_neg (by decide), if_neg (by decide),
    if_neg (by decide), if_pos (by trivial)]
  rw [if_pos (Nat.le_add_left 2 d), show d + 2 - 1 = d + 1 from rfl]
  rw [ms0_cons_of_not_ws (by decide)]
  simp only []
  rw [jobjLoop]
  rw [ms0_cons_of_not_ws (by decide)]
  simp only []
  have hstr : jstrLoop ((name ++ '"' :: (':' :: (payload ++ '\x7d' :: rest))).length + 1)
      (name ++ '"' :: (':' :: (payload ++ '\x7d' :: rest)))
      = some (name, ':' :: (payload ++ '\x7d' :: rest)) := by
    have hlen : (escJson name).length
        < (name ++ '"' :: (':' :: (payload ++ '\x7d' :: rest))).length + 1 := by
      rw [hplain]
      simp only [List.length_append, List.length_cons]
      omega
    have := jstrLoop_esc name
      ((name ++ '"' :: (':' :: (payload ++ '\x7d' :: rest))).length + 1)
      (':' :: (payload ++ '\x7d' :: rest)) hlen
    rw [hplain] at this
    exact this
  rw [hstr]
  simp only []
  rw [ms0_cons_of_not_ws (by decide)]
  simp only []
  rw [hp]
  simp only []
  rw [ms0_cons_of_not_ws (by decide)]
  rw [if_neg (by decide)]
  rw [if_pos (trivial : True), if_pos (trivial : True)]
  simp only []
  rw [if_neg (by decide), if_pos (by decide)]
  simp

theorem joinSep_jsonItems : ∀ (rest : List DValue) (v : DValue),
    joinSep ',' (jsonItems (v :: rest)) = v.to_json ++ jseqTail rest
  | [], v => by rw [jsonItems, jsonItems, joinSep, jseqTail, List.append_nil]
  | w :: ws, v => by
    rw [jsonItems, jsonItems, joinSep, jseqTail]
    have ih := joinSep_jsonItems ws w
    rw [jsonItems] at ih
    rw [ih]
    all_goals simp

theorem joinSep_jsonEntries : ∀ (rest : List (Chars × DValue)) (p : Chars × DValue),
    joinSep ',' (jsonEntries (p :: rest)) = jentryRender p ++ jseqTailE rest
  | [], p => by
    obtain ⟨k, v⟩ := p
    rw [jsonEntries, jsonEntries, joinSep, jseqTailE, List.append_nil, jentryRender]
  | q :: qs, p => by
    obtain ⟨k, v⟩ := p
    rw [jsonEntries, jsonEntries, joinSep, jseqTailE]
    have ih := joinSep_jsonEntries qs q
    rw [jsonEntries] at ih
    rw [ih]
    all_goals simp [jentryRender]

theorem joinSep_mapBytes : ∀ (rest : List Nat) (b : Nat),
    joinSep ',' ((b :: rest).map natChars) = natChars b ++ jseqTailB rest
  | [], b => by
    rw [List.map_cons, List.map_nil, joinSep, jseqTailB, List.append_nil]
  | b2 :: bs, b => by
    rw [List.map_cons, joinSep, jseqTailB]
    have ih := joinSep_mapBytes bs b2
    rw [List.map_cons] at ih
    rw [List.map_cons, ih]
    all_goals simp

theorem jseqTail_len (l : List DValue) : l.length ≤ (jseqTail l).length := by
  induction l with
  | nil => simp [jseqTail]
  | cons v rest ih =>
    rw [jseqTail]
    simp only [List.length_cons, List.cons_append, List.length_append]
    omega

theorem jseqTailE_len (d : List (Chars × DValue)) : d.length ≤ (jseqTailE d).length := by
  induction d with
  | nil => simp [jseqTailE]
  | cons p rest ih =>
    rw [jseqTailE]
    simp only [List.length_cons, List.cons_append, List.length_append]
    omega

theorem jseqTailB_len (bs : List Nat) : bs.length ≤ (jseqTailB bs).length := by
  induction bs with
  | nil => simp [jseqTailB]
  | cons b rest ih =>
    rw [jseqTailB]
    simp only [List.length_cons, List.cons_append, List.length_append]
    omega

theorem termHead_jseqTail {stop : Chars} (hs : termHead stop = true) (l : List DValue) :
    termHead (jseqTail l ++ stop) = true := by
  cases l with
  | nil => rw [jseqTail, List.nil_append]; exact hs
  | cons v rest =>
    rw [jseqTail]
    simp only [List.cons_append, termHead]
    decide

theorem termHead_jseqTailE {stop : Chars} (hs : termHead stop = true)
    (d : List (Chars × DValue)) : termHead (jseqTailE d ++ stop) = true := by
  cases d with
  | nil => rw [jseqTailE, List.nil_append]; exact hs
  | cons p rest =>
    rw [jseqTailE]
    simp only [List.cons_append, termHead]
    decide

theorem termHead_jseqTailB {stop : Chars} (hs : termHead stop = true) (bs : List Nat) :
    termHead (jseqTailB bs ++ stop) = true := by
  cases bs with
  | nil => rw [jseqTailB, List.nil_append]; exact hs
  | cons b rest =>
    rw [jseqTailB]
    simp only [List.cons_append, termHead]
    decide

theorem termHead_rbracket (rest : Chars) : termHead (']' :: rest) = true := by
  rw [termHead]; decide

theorem termHead_rbrace (rest : Chars) : termHead ('\x7d' :: rest) = true := by
  rw [termHead]; decide

theorem termHead_comma (rest : Chars) : termHead (',' :: rest) = true := by
  rw [termHead]; decide

theorem to_json_head (v : DValue) :
    ∃ c t, v.to_json = c :: t ∧ (c = '"' ∨ c = '\x7b') := by
  cases v with
  | none => exact ⟨'"', _, rfl, Or.inl rfl⟩
  | string s => exact ⟨'\x7b', _, rfl, Or.inr rfl⟩
  | number x => exact ⟨'\x7b', _, rfl, Or.inr rfl⟩
  | boolean b => exact ⟨'\x7b', _, rfl, Or.inr rfl⟩
  | list l => exact ⟨'\x7b', _, rfl, Or.inr rfl⟩
  | dict d => exact ⟨'\x7b', _, rfl, Or.inr rfl⟩
  | tuple a b => exact ⟨'\x7b', _, rfl, Or.inr rfl⟩
  | binaryUtil bin => exact ⟨'\x7b', _, rfl, Or.inr rfl⟩

theorem jparse_jnum {f depth : Nat} {q : Q} (hq : jnumOk (F64.finite q) = true)
    {ext : Chars} (hstop : floatStop ext) :
    jparse (f + 1) depth (jfmtQ q ++ ext) = some (Json.num q false, ext) := by
  obtain ⟨c, t, heq, hc⟩ := jfmtQ_head q
  refine jparse_num ?_ ?_ (jnumber_render hq hstop)
  · rw [heq]; simp
  · intro c2 t2 he2
    rw [heq, List.cons_append] at he2
    obtain ⟨e1, -⟩ := List.cons.inj he2
    rw [← e1]
    exact hc

theorem natChars_head_not_ws (n : Nat) :
    ∃ c t, natChars n = c :: t ∧ ¬ (c = ' ' ∨ c = '\t' ∨ c = '\r' ∨ c = '\n') := by
  obtain ⟨c, t, heq, hd⟩ := natChars_head n
  exact ⟨c, t, heq, isDigit_not_ws hd⟩

theorem jparse_byte {f depth : Nat} (b : Nat) {ext : Chars} (hstop : floatStop ext) :
    jparse (f + 1) depth (natChars b ++ ext)
      = some (Json.num ⟨(b : Int), 1⟩ true, ext) := by
  obtain ⟨c, t, heq, hd⟩ := natChars_head b
  refine jparse_num ?_ ?_ (jnumber_natChars b hstop)
  · rw [heq]; simp
  · intro c2 t2 he2
    rw [heq, List.cons_append] at he2
    obtain ⟨e1, -⟩ := List.cons.inj he2
    rw [← e1]
    exact Or.inr hd

theorem jarr_bytes : ∀ (bs : List Nat) (f e g : Nat) (acc : List Json) (rest : Chars),
    1 ≤ f → bs.length ≤ g → bs ≠ [] →
    jarrLoop (fun j2 => jparse f e j2) g acc
      (joinSep ',' (bs.map natChars) ++ ']' :: rest)
      = some (acc.reverse ++ bs.map (fun b : Nat => Json.num ⟨(b : Int), 1⟩ true), rest)
  | [], _, _, _, _, _, _, _, hne => absurd rfl hne
  | b :: bt, f, e, g, acc, rest, hf, hg, _ => by
    cases g with
    | zero => exact absurd hg (by simp)
    | succ g =>
      cases f with
      | zero => omega
      | succ f =>
        rw [joinSep_mapBytes, List.append_assoc]
        rw [jarrLoop]
        have hterm : termHead (jseqTailB bt ++ ']' :: rest) = true :=
          termHead_jseqTailB (termHead_rbracket rest) bt
        rw [jparse_byte b (termHead_floatStop hterm)]
        simp only []
        rw [ms0_term hterm]
        cases bt with
        | nil =>
          rw [jseqTailB, List.nil_append]
          simp only []
          rw [if_neg (by decide), if_pos (by decide)]
          simp
        | cons b2 bt2 =>
          rw [jseqTailB]
          simp only [List.cons_append]
          rw [if_pos (by decide)]
          rw [show natChars b2 ++ jseqTailB bt2 ++ ']' :: rest
            = joinSep ',' ((b2 :: bt2).map natChars) ++ ']' :: rest by
              rw [joinSep_mapBytes, List.append_assoc]]
          rw [jarr_bytes (b2 :: bt2) (f + 1) e g (Json.num ⟨(b : Int), 1⟩ true :: acc) rest
            (by omega) (by rw [List.length_cons] at hg; omega) (by simp)]
          simp

theorem jparse_bytes_arr (bs : List Nat) (f e : Nat) (hf : 1 ≤ f) (rest : Chars) :
    jparse (f + 1) (e + 2) (('[' :: joinSep ',' (bs.map natChars) ++ [']']) ++ rest)
      = some (Json.arr (bs.map (fun b : Nat => Json.num ⟨(b : Int), 1⟩ true)), rest) := by
  cases bs with
  | nil =>
    rw [show (('[' :: joinSep ',' (([] : List Nat).map natChars) ++ [']']) ++ rest)
      = '[' :: (']' :: rest) from rfl]
    rw [jparse, ms0_cons_of_not_ws (by decide)]
    simp only []
    rw [if_neg (by decide), if_neg (by decide), if_neg (by decide), if_neg (by decide),
      if_pos (by decide)]
    rw [if_pos (Nat.le_add_left 2 e)]
    rw [ms0_cons_of_not_ws (by decide)]
    simp only []
    rw [if_pos (by decide)]
    rfl
  | cons b bt =>
    rw [show (('[' :: joinSep ',' ((b :: bt).map natChars) ++ [']']) ++ rest)
      = '[' :: (joinSep ',' ((b :: bt).map natChars) ++ ']' :: rest) by simp]
    rw [jparse, ms0_cons_of_not_ws (by decide)]
    simp only []
    rw [if_neg (by decide), if_neg (by decide), if_neg (by decide), if_neg (by decide),
      if_pos (by decide)]
    rw [if_pos (Nat.le_add_left 2 e), show e + 2 - 1 = e + 1 from rfl]
    obtain ⟨c, t, heq, hd⟩ := natChars_head b
    rw [joinSep_mapBytes, List.append_assoc, heq]
    rw [List.cons_append]
    rw [ms0_cons_of_not_ws (isDigit_not_ws hd)]
    simp only []
    rw [if_neg (by intro he; rw [he] at hd; exact absurd hd (by decide))]
    rw [← List.cons_append, ← heq]
    rw [show natChars b ++ (jseqTailB bt ++ ']' :: rest)
      = joinSep ',' ((b :: bt).map natChars) ++ ']' :: rest by
        rw [joinSep_mapBytes, List.append_assoc]]
    cases f with
    | zero => omega
    | succ f =>
      rw [jarr_bytes (b :: bt) (f + 1) (e + 1) _ [] rest (by omega) ?_ (by simp)]
      · simp
      · have h1 := jseqTailB_len bt
        have h2 : 1 ≤ (natChars b).length := by
          rw [heq]; simp
        rw [joinSep_mapBytes]
        simp only [List.length_append, List.length_cons]
        omega

theorem jcollectHM_aux : ∀ (l m : List (Chars × DValue)), jgoodEntries l = true →
    (∀ p ∈ l, m.any (fun q => q.1 = p.1) = false) →
    l.foldl (fun m p => hmInsert m p.1 p.2) m = m ++ l := by
  intro l
  induction l with
  | nil => intro m _ _; simp
  | cons p rest ih =>
    intro m hg hm
    obtain ⟨k, v⟩ := p
    rw [jgoodEntries] at hg
    simp only [Bool.and_eq_true, Bool.not_eq_true'] at hg
    obtain ⟨⟨hnot, -⟩, hrest⟩ := hg
    rw [List.foldl_cons]
    rw [hmInsert_new (hm (k, v) (by simp))]
    rw [ih (m ++ [(k, v)]) hrest ?_]
    · simp
    · intro q hq
      rw [List.any_append]
      rw [hm q (by simp [hq])]
      simp only [Bool.false_or, List.any_cons, List.any_nil, Bool.or_false]
      have : (q.1 == k) = false := by
        rw [List.any_eq_false] at hnot
        simpa using hnot q hq
      simp only [decide_eq_false_iff_not]
      intro hkq
      rw [beq_eq_false_iff_ne] at this
      exact this hkq.symm

theorem jcollectHM_id {d : List (Chars × DValue)} (h : jgoodEntries d = true) :
    collectHM d = d := by
  unfold collectHM
  rw [jcollectHM_aux d [] h (by intro p _; rfl)]
  simp

theorem jarrLoop_two {p : Chars → Option (Json × Chars)} :
    ∀ (g : Nat) (acc : List Json) {A B : Chars} {ja jb : Json} {rest : Chars},
    2 ≤ g →
    p (A ++ ',' :: (B ++ ']' :: rest)) = some (ja, ',' :: (B ++ ']' :: rest)) →
    p (B ++ ']' :: rest) = some (jb, ']' :: rest) →
    jarrLoop p g acc (A ++ ',' :: (B ++ ']' :: rest))
      = some (acc.reverse ++ [ja, jb], rest) := by
  intro g acc A B ja jb rest hg hp1 hp2
  cases g with
  | zero => omega
  | succ g =>
    cases g with
    | zero => omega
    | succ g =>
      rw [jarrLoop, hp1]
      simp only []
      rw [ms0_cons_of_not_ws (by decide)]
      simp only []
      rw [if_pos (by decide)]
      rw [jarrLoop, hp2]
      simp only []
      rw [ms0_cons_of_not_ws (by decide)]
      simp only []
      rw [if_neg (by decide), if_pos (by decide)]
      simp

mutual

theorem jparse_render_val : ∀ v : DValue, jgoodV v = true →
    ∀ (f depth : Nat) (rest : Chars), jdepthV v ≤ f → jnestV v < depth →
    jparse f depth (v.to_json ++ rest) = some (jsonOf v, rest)
  | .none, _, f, depth, rest, hdf, _ => by
    cases f with
    | zero => exact absurd hdf (by decide)
    | succ f =>
      rw [show (DValue.none).to_json = jstr ("None".toList) from rfl]
      exact jstr_parse _ rest
  | .string s, _, f, depth, rest, hdf, hnest => by
    rw [show jdepthV (DValue.string s) = 2 from rfl] at hdf
    rw [show jnestV (DValue.string s) = 1 from rfl] at hnest
    cases f with
    | zero => omega
    | succ f =>
      cases f with
      | zero => omega
      | succ f =>
        cases depth with
        | zero => omega
        | succ depth =>
          cases depth with
          | zero => omega
          | succ d =>
            rw [show (DValue.string s).to_json
              = jfield ("String".toList) (jstr s) from rfl]
            exact jfield_parse (by decide) (jstr_parse s ('\x7d' :: rest))
  | .number x, h, f, depth, rest, hdf, hnest => by
    cases x with
    | finite q =>
      rw [show jdepthV (DValue.number (F64.finite q)) = 2 from rfl] at hdf
      rw [show jnestV (DValue.number (F64.finite q)) = 1 from rfl] at hnest
      cases f with
      | zero => omega
      | succ f =>
        cases f with
        | zero => omega
        | succ f =>
          cases depth with
          | zero => omega
          | succ depth =>
            cases depth with
            | zero => omega
            | succ d =>
              rw [show (DValue.number (F64.finite q)).to_json
                = jfield ("Number".toList) (jfmtQ q) from rfl]
              exact jfield_parse (by decide)
                (jparse_jnum (by simpa [jgoodV] using h)
                  (termHead_floatStop (termHead_rbrace rest)))
    | nan => exact absurd h (by decide)
    | inf => exact absurd h (by decide)
    | neginf => exact absurd h (by decide)
  | .boolean b, _, f, depth, rest, hdf, hnest => by
    rw [show jdepthV (DValue.boolean b) = 2 from rfl] at hdf
    rw [show jnestV (DValue.boolean b) = 1 from rfl] at hnest
    cases f with
    | zero => omega
    | succ f =>
      cases f with
      | zero => omega
      | succ f =>
        cases depth with
        | zero => omega
        | succ depth =>
          cases depth with
          | zero => omega
          | succ d =>
            cases b with
            | true =>
              rw [show (DValue.boolean true).to_json
                = jfield ("Boolean".toList) ("true".toList) from rfl]
              exact jfield_parse (by decide) (jparse_true ('\x7d' :: rest))
            | false =>
              rw [show (DValue.boolean false).to_json
                = jfield ("Boolean".toList) ("false".toList) from rfl]
              exact jfield_parse (by decide) (jparse_false ('\x7d' :: rest))
  | .list l, h, f, depth, rest, hdf, hnest => by
    have hg : jgoodItems l = true := by simpa [jgoodV] using h
    rw [show jdepthV (DValue.list l) = jdepthItems l + 2 from rfl] at hdf
    rw [show jnestV (DValue.list l) = jnestItems l + 2 from rfl] at hnest
    cases f with
    | zero => omega
    | succ f =>
      cases f with
      | zero => omega
      | succ f =>
        cases depth with
        | zero => omega
        | succ depth =>
          cases depth with
          | zero => omega
          | succ d =>
            rw [show (DValue.list l).to_json
              = jfield ("List".toList) ('[' :: joinSep ',' (jsonItems l) ++ [']'])
              from rfl]
            refine jfield_parse (by decide) ?_
            cases l with
            | nil =>
              rw [show (('[' :: joinSep ',' (jsonItems ([] : List DValue)) ++ [']'])
                ++ '\x7d' :: rest) = '[' :: (']' :: ('\x7d' :: rest)) from rfl]
              rw [jparse, ms0_cons_of_not_ws (by decide)]
              simp only []
              rw [if_neg (by decide), if_neg (by decide), if_neg (by decide),
                if_neg (by decide), if_pos (by decide)]
              rw [if_pos (show 2 ≤ d + 1 by
                have := Nat.zero_le (jnestItems ([] : List DValue)); omega)]
              rw [ms0_cons_of_not_ws (by decide)]
              simp only []
              rw [if_pos (by decide)]
              rfl
            | cons v vs =>
              rw [show (('[' :: joinSep ',' (jsonItems (v :: vs)) ++ [']'])
                ++ '\x7d' :: rest)
                = '[' :: (joinSep ',' (jsonItems (v :: vs)) ++ ']' :: '\x7d' :: rest)
                by simp]
              rw [jparse, ms0_cons_of_not_ws (by decide)]
              simp only []
              rw [if_neg (by decide), if_neg (by decide), if_neg (by decide),
                if_neg (by decide), if_pos (by decide)]
              rw [if_pos (show 2 ≤ d + 1 by
                have := Nat.zero_le (jnestItems (v :: vs)); omega)]
              rw [show d + 1 - 1 = d from rfl]
              obtain ⟨c, ct, hceq, hcor⟩ := to_json_head v
              rw [joinSep_jsonItems, List.append_assoc, hceq, List.cons_append]
              rw [ms0_cons_of_not_ws (by rcases hcor with hc | hc <;> rw [hc] <;> decide)]
              simp only []
              rw [if_neg (by rcases hcor with hc | hc <;> rw [hc] <;> decide)]
              rw [← List.cons_append, ← hceq]
              rw [show v.to_json ++ (jseqTail vs ++ ']' :: '\x7d' :: rest)
                = joinSep ',' (jsonItems (v :: vs)) ++ ']' :: '\x7d' :: rest by
                  rw [joinSep_jsonItems, List.append_assoc]]
              rw [jparse_render_arr (v :: vs) hg f d _ [] ('\x7d' :: rest)
                (by omega) (by omega) ?_ (by simp)]
              · simp
              · have h1 := jseqTail_len vs
                have h2 : 1 ≤ v.to_json.length := by rw [hceq]; simp
                rw [joinSep_jsonItems]
                simp only [List.length_append, List.length_cons]
                omega
  | .dict dd, h, f, depth, rest, hdf, hnest => by
    have hg : jgoodEntries dd = true := by simpa [jgoodV] using h
    rw [show jdepthV (DValue.dict dd) = jdepthEntries dd + 2 from rfl] at hdf
    rw [show jnestV (DValue.dict dd) = jnestEntries dd + 2 from rfl] at hnest
    cases f with
    | zero => omega
    | succ f =>
      cases f with
      | zero => omega
      | succ f =>
        cases depth with
        | zero => omega
        | succ depth =>
          cases depth with
          | zero => omega
          | succ d =>
            rw [show (DValue.dict dd).to_json
              = jfield ("Dict".toList)
                  ('\x7b' :: joinSep ',' (jsonEntries dd) ++ ['\x7d']) from rfl]
            refine jfield_parse (by decide) ?_
            cases dd with
            | nil =>
              rw [show (('\x7b' :: joinSep ',' (jsonEntries ([] : List (Chars × DValue)))
                ++ ['\x7d']) ++ '\x7d' :: rest) = '\x7b' :: ('\x7d' :: ('\x7d' :: rest))
                from rfl]
              rw [jparse, ms0_cons_of_not_ws (by decide)]
              simp only []
              rw [if_neg (by decide), if_neg (by decide), if_neg (by decide),
                if_neg (by decide), if_neg (by decide), if_pos (by decide)]
              rw [if_pos (show 2 ≤ d + 1 by
                have := Nat.zero_le (jnestEntries ([] : List (Chars × DValue))); omega)]
              rw [ms0_cons_of_not_ws (by decide)]
              simp only []
              rw [if_pos (by decide)]
              rfl
            | cons p ps =>
              obtain ⟨k, v⟩ := p
              rw [show (('\x7b' :: joinSep ',' (jsonEntries ((k, v) :: ps)) ++ ['\x7d'])
                ++ '\x7d' :: rest)
                = '\x7b' :: (joinSep ',' (jsonEntries ((k, v) :: ps))
                    ++ '\x7d' :: '\x7d' :: rest) by simp]
              rw [jparse, ms0_cons_of_not_ws (by decide)]
              simp only []
              rw [if_neg (by decide), if_neg (by decide), if_neg (by decide),
                if_neg (by decide), if_neg (by decide), if_pos (by decide)]
              rw [if_pos (show 2 ≤ d + 1 by
                have := Nat.zero_le (jnestEntries ((k, v) :: ps)); omega)]
              rw [show d + 1 - 1 = d from rfl]
              rw [joinSep_jsonEntries, List.append_assoc]
              rw [show jentryRender (k, v) ++ (jseqTailE ps ++ '\x7d' :: '\x7d' :: rest)
                = '"' :: (escJson k
                    ++ '"' :: (':' :: (v.to_json
                      ++ (jseqTailE ps ++ '\x7d' :: '\x7d' :: rest))))
                by simp [jentryRender, jstr]]
              rw [ms0_cons_of_not_ws (by decide)]
              simp only []
              rw [if_neg (by decide)]
              rw [show ('"' :: (escJson k
                  ++ '"' :: (':' :: (v.to_json
                    ++ (jseqTailE ps ++ '\x7d' :: '\x7d' :: rest)))))
                = jentryRender (k, v) ++ (jseqTailE ps ++ '\x7d' :: '\x7d' :: rest)
                by simp [jentryRender, jstr]]
              rw [show jentryRender (k, v) ++ (jseqTailE ps ++ '\x7d' :: '\x7d' :: rest)
                = joinSep ',' (jsonEntries ((k, v) :: ps)) ++ '\x7d' :: '\x7d' :: rest by
                  rw [joinSep_jsonEntries, List.append_assoc]]
              rw [jparse_render_obj ((k, v) :: ps) hg f d _ [] ('\x7d' :: rest)
                (by omega) (by omega) ?_ (by simp)]
              · simp
              · have h1 := jseqTailE_len ps
                rw [joinSep_jsonEntries]
                simp only [List.length_append, List.length_cons, jentryRender, jstr]
                omega
  | .tuple a b, h, f, depth, rest, hdf, hnest => by
    have hab : jgoodV a = true ∧ jgoodV b = true := by
      simpa [jgoodV, Bool.and_eq_true] using h
    rw [show jdepthV (DValue.tuple a b) = max (jdepthV a) (jdepthV b) + 2 from rfl] at hdf
    rw [show jnestV (DValue.tuple a b) = max (jnestV a) (jnestV b) + 2 from rfl] at hnest
    cases f with
    | zero => omega
    | succ f =>
      cases f with
      | zero => omega
      | succ f =>
        cases depth with
        | zero => omega
        | succ depth =>
          cases depth with
          | zero => omega
          | succ d =>
            have hfa : jdepthV a ≤ f := by
              have := Nat.le_max_left (jdepthV a) (jdepthV b)
              omega
            have hfb : jdepthV b ≤ f := by
              have := Nat.le_max_right (jdepthV a) (jdepthV b)
              omega
            have hna : jnestV a < d := by
              have := Nat.le_max_left (jnestV a) (jnestV b)
              omega
            have hnb : jnestV b < d := by
              have := Nat.le_max_right (jnestV a) (jnestV b)
              omega
            rw [show (DValue.tuple a b).to_json
              = jfield ("Tuple".toList) ('[' :: a.to_json ++ ',' :: b.to_json ++ [']'])
              from rfl]
            refine jfield_parse (by decide) ?_
            rw [show (('[' :: a.to_json ++ ',' :: b.to_json ++ [']']) ++ '\x7d' :: rest)
              = '[' :: (a.to_json ++ ',' :: (b.to_json ++ ']' :: ('\x7d' :: rest)))
              by simp]
            rw [jparse, ms0_cons_of_not_ws (by decide)]
            simp only []
            rw [if_neg (by decide), if_neg (by decide), if_neg (by decide),
              if_neg (by decide), if_pos (by decide)]
            rw [if_pos (show 2 ≤ d + 1 by omega)]
            rw [show d + 1 - 1 = d from rfl]
            obtain ⟨c, ct, hceq, hcor⟩ := to_json_head a
            rw [hceq, List.cons_append]
            rw [ms0_cons_of_not_ws (by rcases hcor with hc | hc <;> rw [hc] <;> decide)]
            simp only []
            rw [if_neg (by rcases hcor with hc | hc <;> rw [hc] <;> decide)]
            rw [← List.cons_append, ← hceq]
            rw [jarrLoop_two _ []
              (by
                have h2 : 1 ≤ a.to_json.length := by rw [hceq]; simp
                simp only [List.length_append, List.length_cons]
                omega)
              (jparse_render_val a hab.1 f d _ hfa hna)
              (jparse_render_val b hab.2 f d _ hfb hnb)]
            simp
  | .binaryUtil bin, h, f, depth, rest, hdf, hnest => by
    rw [show jdepthV (DValue.binaryUtil bin) = 4 from rfl] at hdf
    rw [show jnestV (DValue.binaryUtil bin) = 3 from rfl] at hnest
    cases f with
    | zero => omega
    | succ f =>
      cases f with
      | zero => omega
      | succ f =>
        cases f with
        | zero => omega
        | succ f =>
          cases depth with
          | zero => omega
          | succ depth =>
            cases depth with
            | zero => omega
            | succ depth =>
              cases depth with
              | zero => omega
              | succ depth =>
                cases depth with
                | zero => omega
                | succ d =>
                  rw [show (DValue.binaryUtil bin).to_json
                    = jfield ("BinaryUtil".toList)
                        (jfield ("data".toList)
                          ('[' :: joinSep ',' (bin.data.map natChars) ++ [']']))
                    by simp [DValue.to_json, jfield]]
                  refine jfield_parse (by decide) (jfield_parse (by decide) ?_)
                  exact jparse_bytes_arr bin.data f d (by omega)
                    ('\x7d' :: ('\x7d' :: rest))

theorem jparse_render_arr : ∀ l : List DValue, jgoodItems l = true →
    ∀ (f e g : Nat) (acc : List Json) (rest : Chars), jdepthItems l ≤ f →
    jnestItems l < e → l.length ≤ g → l ≠ [] →
    jarrLoop (fun j2 => jparse f e j2) g acc
      (joinSep ',' (jsonItems l) ++ ']' :: rest)
      = some (acc.reverse ++ jsonOfItems l, rest)
  | [], _, _, _, _, _, _, _, _, _, hne => absurd rfl hne
  | v :: vs, h, f, e, g, acc, rest, hdf, hne, hg, _ => by
    cases g with
    | zero => exact absurd hg (by simp)
    | succ g =>
      simp only [jgoodItems, Bool.and_eq_true] at h
      obtain ⟨hv, hvs⟩ := h
      rw [jdepthItems, Nat.max_le] at hdf
      obtain ⟨hfa, hfl⟩ := hdf
      rw [jnestItems, Nat.max_lt] at hne
      obtain ⟨hna, hnl⟩ := hne
      rw [joinSep_jsonItems, List.append_assoc]
      rw [jarrLoop]
      try simp only []
      rw [jparse_render_val v hv f e _ hfa hna]
      simp only []
      have hterm : termHead (jseqTail vs ++ ']' :: rest) = true :=
        termHead_jseqTail (termHead_rbracket rest) vs
      rw [ms0_term hterm]
      cases vs with
      | nil =>
        rw [jseqTail, List.nil_append]
        simp only []
        rw [if_neg (by decide), if_pos (by decide)]
        simp [jsonOfItems]
      | cons w ws =>
        rw [jseqTail]
        simp only [List.cons_append, List.append_assoc]
        rw [if_pos (by decide)]
        rw [show w.to_json ++ (jseqTail ws ++ ']' :: rest)
          = joinSep ',' (jsonItems (w :: ws)) ++ ']' :: rest by
            rw [joinSep_jsonItems, List.append_assoc]]
        rw [jparse_render_arr (w :: ws) hvs f e g (jsonOf v :: acc) rest hfl hnl
          (by rw [List.length_cons] at hg; omega) (by simp)]
        simp [jsonOfItems]

theorem jparse_render_obj : ∀ d : List (Chars × DValue), jgoodEntries d = true →
    ∀ (f e g : Nat) (acc : List (Chars × Json)) (rest : Chars), jdepthEntries d ≤ f →
    jnestEntries d < e → d.length ≤ g → d ≠ [] →
    jobjLoop (fun j2 => jparse f e j2) g acc
      (joinSep ',' (jsonEntries d) ++ '\x7d' :: rest)
      = some (acc.reverse ++ jsonOfEntries d, rest)
  | [], _, _, _, _, _, _, _, _, _, hne => absurd rfl hne
  | (k, v) :: ds, h, f, e, g, acc, rest, hdf, hne, hg, _ => by
    cases g with
    | zero => exact absurd hg (by simp)
    | succ g =>
      rw [jgoodEntries] at h
      simp only [Bool.and_eq_true] at h
      obtain ⟨⟨-, hv⟩, hds⟩ := h
      rw [jdepthEntries, Nat.max_le] at hdf
      obtain ⟨hfa, hfl⟩ := hdf
      rw [jnestEntries, Nat.max_lt] at hne
      obtain ⟨hna, hnl⟩ := hne
      rw [joinSep_jsonEntries, List.append_assoc]
      rw [show jentryRender (k, v) ++ (jseqTailE ds ++ '\x7d' :: rest)
        = '"' :: (escJson k
            ++ '"' :: (':' :: (v.to_json ++ (jseqTailE ds ++ '\x7d' :: rest))))
        by simp [jentryRender, jstr]]
      rw [jobjLoop]
      rw [ms0_cons_of_not_ws (by decide)]
      simp only []
      rw [if_pos (by decide)]
      have hstr := jstrLoop_esc k
        ((escJson k
          ++ '"' :: (':' :: (v.to_json ++ (jseqTailE ds ++ '\x7d' :: rest)))).length + 1)
        (':' :: (v.to_json ++ (jseqTailE ds ++ '\x7d' :: rest)))
        (by simp only [List.length_append, List.length_cons]; omega)
      rw [hstr]
      simp only []
      rw [ms0_cons_of_not_ws (by decide)]
      simp only []
      rw [if_pos (by decide)]
      rw [jparse_render_val v hv f e _ hfa hna]
      simp only []
      have hterm : termHead (jseqTailE ds ++ '\x7d' :: rest) = true :=
        termHead_jseqTailE (termHead_rbrace rest) ds
      rw [ms0_term hterm]
      cases ds with
      | nil =>
        rw [jseqTailE, List.nil_append]
        simp only []
        rw [if_neg (by decide), if_pos (by decide)]
        simp [jsonOfEntries]
      | cons q qs =>
        rw [jseqTailE]
        simp only [List.cons_append, List.append_assoc]
        rw [if_pos (by decide)]
        rw [show jentryRender q ++ (jseqTailE qs ++ '\x7d' :: rest)
          = joinSep ',' (jsonEntries (q :: qs)) ++ '\x7d' :: rest by
            rw [joinSep_jsonEntries, List.append_assoc]]
        rw [jparse_render_obj (q :: qs) hds f e g ((k, jsonOf v) :: acc) rest hfl hnl
          (by rw [List.length_cons] at hg; omega) (by simp)]
        simp [jsonOfEntries]

end

theorem bytesOfJson_map : ∀ bs : List Nat, (∀ b ∈ bs, b < 256) →
    bytesOfJson (bs.map (fun b : Nat => Json.num ⟨(b : Int), 1⟩ true)) = some bs := by
  intro bs
  induction bs with
  | nil => intro _; rfl
  | cons b bt ih =>
    intro hall
    rw [List.map_cons, bytesOfJson]
    rw [if_pos ⟨rfl, rfl, by show (0 : Int) ≤ (b : Int); positivity,
      by show (b : Int) < 256; exact_mod_cast hall b (by simp)⟩]
    rw [ih (fun b2 hb2 => hall b2 (by simp [hb2]))]
    simp

mutual

theorem devalOf_jsonOf : ∀ v : DValue, jgoodV v = true →
    devalOfJson (jsonOf v) = some v
  | .none, _ => by rfl
  | .string s, _ => by
    rw [show jsonOf (DValue.string s)
      = Json.obj [("String".toList, Json.str s)] from rfl]
    rfl
  | .number x, h => by
    cases x with
    | finite q =>
      rw [show jsonOf (DValue.number (F64.finite q))
        = Json.obj [("Number".toList, Json.num q false)] from rfl]
      rfl
    | nan => exact absurd h (by decide)
    | inf => exact absurd h (by decide)
    | neginf => exact absurd h (by decide)
  | .boolean b, _ => by
    rw [show jsonOf (DValue.boolean b)
      = Json.obj [("Boolean".toList, Json.bool b)] from rfl]
    rfl
  | .list l, h => by
    rw [show jsonOf (DValue.list l)
      = Json.obj [("List".toList, Json.arr (jsonOfItems l))] from rfl]
    rw [devalOfJson]
    rw [if_neg (by decide), if_neg (by decide), if_neg (by decide), if_neg (by decide),
      if_pos (by decide)]
    rw [devList]
    rw [devalsOf_jsonOfItems l (by simpa [jgoodV] using h)]
    rfl
  | .dict d, h => by
    have hg : jgoodEntries d = true := by simpa [jgoodV] using h
    rw [show jsonOf (DValue.dict d)
      = Json.obj [("Dict".toList, Json.obj (jsonOfEntries d))] from rfl]
    rw [devalOfJson]
    rw [if_neg (by decide), if_neg (by decide), if_neg (by decide), if_neg (by decide),
      if_neg (by decide), if_pos (by decide)]
    rw [devDict]
    rw [dentriesOf_jsonOfEntries d hg]
    simp only [Option.map_some']
    rw [jcollectHM_id hg]
  | .tuple a b, h => by
    have hab : jgoodV a = true ∧ jgoodV b = true := by
      simpa [jgoodV, Bool.and_eq_true] using h
    rw [show jsonOf (DValue.tuple a b)
      = Json.obj [("Tuple".toList, Json.arr [jsonOf a, jsonOf b])] from rfl]
    rw [devalOfJson]
    rw [if_neg (by decide), if_neg (by decide), if_neg (by decide), if_neg (by decide),
      if_neg (by decide), if_neg (by decide), if_pos (by decide)]
    rw [devTuple]
    rw [devalOf_jsonOf a hab.1, devalOf_jsonOf b hab.2]
    rfl
  | .binaryUtil bin, h => by
    rw [show jsonOf (DValue.binaryUtil bin)
      = Json.obj [("BinaryUtil".toList,
          Json.obj [("data".toList,
            Json.arr (bin.data.map (fun byte : Nat => Json.num ⟨(byte : Int), 1⟩ true)))])]
      from rfl]
    rw [devalOfJson]
    rw [if_neg (by decide), if_neg (by decide), if_neg (by decide), if_neg (by decide),
      if_neg (by decide), if_neg (by decide), if_neg (by decide), if_pos (by decide)]
    rw [devBinary]
    rw [if_pos (by decide)]
    rw [bytesOfJson_map bin.data (by
      have h2 := h
      rw [show jgoodV (DValue.binaryUtil bin)
        = bin.data.all (fun byte => decide (byte < 256)) from rfl] at h2
      rw [List.all_eq_true] at h2
      intro b hb
      simpa using h2 b hb)]
    rfl

theorem devalsOf_jsonOfItems : ∀ l : List DValue, jgoodItems l = true →
    devalsOfJson (jsonOfItems l) = some l
  | [], _ => rfl
  | v :: vs, h => by
    simp only [jgoodItems, Bool.and_eq_true] at h
    obtain ⟨hv, hvs⟩ := h
    rw [jsonOfItems, devalsOfJson]
    rw [devalOf_jsonOf v hv, Option.some_bind]
    rw [devalsOf_jsonOfItems vs hvs]
    rfl

theorem dentriesOf_jsonOfEntries : ∀ d : List (Chars × DValue), jgoodEntries d = true →
    dentriesOfJson (jsonOfEntries d) = some d
  | [], _ => rfl
  | (k, v) :: ds, h => by
    rw [jgoodEntries] at h
    simp only [Bool.and_eq_true] at h
    obtain ⟨⟨-, hv⟩, hds⟩ := h
    rw [jsonOfEntries, dentriesOfJson]
    rw [devalOf_jsonOf v hv, Option.some_bind]
    rw [dentriesOf_jsonOfEntries ds hds]
    rfl

end

theorem joinSep_le_jseqTail (rest : List DValue) :
    (joinSep ',' (jsonItems rest)).length ≤ (jseqTail rest).length := by
  cases rest with
  | nil => simp [jseqTail, jsonItems, joinSep]
  | cons w ws =>
    rw [jseqTail, joinSep_jsonItems]
    simp

theorem joinSepE_le_jseqTailE (rest : List (Chars × DValue)) :
    (joinSep ',' (jsonEntries rest)).length ≤ (jseqTailE rest).length := by
  cases rest with
  | nil => simp [jseqTailE, jsonEntries, joinSep]
  | cons q qs =>
    rw [jseqTailE, joinSep_jsonEntries]
    simp

mutual

theorem jdepthV_le_len : ∀ v : DValue, jdepthV v ≤ v.to_json.length
  | .none => by decide
  | .string s => by
    rw [show jdepthV (DValue.string s) = 2 from rfl]
    rw [show (DValue.string s).to_json = jfield ("String".toList) (jstr s) from rfl]
    simp only [jfield, jstr, List.length_cons, List.length_append, List.length_singleton]
    omega
  | .number x => by
    rw [show jdepthV (DValue.number x) = 2 from rfl]
    rw [show (DValue.number x).to_json = jfield ("Number".toList) (jnumF x) from rfl]
    simp only [jfield, jstr, List.length_cons, List.length_append, List.length_singleton]
    omega
  | .boolean b => by
    rw [show jdepthV (DValue.boolean b) = 2 from rfl]
    cases b <;>
      (first
        | (rw [show (DValue.boolean true).to_json
              = jfield ("Boolean".toList) ("true".toList) from rfl]
           simp only [jfield, jstr, List.length_cons, List.length_append,
             List.length_singleton]
           omega)
        | (rw [show (DValue.boolean false).to_json
              = jfield ("Boolean".toList) ("false".toList) from rfl]
           simp only [jfield, jstr, List.length_cons, List.length_append,
             List.length_singleton]
           omega))
  | .list l => by
    rw [show jdepthV (DValue.list l) = jdepthItems l + 2 from rfl]
    rw [show (DValue.list l).to_json
      = jfield ("List".toList) ('[' :: joinSep ',' (jsonItems l) ++ [']']) from rfl]
    have := jdepthItems_le_len l
    simp only [jfield, jstr, List.length_cons, List.length_append, List.length_singleton]
    omega
  | .dict d => by
    rw [show jdepthV (DValue.dict d) = jdepthEntries d + 2 from rfl]
    rw [show (DValue.dict d).to_json
      = jfield ("Dict".toList)
          ('\x7b' :: joinSep ',' (jsonEntries d) ++ ['\x7d']) from rfl]
    have := jdepthEntries_le_len d
    simp only [jfield, jstr, List.length_cons, List.length_append, List.length_singleton]
    omega
  | .tuple a b => by
    rw [show jdepthV (DValue.tuple a b) = max (jdepthV a) (jdepthV b) + 2 from rfl]
    rw [show (DValue.tuple a b).to_json
      = jfield ("Tuple".toList) ('[' :: a.to_json ++ ',' :: b.to_json ++ [']'])
      from rfl]
    have ha := jdepthV_le_len a
    have hb := jdepthV_le_len b
    simp only [jfield, jstr, List.length_cons, List.length_append, List.length_singleton]
    omega
  | .binaryUtil bin => by
    rw [show jdepthV (DValue.binaryUtil bin) = 4 from rfl]
    rw [show (DValue.binaryUtil bin).to_json
      = jfield ("BinaryUtil".toList)
          ('\x7b' :: jstr ("data".toList) ++ ':' :: '[' ::
            joinSep ',' (bin.data.map natChars) ++ [']', '\x7d']) from rfl]
    simp only [jfield, jstr, List.length_cons, List.length_append, List.length_singleton]
    omega

theorem jdepthItems_le_len : ∀ l : List DValue,
    jdepthItems l ≤ (joinSep ',' (jsonItems l)).length + 1
  | [] => by simp [jdepthItems]
  | v :: rest => by
    rw [jdepthItems, joinSep_jsonItems]
    have h1 := jdepthV_le_len v
    have h2 := jdepthItems_le_len rest
    have h3 := joinSep_le_jseqTail rest
    simp only [List.length_append]
    omega

theorem jdepthEntries_le_len : ∀ d : List (Chars × DValue),
    jdepthEntries d ≤ (joinSep ',' (jsonEntries d)).length + 1
  | [] => by simp [jdepthEntries]
  | (k, v) :: rest => by
    rw [jdepthEntries, joinSep_jsonEntries]
    have h1 := jdepthV_le_len v
    have h2 := jdepthEntries_le_len rest
    have h3 := joinSepE_le_jseqTailE rest
    rw [jentryRender]
    simp only [List.length_append, List.cons_append, List.length_cons, jstr]
    omega

end

theorem from_json_to_json {v : DValue} (h : jgoodV v = true)
    (hn : jnestV v < 128) : DValue.from_json v.to_json = v := by
  unfold DValue.from_json jsonDoc
  have hp : jparse (v.to_json.length + 1) 128 (v.to_json ++ [])
      = some (jsonOf v, []) :=
    jparse_render_val v h _ 128 [] (by have := jdepthV_le_len v; omega) hn
  rw [List.append_nil] at hp
  rw [hp]
  simp only []
  rw [show ms0 [] = [] from rfl, if_pos rfl]
  simp only []
  rw [devalOf_jsonOf v h]

/-- serde_json's recursion limit is live in the embedding: a `List` nested
64 levels deep serializes to a document with 128 nested composites, whose
re-parse hits the default budget of 128 and errors, so `from_json`
collapses it to `None`; one level less stays within the budget and
round-trips. -/
theorem from_json_recursion_limit :
    DValue.from_json (deepList 64).to_json = DValue.none ∧
    deepList 64 ≠ DValue.none ∧
    DValue.from_json (deepList 63).to_json = deepList 63 := by
  refine ⟨by decide, by decide, from_json_to_json (by decide) (by decide)⟩

/-- C6: the universal JSON round-trip fails on non-finite numbers:
serde_json writes f64 NaN as `null`, and on the way back the Number
payload rejects `null`, so deserialization fails and `unwrap_or` collapses
the whole value to `None`, whose rendering `none` differs from `NaN`. -/
theorem c6_json_roundtrip_counterexample :
    (DValue.from_json (DValue.number F64.nan).to_json).to_string
      ≠ (DValue.number F64.nan).to_string := by decide

/-- C6 (amended): on the fragment whose numbers are all finite and exactly
re-readable from their JSON rendering, whose dicts have no duplicate keys,
whose binary bytes are in `u8` range, and whose document nesting stays
below serde_json's default recursion budget of 128 (the `jnestV` measure:
every envelope object and every `List`/`Dict`/`Tuple` payload costs one
level, a `BinaryUtil` three) — strings need no condition, serde's escaping
being exactly inverted by the string parser, and `None` round-trips both
bare and nested — `from_json` after `to_json` returns the value itself,
hence reproduces the canonical rendering. -/
theorem c6_json_roundtrip_amended (v : DValue) (h : jgoodV v = true)
    (hd : jnestV v < 128) :
    DValue.from_json v.to_json = v ∧
    (DValue.from_json v.to_json).to_string = v.to_string := by
  have hm := from_json_to_json h hd
  exact ⟨hm, by rw [hm]⟩

/-- C6 witness: a concrete nested value — a Tuple of a List containing a
None and a Dict containing a Binary — that survives the JSON round-trip
unchanged. -/
theorem c6_json_roundtrip_witness :
    jgoodV (DValue.tuple
      (DValue.list [DValue.number (F64.finite 1), DValue.none])
      (DValue.dict [(['a'], DValue.binaryUtil (Binary.new [109, 101]))])) = true ∧
    jnestV (DValue.tuple
      (DValue.list [DValue.number (F64.finite 1), DValue.none])
      (DValue.dict [(['a'], DValue.binaryUtil (Binary.new [109, 101]))])) < 128 ∧
    DValue.from_json (DValue.tuple
      (DValue.list [DValue.number (F64.finite 1), DValue.none])
      (DValue.dict [(['a'], DValue.binaryUtil (Binary.new [109, 101]))])).to_json
      = DValue.tuple
        (DValue.list [DValue.number (F64.finite 1), DValue.none])
        (DValue.dict [(['a'], DValue.binaryUtil (Binary.new [109, 101]))]) :=
  ⟨by decide, by decide, (c6_json_roundtrip_amended _ (by decide) (by decide)).1⟩
